import Mathlib

/-!
# Software-timer scheduler (`drivers/scheduler.cpp`)

A shallow embedding of the fixed-pool timer scheduler: the slot record
`timer_t`, the scheduler's globals, the tick handler `timer_callback_irql`,
the dispatch routine `on_timer_timeout`, the deferred event handler
`on_timer_event`, registration (`schedule_internal`) and cancellation
(`scheduler_cancel_timer`).

## Conventions

* Machine integers are natural numbers; `wrap64` and `wrap32` reduce them
  where the C code can wrap.
* A failed `assert` is an `Except.error`; a run stops there.  Where a property
  is about the globals at a failed assertion, the function has a second
  embedding whose error carries them (`scheduler_cancel_timer_mem`,
  `scheduler_init_mem`, `schedule_internal_mem`); dropping them with `forget`
  gives the first embedding back.
* Pointers are numbers: a timer handle is the index of its slot, a callback
  is a number.  What a callback does to the scheduler is given by a `Prog`:
  the list of scheduler calls it makes.  A callback that registers a
  zero-period timer runs a callback inside a callback; the nesting is bounded
  by a fuel argument, and `quiet` is the behaviour of callbacks that make no
  scheduler call.
* The event queue is a collaborator outside the sources.  The state keeps the
  scheduler's own events that sit in it (oldest first); whether a push
  succeeds is decided by a `PushOracle`, so every pattern of full and
  not-full answers is covered.
* `State.trace` records, in order, each callback invocation and each push
  attempt, with the tick counter at that moment.  The code never reads it.
* Every operation is one atomic step.  Registration and cancellation run
  with interrupts masked; the consumer's handler `on_timer_event` is taken as
  atomic too: its preemption by the tick handler is not modelled.
* The busy loop of `scheduler_wait` is preempted by the tick interrupt: the
  arrivals are an argument, one entry per evaluation of the loop condition.

## Layout

Definitions come first: the model, then the invariant `Inv` of the pool and
the view of a single slot (`SlotView`) with the functions that describe a
tick and a consumer step on one slot, the states used as examples, the
embeddings that keep the globals at a failed assertion, and `scheduler_wait`.
The last block of definitions holds the slot functions that give dispatch
and event handling in closed form, and the invariants of the flags and of the
due ticks (`Sound`, `Kept`, `Settled`, `Ahead`).
The theorems follow: preservation of `Inv` by every operation for arbitrary
callbacks, the simulation of ticks and consumer steps on slot views for quiet
callbacks, and the properties `C1` to `C30`.
-/

namespace Scheduler

/-- The enum `callback_type`. -/
inductive callback_type where
  | no_arg
  | void_ptr
deriving DecidableEq

/-- The slot record `timer_t`.  Pointers (callback, argument, debug name) are
numbers. -/
structure timer_t where
  used : Bool
  repeatable : Bool
  canceled : Bool
  pending : Bool
  irql : Bool
  period : Nat
  next_tick_count : Nat
  type : callback_type
  callback : Nat
  callback_arg : Nat
  debug_name : Nat
deriving DecidableEq

/-- The constant `timer_count`. -/
def timer_count : Nat := 32

/-- A zero-initialised slot (static storage). -/
def timer_zero : timer_t :=
  { used := false, repeatable := false, canceled := false, pending := false,
    irql := false, period := 0, next_tick_count := 0, type := callback_type.no_arg,
    callback := 0, callback_arg := 0, debug_name := 0 }

/-- Reduction of a value to the range of `uint64_t`. -/
def wrap64 (n : Nat) : Nat := n % 18446744073709551616

/-- Reduction of a value to the range of `uint32_t`. -/
def wrap32 (n : Nat) : Nat := n % 4294967296

/-- Observable events, recorded in the order they happen: a callback
invocation (slot, tick counter at the call, callback, argument passed if any),
and a push attempt on the event queue (slot, tick counter, outcome). -/
inductive Obs where
  | call (slot tick callback : Nat) (arg : Option Nat)
  | push (slot tick : Nat) (ok : Bool)
deriving DecidableEq

/-- The failed assertions of the source, one constructor per `assert`, and the
exhaustion of a bound of the model (the nesting of callbacks, the evaluations
of the loop condition of `scheduler_wait`). -/
inductive Fault where
  | event_queue_not_init
  | already_initialized
  | interrupts_disabled
  | event_not_used
  | event_not_pending
  | timeout_not_used
  | timeout_canceled
  | timeout_pending
  | pending_not_repeatable
  | not_initialized
  | repeatable_zero_period
  | pool_exhausted
  | handle_out_of_pool
  | handle_not_used
  | out_of_fuel
deriving DecidableEq

/-- The scheduler's globals (`timers`, `scheduler_initialized`, `tick_count`),
the interrupt mask register, the `on_timer_event` events sitting in the event
queue (slot of each, oldest first), and the record of observable events. -/
structure State where
  timers : List timer_t
  scheduler_initialized : Bool
  tick_count : Nat
  primask : Nat
  queue : List Nat
  trace : List Obs
deriving DecidableEq

/-- The state at start-up: static storage is zero, the queue is empty. -/
def State.zero : State :=
  { timers := List.replicate timer_count timer_zero, scheduler_initialized := false,
    tick_count := 0, primask := 0, queue := [], trace := [] }

/-- The slot `timers[i]`. -/
def State.timer (s : State) (i : Nat) : timer_t := s.timers.getD i timer_zero

/-- Assignment to fields of `timers[i]`. -/
def State.upd (s : State) (i : Nat) (f : timer_t → timer_t) : State :=
  { s with timers := s.timers.set i (f (s.timer i)) }

/-- Append an observable event to the record. -/
def State.emit (s : State) (e : Obs) : State :=
  { s with trace := s.trace ++ [e] }

/-- The arguments of `schedule_internal`. -/
structure sched_args where
  type : callback_type
  callback : Nat
  callback_arg : Nat
  irql : Bool
  debug_name : Nat
  period_ms : Nat
  repeatable : Bool
deriving DecidableEq

/-- A scheduler call made by a user callback. -/
inductive Action where
  | cancel (h : Nat)
  | schedule (a : sched_args)
deriving DecidableEq

/-- The behaviour of user callbacks: the scheduler calls that the callback
function makes, given the argument it receives and the state it runs in. -/
abbrev Prog := Nat → Option Nat → State → List Action

/-- The outcome of `event_queue_try_push` for an event of a given slot. -/
abbrev PushOracle := Nat → Bool

/-- Modelled from the spec: `event_queue_try_push`, the non-blocking push of
the bounded event queue (`event_queue.h`, not part of the sources).  It returns
false iff the queue is full; whether it is full depends on the other producers
and is given by `q`.  On success the event `on_timer_event (timers[i])` is
appended to the queue. -/
def event_queue_try_push (q : PushOracle) (i : Nat) (s : State) : Bool × State :=
  if q i then
    (true, { s with queue := s.queue ++ [i],
                    trace := s.trace ++ [Obs.push i s.tick_count true] })
  else
    (false, { s with trace := s.trace ++ [Obs.push i s.tick_count false] })

/-- The function `scheduler_cancel_timer`. -/
def scheduler_cancel_timer (h : Nat) (s : State) : Except Fault State :=
  if ¬ h < timer_count then Except.error Fault.handle_out_of_pool
  else if ¬ (s.timer h).used then Except.error Fault.handle_not_used
  else
    let primask := s.primask
    let s1 := { s with primask := 1 }
    let s2 :=
      if (s1.timer h).pending then s1.upd h (fun t => { t with canceled := true })
      else s1.upd h (fun t => { t with used := false })
    Except.ok { s2 with primask := primask }

/-- The function `on_timer_timeout`; `cc` is `call_callback`. -/
def on_timer_timeout (cc : Nat → State → Except Fault State) (q : PushOracle)
    (i : Nat) (s : State) : Except Fault State :=
  if (s.timer i).irql then
    if ¬ (s.timer i).used then Except.error Fault.timeout_not_used
    else if (s.timer i).canceled then Except.error Fault.timeout_canceled
    else if (s.timer i).pending then Except.error Fault.timeout_pending
    else
      match cc i (s.upd i (fun t => { t with pending := true })) with
      | Except.error e => Except.error e
      | Except.ok s2 =>
        let s3 := s2.upd i (fun t => { t with pending := false })
        if (s3.timer i).canceled then
          Except.ok (s3.upd i (fun t => { t with used := false }))
        else if (s3.timer i).repeatable then
          Except.ok (s3.upd i (fun t =>
            { t with next_tick_count := wrap64 (t.next_tick_count + t.period) }))
        else Except.ok s3
  else
    let r := event_queue_try_push q i s
    let s2 := r.2.upd i (fun t => { t with pending := r.1 })
    if ¬ (s2.timer i).pending then
      Except.ok (s2.upd i (fun t => { t with next_tick_count := wrap64 (t.next_tick_count + 1) }))
    else if (s2.timer i).repeatable then
      Except.ok (s2.upd i (fun t =>
        { t with next_tick_count := wrap64 (t.next_tick_count + t.period) }))
    else Except.ok s2

/-- The free-slot scan of `schedule_internal`: the first slot that is not
used, counting from `i`; the assertion fails when the scan leaves the pool. -/
def find_free : List timer_t → Nat → Except Fault Nat
  | [], _ => Except.error Fault.pool_exhausted
  | t :: rest, i => if ¬ t.used then Except.ok i else find_free rest (i + 1)

/-- The function `schedule_internal`; returns the handle (slot index). -/
def schedule_internal (cc : Nat → State → Except Fault State) (q : PushOracle)
    (a : sched_args) (s : State) : Except Fault (Nat × State) :=
  if ¬ s.scheduler_initialized then Except.error Fault.not_initialized
  else if a.repeatable ∧ ¬ a.period_ms > 0 then Except.error Fault.repeatable_zero_period
  else
    let primask := s.primask
    let s1 := { s with primask := 1 }
    match find_free s1.timers 0 with
    | Except.error e => Except.error e
    | Except.ok i =>
      let s2 := s1.upd i (fun t =>
        { t with canceled := false, pending := false, irql := a.irql,
                 repeatable := a.repeatable, period := a.period_ms, type := a.type,
                 callback := a.callback, callback_arg := a.callback_arg,
                 next_tick_count := wrap64 (s1.tick_count + a.period_ms),
                 debug_name := a.debug_name, used := true })
      if a.period_ms = 0 then
        match on_timer_timeout cc q i s2 with
        | Except.error e => Except.error e
        | Except.ok s3 => Except.ok (i, { s3 with primask := primask })
      else Except.ok (i, { s2 with primask := primask })

/-- One scheduler call made from inside a callback. -/
def run_action (cc : Nat → State → Except Fault State) (q : PushOracle) :
    Action → State → Except Fault State
  | Action.cancel h, s => scheduler_cancel_timer h s
  | Action.schedule a, s =>
    match schedule_internal cc q a s with
    | Except.error e => Except.error e
    | Except.ok r => Except.ok r.2

/-- The scheduler calls of a callback body, in order. -/
def run_actions (cc : Nat → State → Except Fault State) (q : PushOracle) :
    List Action → State → Except Fault State
  | [], s => Except.ok s
  | a :: rest, s =>
    match run_action cc q a s with
    | Except.error e => Except.error e
    | Except.ok s1 => run_actions cc q rest s1

/-- The function `call_callback` applied to `timers[i]`: the callback is
invoked without argument or with `callback_arg` according to the slot's `type`,
and its body runs.  The first argument bounds the nesting of callbacks that
register zero-period timers. -/
def call_callback (prog : Prog) (q : PushOracle) : Nat → Nat → State → Except Fault State
  | 0, _, _ => Except.error Fault.out_of_fuel
  | fuel + 1, i, s =>
    let t := s.timer i
    let arg := if t.type = callback_type.no_arg then none else some t.callback_arg
    let s1 := s.emit (Obs.call i s.tick_count t.callback arg)
    run_actions (call_callback prog q fuel) q (prog t.callback arg s1) s1

/-- The function `on_timer_event` for the event whose argument is `timers[i]`. -/
def on_timer_event (cc : Nat → State → Except Fault State) (i : Nat) (s : State) :
    Except Fault State :=
  if ¬ (s.timer i).used then Except.error Fault.event_not_used
  else if ¬ (s.timer i).pending then Except.error Fault.event_not_pending
  else if (s.timer i).canceled then
    Except.ok (s.upd i (fun t => { t with used := false }))
  else
    match cc i s with
    | Except.error e => Except.error e
    | Except.ok s2 =>
      let s3 := s2.upd i (fun t => { t with pending := false })
      if (s3.timer i).canceled then
        Except.ok (s3.upd i (fun t => { t with used := false }))
      else Except.ok s3

/-- Body of the loop of `timer_callback_irql` for slot `i`. -/
def tick_visit (cc : Nat → State → Except Fault State) (q : PushOracle) (i : Nat)
    (s : State) : Except Fault State :=
  if (s.timer i).used ∧ (s.timer i).next_tick_count = s.tick_count then
    if (s.timer i).pending then
      if ¬ (s.timer i).repeatable then Except.error Fault.pending_not_repeatable
      else Except.ok (s.upd i (fun t => { t with next_tick_count := wrap64 (t.next_tick_count + 1) }))
    else on_timer_timeout cc q i s
  else Except.ok s

/-- The loop of `timer_callback_irql` over `n` slots starting at slot `i`. -/
def tick_scan (cc : Nat → State → Except Fault State) (q : PushOracle) :
    Nat → Nat → State → Except Fault State
  | 0, _, s => Except.ok s
  | n + 1, i, s =>
    match tick_visit cc q i s with
    | Except.error e => Except.error e
    | Except.ok s1 => tick_scan cc q n (i + 1) s1

/-- The tick handler `timer_callback_irql`. -/
def timer_callback_irql (cc : Nat → State → Except Fault State) (q : PushOracle)
    (s : State) : Except Fault State :=
  tick_scan cc q timer_count 0 { s with tick_count := wrap64 (s.tick_count + 1) }

/-- Modelled from the spec: the deferred event consumer (the event queue's
dispatch loop is not part of the sources).  It takes the oldest event off the
queue and runs its handler `on_timer_event`; with an empty queue it does
nothing. -/
def event_queue_drain (cc : Nat → State → Except Fault State) (s : State) :
    Except Fault State :=
  match s.queue with
  | [] => Except.ok s
  | i :: rest => on_timer_event cc i { s with queue := rest }

/-- The function `scheduler_init`: `queue_is_init` is the result of
`event_queue_is_init`, `clock_freq` that of `clock_get_freq`.  Returns the
prescaler and reload passed to `timer_init`. -/
def scheduler_init (queue_is_init : Bool) (clock_freq : Nat) (s : State) :
    Except Fault ((Nat × Nat) × State) :=
  if ¬ queue_is_init then Except.error Fault.event_queue_not_init
  else if s.scheduler_initialized then Except.error Fault.already_initialized
  else
    let reload := 999
    let prescaler := wrap32 (wrap32 clock_freq / (reload + 1) / 1000 + 4294967296 - 1)
    Except.ok ((prescaler, reload), { s with scheduler_initialized := true })

/-- The function `scheduler_is_init`. -/
def scheduler_is_init (s : State) : Bool := s.scheduler_initialized

/-- The function `scheduler_get_time_ms32`. -/
def scheduler_get_time_ms32 (s : State) : Nat := wrap32 s.tick_count

/-- The function `scheduler_get_time_ms64`. -/
def scheduler_get_time_ms64 (s : State) : Nat := s.tick_count

/-- The operations on the scheduler from outside: initialisation,
registration, cancellation, one run of the tick handler, and the consumer
handling one queued event. -/
inductive Op where
  | init (queue_is_init : Bool) (clock_freq : Nat)
  | schedule (a : sched_args) (q : PushOracle)
  | cancel (h : Nat)
  | tick (q : PushOracle)
  | drain

/-- One operation.  Callbacks invoked by the consumer that register a
zero-period deferred timer find the queue as `q0` reports. -/
def step (prog : Prog) (fuel : Nat) (q0 : PushOracle) : Op → State → Except Fault State
  | Op.init b f, s =>
    match scheduler_init b f s with
    | Except.error e => Except.error e
    | Except.ok r => Except.ok r.2
  | Op.schedule a q, s =>
    match schedule_internal (call_callback prog q fuel) q a s with
    | Except.error e => Except.error e
    | Except.ok r => Except.ok r.2
  | Op.cancel h, s => scheduler_cancel_timer h s
  | Op.tick q, s => timer_callback_irql (call_callback prog q fuel) q s
  | Op.drain, s => event_queue_drain (call_callback prog q0 fuel) s

/-- A sequence of operations; the run stops at the first failed assertion. -/
def run (prog : Prog) (fuel : Nat) (q0 : PushOracle) : List Op → State → Except Fault State
  | [], s => Except.ok s
  | op :: rest, s =>
    match step prog fuel q0 op s with
    | Except.error e => Except.error e
    | Except.ok s1 => run prog fuel q0 rest s1

/-- The states the scheduler can be in: those a sequence of operations
reaches from the start-up state. -/
def Reachable (prog : Prog) (fuel : Nat) (q0 : PushOracle) (s : State) : Prop :=
  ∃ ops, run prog fuel q0 ops State.zero = Except.ok s

/-! ## Invariant and slot views -/

/-- A slot whose event is in flight but not in the queue: its callback is
being invoked. -/
def InFlight (i : Nat) (s : State) : Prop :=
  (s.timer i).used = true ∧ (s.timer i).pending = true ∧ i ∉ s.queue

/-- The pool invariant: no slot has two events in the queue, a slot with a
queued event is used and pending, a pending slot is used or canceled, and the
pool has `timer_count` slots. -/
structure Inv (s : State) : Prop where
  nodup : s.queue.Nodup
  queued : ∀ i ∈ s.queue, (s.timer i).used = true ∧ (s.timer i).pending = true
  pend : ∀ i, (s.timer i).pending = true → (s.timer i).used = true ∨ (s.timer i).canceled = true
  len : s.timers.length = timer_count

/-- What a callback invocation may be relied on to keep. -/
def Good (cc : Nat → State → Except Fault State) : Prop :=
  ∀ j s s', cc j s = Except.ok s' → Inv s → Inv s' ∧ ∀ i, InFlight i s → InFlight i s'

/-- Callbacks that make no scheduler call. -/
def quiet : Prog := fun _ _ _ => []

/-- The slot an observable event belongs to. -/
def Obs.slot : Obs → Nat
  | Obs.call i _ _ _ => i
  | Obs.push i _ _ => i

/-- The recorded events of slot `h`, in order. -/
def slot_events (h : Nat) (tr : List Obs) : List Obs :=
  tr.filter (fun e => decide (e.slot = h))

/-- The argument `call_callback` passes for a slot. -/
def call_arg (t : timer_t) : Option Nat :=
  if t.type = callback_type.no_arg then none else some t.callback_arg

/-- What the scheduler state shows of one slot: the slot record, the tick
counter, the number of queued events of the slot, its recorded events, and
the initialized flag. -/
structure SlotView where
  t : timer_t
  tick : Nat
  queued : Nat
  events : List Obs
  init : Bool

/-- The view of slot `h` in a state. -/
def view (h : Nat) (s : State) : SlotView :=
  { t := s.timer h, tick := s.tick_count, queued := s.queue.count h,
    events := slot_events h s.trace, init := s.scheduler_initialized }

/-- `on_timer_timeout` on the view of the slot it is applied to, for quiet callbacks. -/
def timeout_view (h : Nat) (ok : Bool) (v : SlotView) : Except Fault SlotView :=
  if v.t.irql then
    if ¬ v.t.used then Except.error Fault.timeout_not_used
    else if v.t.canceled then Except.error Fault.timeout_canceled
    else if v.t.pending then Except.error Fault.timeout_pending
    else
      Except.ok
        { v with t := { v.t with pending := false,
                                 next_tick_count :=
                                   if v.t.repeatable then wrap64 (v.t.next_tick_count + v.t.period)
                                   else v.t.next_tick_count },
                 events := v.events ++ [Obs.call h v.tick v.t.callback (call_arg v.t)] }
  else if ok then
    Except.ok
      { v with t := { v.t with pending := true,
                               next_tick_count :=
                                 if v.t.repeatable then wrap64 (v.t.next_tick_count + v.t.period)
                                 else v.t.next_tick_count },
               queued := v.queued + 1,
               events := v.events ++ [Obs.push h v.tick true] }
  else
    Except.ok
      { v with t := { v.t with pending := false,
                               next_tick_count := wrap64 (v.t.next_tick_count + 1) },
               events := v.events ++ [Obs.push h v.tick false] }

/-- The loop body of the tick handler on the view of the slot it visits. -/
def visit_view (h : Nat) (ok : Bool) (v : SlotView) : Except Fault SlotView :=
  if v.t.used ∧ v.t.next_tick_count = v.tick then
    if v.t.pending then
      if ¬ v.t.repeatable then Except.error Fault.pending_not_repeatable
      else Except.ok { v with t := { v.t with next_tick_count := wrap64 (v.t.next_tick_count + 1) } }
    else timeout_view h ok v
  else Except.ok v

/-- The tick handler on the view of a slot of the pool. -/
def tick_view (h : Nat) (ok : Bool) (v : SlotView) : Except Fault SlotView :=
  visit_view h ok { v with tick := wrap64 (v.tick + 1) }

/-- The handler `on_timer_event` on the view of its slot, once its event is
taken off the queue, for quiet callbacks. -/
def event_view (h : Nat) (v : SlotView) : Except Fault SlotView :=
  if ¬ v.t.used then Except.error Fault.event_not_used
  else if ¬ v.t.pending then Except.error Fault.event_not_pending
  else if v.t.canceled then
    Except.ok { v with t := { v.t with used := false }, queued := v.queued - 1 }
  else
    Except.ok { v with t := { v.t with pending := false }, queued := v.queued - 1,
                       events := v.events ++ [Obs.call h v.tick v.t.callback (call_arg v.t)] }

/-- Operations that register or cancel nothing: a tick or a consumer step. -/
def Op.passive : Op → Bool
  | Op.tick _ => true
  | Op.drain => true
  | _ => false

/-- A run of the tick handler. -/
def Op.ticking : Op → Bool
  | Op.tick _ => true
  | _ => false

/-- The slot record written by `schedule_internal`. -/
def fresh_timer (a : sched_args) (now : Nat) : timer_t :=
  { used := true, repeatable := a.repeatable, canceled := false, pending := false,
    irql := a.irql, period := a.period_ms, next_tick_count := wrap64 (now + a.period_ms),
    type := a.type, callback := a.callback, callback_arg := a.callback_arg,
    debug_name := a.debug_name }

/-- The number of callback invocations recorded for slot `h`. -/
def invocations (h : Nat) (tr : List Obs) : Nat :=
  ((slot_events h tr).filter (fun e => match e with
    | Obs.call _ _ _ _ => true
    | Obs.push _ _ _ => false)).length

/-- The push oracle of an event queue with room. -/
def always : PushOracle := fun _ => true

/-- The push oracle of a full event queue. -/
def never : PushOracle := fun _ => false

/-- Sample registration arguments. -/
def sample_args (irql : Bool) (period_ms : Nat) (repeatable : Bool) : sched_args :=
  { type := callback_type.void_ptr, callback := 7, callback_arg := 5, irql := irql,
    debug_name := 0, period_ms := period_ms, repeatable := repeatable }

/-- The start-up state after `scheduler_init`. -/
def State.ready : State := { State.zero with scheduler_initialized := true }

/-- The state after start-up, registration of a deferred timer of period 1 in
slot 0, and one tick whose push succeeds: the slot's event is in the queue. -/
def State.queued (repeatable : Bool) : State :=
  { State.ready.upd 0 (fun _ =>
      { fresh_timer (sample_args false 1 repeatable) 0 with
        pending := true, next_tick_count := if repeatable then 2 else 1 }) with
    tick_count := 1, queue := [0], trace := [Obs.push 0 1 true] }

/-- The state `State.queued false` after the timer is canceled and the
consumer has discarded its event. -/
def State.discarded : State :=
  { State.ready.upd 0 (fun _ =>
      { fresh_timer (sample_args false 1 false) 0 with
        used := false, canceled := true, pending := true, next_tick_count := 1 }) with
    tick_count := 1, queue := [], trace := [Obs.push 0 1 true] }

/-- The state after a one-shot deferred timer of period 0 is registered in
slot 0 of the start-up pool: `ok` tells whether the push succeeded. -/
def State.zero_period (ok : Bool) : State :=
  { State.ready.upd 0 (fun _ =>
      { fresh_timer (sample_args false 0 false) 0 with
        pending := ok, next_tick_count := if ok then 0 else 1 }) with
    queue := if ok then [0] else [], trace := [Obs.push 0 0 ok] }

/-- The start-up pool with one timer registered in slot 0 at tick 0. -/
def State.armed (a : sched_args) : State := State.ready.upd 0 (fun _ => fresh_timer a 0)

/-- The number of runs of the tick handler in a sequence of operations. -/
def ticks (ops : List Op) : Nat := ops.countP Op.ticking

/-- A failed assertion together with the globals as the statements executed
before it left them. -/
abbrev Halt := Fault × State

/-- Drop the globals kept with a failed assertion. -/
def forget {α : Type} : Except Halt α → Except Fault α
  | Except.ok a => Except.ok a
  | Except.error e => Except.error e.1

/-- The function `scheduler_cancel_timer`, keeping the globals at a failed
assertion. -/
def scheduler_cancel_timer_mem (h : Nat) (s : State) : Except Halt State :=
  if ¬ h < timer_count then Except.error (Fault.handle_out_of_pool, s)
  else if ¬ (s.timer h).used then Except.error (Fault.handle_not_used, s)
  else
    let primask := s.primask
    let s1 := { s with primask := 1 }
    let s2 :=
      if (s1.timer h).pending then s1.upd h (fun t => { t with canceled := true })
      else s1.upd h (fun t => { t with used := false })
    Except.ok { s2 with primask := primask }

/-- The function `scheduler_init`, keeping the globals at a failed assertion. -/
def scheduler_init_mem (queue_is_init : Bool) (clock_freq : Nat) (s : State) :
    Except Halt ((Nat × Nat) × State) :=
  if ¬ queue_is_init then Except.error (Fault.event_queue_not_init, s)
  else if s.scheduler_initialized then Except.error (Fault.already_initialized, s)
  else
    let reload := 999
    let prescaler := wrap32 (wrap32 clock_freq / (reload + 1) / 1000 + 4294967296 - 1)
    Except.ok ((prescaler, reload), { s with scheduler_initialized := true })

/-- The function `schedule_internal`, keeping the globals at a failed
assertion; `tm` is `on_timer_timeout`. -/
def schedule_internal_mem (tm : Nat → State → Except Halt State) (a : sched_args)
    (s : State) : Except Halt (Nat × State) :=
  if ¬ s.scheduler_initialized then Except.error (Fault.not_initialized, s)
  else if a.repeatable ∧ ¬ a.period_ms > 0 then Except.error (Fault.repeatable_zero_period, s)
  else
    let primask := s.primask
    let s1 := { s with primask := 1 }
    match find_free s1.timers 0 with
    | Except.error e => Except.error (e, s1)
    | Except.ok i =>
      let s2 := s1.upd i (fun t =>
        { t with canceled := false, pending := false, irql := a.irql,
                 repeatable := a.repeatable, period := a.period_ms, type := a.type,
                 callback := a.callback, callback_arg := a.callback_arg,
                 next_tick_count := wrap64 (s1.tick_count + a.period_ms),
                 debug_name := a.debug_name, used := true })
      if a.period_ms = 0 then
        match tm i s2 with
        | Except.error e => Except.error e
        | Except.ok s3 => Except.ok (i, { s3 with primask := primask })
      else Except.ok (i, { s2 with primask := primask })

/-- The tick interrupt at one evaluation of the loop condition of
`scheduler_wait`: taken before it (`some q`, its pushes answered by `q`) or
not (`none`). -/
def take_irq (prog : Prog) (fuel : Nat) : Option PushOracle → State → Except Fault State
  | none, s => Except.ok s
  | some q, s => timer_callback_irql (call_callback prog q fuel) q s

/-- The loop of `scheduler_wait`, `start` being the counter value read before
it.  Each entry of `irqs` stands for one evaluation of the loop condition and
tells whether the tick interrupt is taken before it.  The loop of the source
has no bound: a wait that is still spinning when `irqs` ends is reported as
`Fault.out_of_fuel`. -/
def wait_loop (prog : Prog) (fuel : Nat) (start ms : Nat) :
    List (Option PushOracle) → State → Except Fault State
  | [], _ => Except.error Fault.out_of_fuel
  | irq :: rest, s =>
    match take_irq prog fuel irq s with
    | Except.error e => Except.error e
    | Except.ok s1 =>
      if wrap64 (s1.tick_count + 18446744073709551616 - wrap64 start) < ms then
        wait_loop prog fuel start ms rest s1
      else Except.ok s1

/-- The function `scheduler_wait`; `irqs` is the arrival of tick interrupts
during the wait. -/
def scheduler_wait (prog : Prog) (fuel : Nat) (ms : Nat) (irqs : List (Option PushOracle))
    (s : State) : Except Fault State :=
  if ¬ (s.primask % 2 = 0) then Except.error Fault.interrupts_disabled
  else wait_loop prog fuel s.tick_count ms irqs s

/-- The invocation, in interrupt context, of a callback whose body is
`scheduler_wait (ms)`: the tick interrupt does not preempt its own handler, so
it is taken at none of the `n` evaluations of the loop condition. -/
def wait_callback (ms n : Nat) : Nat → State → Except Fault State :=
  fun i s => scheduler_wait quiet 0 ms (List.replicate n none)
    (s.emit (Obs.call i s.tick_count (s.timer i).callback (call_arg (s.timer i))))

/-- The scalar globals: the tick counter, the initialized flag and the
interrupt mask. -/
def State.regs (s : State) : Nat × Bool × Nat :=
  (s.tick_count, s.scheduler_initialized, s.primask)

/-- A callback invocation that returns with the scalar globals as it found
them. -/
def Keeps (cc : Nat → State → Except Fault State) : Prop :=
  ∀ j s s', cc j s = Except.ok s' → s'.regs = s.regs

/-- An initialisation. -/
def Op.inits : Op → Bool
  | Op.init _ _ => true
  | _ => false

/-! ## Dispatch in closed form, invariants of the flags and of the due ticks -/

/-- Callbacks that re-enter the scheduler: callback 1 registers a one-shot
timer of period 0 with callback 2, in the given context; the other callbacks
make no scheduler call. -/
def reentrant (irql : Bool) : Prog := fun c _ _ =>
  if c = 1 then
    [Action.schedule { type := callback_type.no_arg, callback := 2, callback_arg := 0,
                       irql := irql, debug_name := 0, period_ms := 0, repeatable := false }]
  else []

/-- A repeatable interrupt-context timer of period 1 with callback 1. -/
def reentrant_args : sched_args :=
  { type := callback_type.no_arg, callback := 1, callback_arg := 0, irql := true,
    debug_name := 0, period_ms := 1, repeatable := true }

/-- The statements of `on_timer_timeout` after the callback of an
interrupt-context timer has returned, as a function on the slot. -/
def after_dispatch (t : timer_t) : timer_t :=
  if t.canceled then { t with pending := false, used := false }
  else if t.repeatable then
    { t with pending := false, next_tick_count := wrap64 (t.next_tick_count + t.period) }
  else { t with pending := false }

/-- The statements of `on_timer_timeout` for a deferred timer after the push
attempt, as a function on the slot. -/
def after_push (ok : Bool) (t : timer_t) : timer_t :=
  if ok then
    if t.repeatable then
      { t with pending := true, next_tick_count := wrap64 (t.next_tick_count + t.period) }
    else { t with pending := true }
  else { t with pending := false, next_tick_count := wrap64 (t.next_tick_count + 1) }

/-- The statements of `on_timer_event` after the callback has returned, as a
function on the slot. -/
def after_event (t : timer_t) : timer_t :=
  if t.canceled then { t with pending := false, used := false }
  else { t with pending := false }

/-- The state after the push attempt of `on_timer_timeout` for slot `i`. -/
def pushed (q : PushOracle) (i : Nat) (s : State) : State :=
  { s with queue := if q i then s.queue ++ [i] else s.queue,
           trace := s.trace ++ [Obs.push i s.tick_count (q i)] }

/-- What holds of the flags of every slot, `P` being the interrupt-context
slots whose callback is being invoked: a used slot with a cancellation
requested is pending, and a used interrupt-context slot is pending only while
its callback is being invoked. -/
structure Sound (P : Nat → Prop) (s : State) : Prop where
  tidy : ∀ i, (s.timer i).used = true → (s.timer i).canceled = true →
    (s.timer i).pending = true
  idle : ∀ i, (s.timer i).used = true → (s.timer i).irql = true →
    (s.timer i).pending = true → P i

/-- A callback invocation that keeps `Sound`. -/
def Sounds (cc : Nat → State → Except Fault State) : Prop :=
  ∀ (P : Nat → Prop) j s s', cc j s = Except.ok s' → Sound P s → Sound P s'

/-- The assertions on the flags of a slot: those at the start of the dispatch
of an interrupt-context timer and those of the consumer's handler. -/
def Fault.on_flags : Fault → Bool
  | Fault.event_not_used => true
  | Fault.event_not_pending => true
  | Fault.timeout_not_used => true
  | Fault.timeout_canceled => true
  | Fault.timeout_pending => true
  | _ => false

/-- A callback invocation in which no assertion on the flags of a slot
fails. -/
def Safe (cc : Nat → State → Except Fault State) : Prop :=
  ∀ (P : Nat → Prop) j s e, Inv s → Sound P s → cc j s = Except.error e → e.on_flags = false

/-- What a callback body leaves of the slots whose event is in flight: every
used, pending slot keeps all its fields but `canceled`, and gets `n` more
invocations recorded. -/
def Kept (n : Nat → Nat) (s s' : State) : Prop :=
  ∀ i, (s.timer i).used = true → (s.timer i).pending = true →
    s'.timer i = { s.timer i with canceled := (s'.timer i).canceled } ∧
    invocations i s'.trace = invocations i s.trace + n i

/-- A callback invocation that leaves the slots whose event is in flight, and
records one invocation, of its own slot. -/
def Calm (cc : Nat → State → Except Fault State) : Prop :=
  ∀ j s s', cc j s = Except.ok s' → Kept (fun i => if i = j then 1 else 0) s s'

/-- Callbacks that cancel the timer they are invoked for (the slot of the
invocation is the last event of the record) and make no other scheduler
call. -/
def cancel_own : Prog := fun _ _ s =>
  match s.trace.getLast? with
  | some (Obs.call i _ _ _) => [Action.cancel i]
  | _ => []

/-- Callbacks limited to cancelling their own handle: every scheduler call of
the callback invoked for slot `i` is the cancellation of handle `i`. -/
def SelfCanceling (prog : Prog) : Prop :=
  ∀ (i : Nat) (s : State), ∀ a ∈ prog (s.timer i).callback (call_arg (s.timer i))
      (s.emit (Obs.call i s.tick_count (s.timer i).callback (call_arg (s.timer i)))),
    a = Action.cancel i

/-- A callback invocation that does not stop at the assertion of the tick
handler on a pending due slot. -/
def Unasserted (cc : Nat → State → Except Fault State) : Prop :=
  ∀ j s e, cc j s = Except.error e → e ≠ Fault.pending_not_repeatable

/-- A callback invocation that leaves the slots other than its own. -/
def Own (cc : Nat → State → Except Fault State) : Prop :=
  ∀ i s s', cc i s = Except.ok s' → ∀ k, k ≠ i → s'.timer k = s.timer k

/-- What holds of the one-shot slots whose event is in flight while the scan
of the tick handler is at slot `k`: the due tick is not after the counter, and
is before it for the slots the scan has not passed. -/
def Settled (k : Nat) (s : State) : Prop :=
  ∀ i, (s.timer i).used = true → (s.timer i).repeatable = false →
    (s.timer i).pending = true →
    (s.timer i).next_tick_count ≤ s.tick_count ∧
    (k ≤ i → (s.timer i).next_tick_count < s.tick_count)

/-- What holds of the one-shot slots whose event is in flight between
operations: the due tick is not after the counter. -/
def Late (s : State) : Prop :=
  ∀ i, (s.timer i).used = true → (s.timer i).repeatable = false →
    (s.timer i).pending = true → (s.timer i).next_tick_count ≤ s.tick_count

/-- Callbacks whose registrations pass a period that fits `uint32_t`. -/
def Bounded (prog : Prog) : Prop :=
  ∀ c x y a, Action.schedule a ∈ prog c x y → a.period_ms < 4294967296

/-- What holds of the due ticks of the repeatable slots while the scan of the
tick handler is at slot `k` (between operations `k` is `timer_count`): the
counter is far from its wrap; every used repeatable slot has a positive period
that fits 32 bits and a due tick from the counter on, at most a period ahead;
the due tick of a slot the scan has passed is after the counter. -/
structure Ahead (k : Nat) (s : State) : Prop where
  room : s.tick_count + 4294967296 < 18446744073709551616
  due : ∀ i, (s.timer i).used = true → (s.timer i).repeatable = true →
    0 < (s.timer i).period ∧ (s.timer i).period < 4294967296 ∧
    s.tick_count ≤ (s.timer i).next_tick_count ∧
    (i < k → s.tick_count < (s.timer i).next_tick_count) ∧
    (s.timer i).next_tick_count ≤ s.tick_count + (s.timer i).period

/-- A callback invocation that keeps `Ahead`. -/
def Aheads (cc : Nat → State → Except Fault State) : Prop :=
  ∀ k j s s', cc j s = Except.ok s' → Ahead k s → Ahead k s'

/-! ## Basic facts and the pool invariant -/

@[simp] theorem upd_tick_count (s : State) (i : Nat) (f : timer_t → timer_t) :
    (s.upd i f).tick_count = s.tick_count := rfl

@[simp] theorem upd_queue (s : State) (i : Nat) (f : timer_t → timer_t) :
    (s.upd i f).queue = s.queue := rfl

@[simp] theorem upd_trace (s : State) (i : Nat) (f : timer_t → timer_t) :
    (s.upd i f).trace = s.trace := rfl

@[simp] theorem upd_init (s : State) (i : Nat) (f : timer_t → timer_t) :
    (s.upd i f).scheduler_initialized = s.scheduler_initialized := rfl

@[simp] theorem upd_primask (s : State) (i : Nat) (f : timer_t → timer_t) :
    (s.upd i f).primask = s.primask := rfl

@[simp] theorem upd_length (s : State) (i : Nat) (f : timer_t → timer_t) :
    (s.upd i f).timers.length = s.timers.length := by simp [State.upd]

theorem timer_upd (s : State) (i j : Nat) (f : timer_t → timer_t) :
    (s.upd i f).timer j = if j = i ∧ i < s.timers.length then f (s.timer i) else s.timer j := by
  unfold State.upd State.timer
  simp only [List.getD_eq_getElem?_getD, List.getElem?_set]
  by_cases hji : j = i
  · subst hji
    by_cases hl : j < s.timers.length
    · simp [hl]
    · simp [hl, List.getElem?_eq_none (show s.timers.length ≤ j by omega)]
  · have : ¬ i = j := fun h => hji h.symm
    simp [hji, this]

theorem used_lt (s : State) (i : Nat) (h : (s.timer i).used = true) : i < s.timers.length := by
  by_contra hl
  unfold State.timer at h
  rw [List.getD_eq_getElem?_getD, List.getElem?_eq_none (by omega)] at h
  simp [timer_zero] at h

@[simp] theorem timer_with_primask (s : State) (p i : Nat) :
    ({ s with primask := p } : State).timer i = s.timer i := rfl

@[simp] theorem timer_with_tick (s : State) (p i : Nat) :
    ({ s with tick_count := p } : State).timer i = s.timer i := rfl

@[simp] theorem timer_with_queue (s : State) (l : List Nat) (i : Nat) :
    ({ s with queue := l } : State).timer i = s.timer i := rfl

@[simp] theorem timer_with_trace (s : State) (l : List Obs) (i : Nat) :
    ({ s with trace := l } : State).timer i = s.timer i := rfl

@[simp] theorem timer_with_queue_trace (s : State) (l : List Nat) (l2 : List Obs) (i : Nat) :
    ({ s with queue := l, trace := l2 } : State).timer i = s.timer i := rfl

@[simp] theorem timer_with_init (s : State) (b : Bool) (i : Nat) :
    ({ s with scheduler_initialized := b } : State).timer i = s.timer i := rfl

@[simp] theorem timer_emit (s : State) (e : Obs) (i : Nat) : (s.emit e).timer i = s.timer i := rfl

@[simp] theorem emit_queue (s : State) (e : Obs) : (s.emit e).queue = s.queue := rfl

@[simp] theorem emit_tick_count (s : State) (e : Obs) : (s.emit e).tick_count = s.tick_count := rfl

@[simp] theorem emit_trace (s : State) (e : Obs) : (s.emit e).trace = s.trace ++ [e] := rfl

@[simp] theorem emit_timers (s : State) (e : Obs) : (s.emit e).timers = s.timers := rfl

@[simp] theorem emit_init (s : State) (e : Obs) :
    (s.emit e).scheduler_initialized = s.scheduler_initialized := rfl

@[simp] theorem emit_primask (s : State) (e : Obs) : (s.emit e).primask = s.primask := rfl

theorem Inv_congr {s r : State} (ht : r.timers = s.timers) (hq : r.queue = s.queue)
    (h : Inv s) : Inv r := by
  have ht' : ∀ i, r.timer i = s.timer i := fun i => by simp [State.timer, ht]
  exact ⟨hq ▸ h.nodup, fun i hi => by rw [ht']; exact h.queued i (hq ▸ hi),
    fun i hi => by rw [ht'] at hi ⊢; exact h.pend i hi, by rw [ht]; exact h.len⟩

theorem InFlight_congr {s r : State} (ht : r.timers = s.timers) (hq : r.queue = s.queue)
    {i : Nat} (h : InFlight i s) : InFlight i r := by
  have ht' : ∀ i, r.timer i = s.timer i := fun i => by simp [State.timer, ht]
  unfold InFlight at *
  rw [ht', hq]; exact h

theorem Inv_upd {s : State} (i : Nat) (f : timer_t → timer_t) (h : Inv s)
    (hq : i ∈ s.queue → (f (s.timer i)).used = true ∧ (f (s.timer i)).pending = true)
    (hp : (f (s.timer i)).pending = true →
      (f (s.timer i)).used = true ∨ (f (s.timer i)).canceled = true) :
    Inv (s.upd i f) := by
  refine ⟨h.nodup, fun k hk => ?_, fun k hk => ?_, by rw [upd_length]; exact h.len⟩
  · rw [timer_upd]
    split
    · next hc => exact hq (hc.1 ▸ hk)
    · exact h.queued k hk
  · rw [timer_upd] at hk ⊢
    split
    · next hc => rw [if_pos hc] at hk; exact hp hk
    · next hc => rw [if_neg hc] at hk; exact h.pend k hk

theorem InFlight_upd_ne {s : State} {i k : Nat} (f : timer_t → timer_t) (hne : k ≠ i) :
    InFlight k (s.upd i f) ↔ InFlight k s := by
  unfold InFlight
  rw [timer_upd, if_neg (fun hc => hne hc.1)]
  rfl

theorem upd_congr {s : State} {i : Nat} {f g : timer_t → timer_t}
    (h : f (s.timer i) = g (s.timer i)) : s.upd i f = s.upd i g := by
  unfold State.upd
  rw [h]

/-- Cancellation in closed form: the flag it sets depends on `pending`. -/
theorem cancel_eq {h : Nat} {s s' : State}
    (hc : scheduler_cancel_timer h s = Except.ok s') :
    h < timer_count ∧ (s.timer h).used = true ∧
    s' = s.upd h (fun t => if t.pending then { t with canceled := true }
                           else { t with used := false }) := by
  unfold scheduler_cancel_timer at hc
  split at hc
  · cases hc
  next h1 =>
  split at hc
  · cases hc
  next h2 =>
  refine ⟨by omega, by simpa using h2, ?_⟩
  simp only [timer_with_primask] at hc
  injection hc with hc
  subst hc
  by_cases hp : (s.timer h).pending = true
  · simp only [hp, if_true]
    show s.upd h (fun t => { t with canceled := true }) = _
    apply upd_congr; simp [hp]
  · simp only [hp, if_false]
    show s.upd h (fun t => { t with used := false }) = _
    apply upd_congr; simp [hp]

theorem cancel_good {h : Nat} {s s' : State}
    (hc : scheduler_cancel_timer h s = Except.ok s') (hi : Inv s) :
    Inv s' ∧ ∀ i, InFlight i s → InFlight i s' := by
  obtain ⟨_, hu, rfl⟩ := cancel_eq hc
  by_cases hp : (s.timer h).pending = true
  · refine ⟨Inv_upd h _ hi ?_ ?_, fun i hfl => ?_⟩
    · intro hq; simpa [hp] using hi.queued h hq
    · intro _; simp [hp]
    · unfold InFlight at *
      rw [timer_upd]
      split
      · next hc => obtain ⟨rfl, _⟩ := hc; simpa [hp] using hfl
      · exact hfl
  · have hnq : h ∉ s.queue := fun hq => hp (hi.queued h hq).2
    refine ⟨Inv_upd h _ hi (fun hq => absurd hq hnq) ?_, fun i hfl => ?_⟩
    · simp [hp]
    · have : i ≠ h := fun e => hp (e ▸ hfl.2.1)
      exact (InFlight_upd_ne _ this).2 hfl

theorem timer_upd_same {s : State} {i : Nat} (f : timer_t → timer_t) (h : i < s.timers.length) :
    (s.upd i f).timer i = f (s.timer i) := by
  rw [timer_upd, if_pos ⟨rfl, h⟩]

theorem timer_upd_ne {s : State} {i j : Nat} (f : timer_t → timer_t) (h : j ≠ i) :
    (s.upd i f).timer j = s.timer j := by
  rw [timer_upd, if_neg (fun hc => h hc.1)]

theorem InFlight_upd_same {s : State} {i : Nat} (f : timer_t → timer_t)
    (h : InFlight i s) (hu : (f (s.timer i)).used = true) (hp : (f (s.timer i)).pending = true) :
    InFlight i (s.upd i f) := by
  have hl := used_lt s i h.1
  exact ⟨by rw [timer_upd_same f hl]; exact hu, by rw [timer_upd_same f hl]; exact hp, h.2.2⟩

theorem Inv_push {s : State} {i : Nat} {l : List Obs} (h : Inv s) (hq : i ∉ s.queue)
    (hu : (s.timer i).used = true) :
    Inv (State.upd { s with queue := s.queue ++ [i], trace := l } i
      (fun t => { t with pending := true })) := by
  have hl := used_lt s i hu
  refine ⟨?_, fun k hk => ?_, fun k hk => ?_, by rw [upd_length]; exact h.len⟩
  · show (s.queue ++ [i]).Nodup
    exact List.Nodup.append h.nodup (List.nodup_singleton i) (by simpa using hq)
  · have hk' : k ∈ s.queue ++ [i] := hk
    rw [timer_upd]
    split
    · simpa using hu
    · next hc =>
      rcases List.mem_append.1 hk' with hk1 | hk1
      · exact h.queued k hk1
      · simp at hk1; exact absurd ⟨hk1, hl⟩ hc
  · rw [timer_upd] at hk ⊢
    split
    · left; simpa using hu
    · next hc => rw [if_neg hc] at hk; exact h.pend k hk

theorem Inv_upd_flags {s : State} (i : Nat) (f : timer_t → timer_t) (h : Inv s)
    (hf : ∀ t, (f t).used = t.used ∧ (f t).pending = t.pending ∧ (f t).canceled = t.canceled) :
    Inv (s.upd i f) := by
  obtain ⟨h1, h2, h3⟩ := hf (s.timer i)
  refine Inv_upd i f h (fun hq => ?_) (fun hp => ?_)
  · rw [h1, h2]; exact h.queued i hq
  · rw [h1, h3]; rw [h2] at hp; exact h.pend i hp

theorem InFlight_upd_flags {s : State} (i k : Nat) (f : timer_t → timer_t)
    (hf : ∀ t, (f t).used = t.used ∧ (f t).pending = t.pending ∧ (f t).canceled = t.canceled)
    (h : InFlight k s) : InFlight k (s.upd i f) := by
  unfold InFlight at *
  rw [timer_upd]
  split
  · next hc =>
    obtain ⟨rfl, _⟩ := hc
    obtain ⟨h1, h2, _⟩ := hf (s.timer k)
    rw [h1, h2]; exact h
  · exact h

theorem on_timer_timeout_good {cc : Nat → State → Except Fault State} {q : PushOracle}
    {i : Nat} {s s' : State} (hcc : Good cc) (hu : (s.timer i).used = true)
    (hnp : (s.timer i).pending = false) (hi : Inv s)
    (h : on_timer_timeout cc q i s = Except.ok s') :
    Inv s' ∧ ∀ k, k ≠ i → InFlight k s → InFlight k s' := by
  have hl := used_lt s i hu
  have hnq : i ∉ s.queue := fun hq => by simpa [hnp] using (hi.queued i hq).2
  unfold on_timer_timeout at h
  by_cases hirq : (s.timer i).irql = true
  · -- interrupt-context timer
    rw [if_pos hirq, if_neg (not_not.2 hu)] at h
    by_cases hcn : (s.timer i).canceled = true
    · rw [if_pos hcn] at h; cases h
    rw [if_neg hcn, if_neg (by simp [hnp])] at h
    split at h
    · cases h
    next s2 hc2 =>
    have hi1 : Inv (s.upd i (fun t => { t with pending := true })) :=
      Inv_upd i _ hi (fun hq => absurd hq hnq) (fun _ => Or.inl hu)
    have hf1 : InFlight i (s.upd i (fun t => { t with pending := true })) :=
      ⟨by rw [timer_upd_same _ hl]; exact hu, by rw [timer_upd_same _ hl], hnq⟩
    obtain ⟨hi2, hfl2⟩ := hcc _ _ _ hc2 hi1
    have hf2 := hfl2 i hf1
    have hl2 := used_lt s2 i hf2.1
    have hi3 : Inv (s2.upd i (fun t => { t with pending := false })) :=
      Inv_upd i _ hi2 (fun hq => absurd hq hf2.2.2) (fun hp => by simp at hp)
    have hp3 : ((s2.upd i (fun t => { t with pending := false })).timer i).pending = false := by
      rw [timer_upd_same _ hl2]
    have hother : ∀ k, k ≠ i → InFlight k s →
        InFlight k (s2.upd i (fun t => { t with pending := false })) := fun k hk hfk =>
      (InFlight_upd_ne _ hk).2 (hfl2 k ((InFlight_upd_ne _ hk).2 hfk))
    simp only at h
    split at h
    · injection h with h; subst h
      exact ⟨Inv_upd i _ hi3 (fun hq => absurd hq hf2.2.2) (fun hp => by simp [hp3] at hp),
        fun k hk hfk => (InFlight_upd_ne _ hk).2 (hother k hk hfk)⟩
    split at h
    · injection h with h; subst h
      exact ⟨Inv_upd i _ hi3 (fun hq => absurd hq hf2.2.2) (fun hp => by simp [hp3] at hp),
        fun k hk hfk => (InFlight_upd_ne _ hk).2 (hother k hk hfk)⟩
    · injection h with h; subst h
      exact ⟨hi3, hother⟩
  · -- deferred timer
    rw [if_neg hirq] at h
    simp only [event_queue_try_push] at h
    by_cases hqi : q i = true
    · simp only [hqi, if_true] at h
      have hi2 := Inv_push (l := s.trace ++ [Obs.push i s.tick_count true]) hi hnq hu
      have hfl2 : ∀ k, k ≠ i → InFlight k s → InFlight k
          (State.upd { s with queue := s.queue ++ [i],
                              trace := s.trace ++ [Obs.push i s.tick_count true] } i
            (fun t => { t with pending := true })) := fun k hk hfk =>
        (InFlight_upd_ne _ hk).2 ⟨hfk.1, hfk.2.1, by
          show k ∉ s.queue ++ [i]
          simpa [hk] using hfk.2.2⟩
      rw [if_neg (by simp [timer_upd, hl])] at h
      split at h <;> (injection h with h; subst h)
      · exact ⟨Inv_upd_flags i _ hi2 (fun t => ⟨rfl, rfl, rfl⟩),
          fun k hk hfk => InFlight_upd_flags i k _ (fun t => ⟨rfl, rfl, rfl⟩) (hfl2 k hk hfk)⟩
      · exact ⟨hi2, hfl2⟩
    · simp only [hqi] at h
      rw [if_pos (by simp [timer_upd, hl])] at h
      injection h with h; subst h
      have hi2 : Inv (State.upd { s with trace := s.trace ++ [Obs.push i s.tick_count false] } i
          (fun t => { t with pending := false })) :=
        Inv_upd i _ (Inv_congr (s := s) rfl rfl hi) (fun hq => absurd hq hnq) (fun hp => by simp at hp)
      exact ⟨Inv_upd_flags i _ hi2 (fun t => ⟨rfl, rfl, rfl⟩),
        fun k hk hfk => InFlight_upd_flags i k _ (fun t => ⟨rfl, rfl, rfl⟩)
          ((InFlight_upd_ne _ hk).2 hfk)⟩

theorem find_free_spec (l : List timer_t) (k i : Nat) (h : find_free l k = Except.ok i) :
    k ≤ i ∧ i - k < l.length ∧ (l.getD (i - k) timer_zero).used = false ∧
    ∀ j, j < i - k → (l.getD j timer_zero).used = true := by
  induction l generalizing k with
  | nil => simp [find_free] at h
  | cons t rest ih =>
    unfold find_free at h
    by_cases hu : t.used = true
    · rw [if_neg (not_not.2 hu)] at h
      obtain ⟨h1, h2, h3, h4⟩ := ih (k + 1) h
      have e : i - k = (i - (k + 1)) + 1 := by omega
      refine ⟨by omega, by simp; omega, by rw [e]; simpa using h3, fun j hj => ?_⟩
      cases j with
      | zero => simpa using hu
      | succ j => simpa using h4 j (by omega)
    · rw [if_pos hu] at h
      injection h with h
      subst h
      simp at hu
      refine ⟨le_refl _, by simp, by simpa using hu, fun j hj => by omega⟩

theorem find_free_state {s : State} {i : Nat} (h : find_free s.timers 0 = Except.ok i) :
    i < s.timers.length ∧ (s.timer i).used = false ∧ ∀ j, j < i → (s.timer j).used = true := by
  have := find_free_spec s.timers 0 i h
  simpa [State.timer] using this.2

theorem schedule_good {cc : Nat → State → Except Fault State} {q : PushOracle}
    {a : sched_args} {s s' : State} {i : Nat} (hcc : Good cc) (hi : Inv s)
    (h : schedule_internal cc q a s = Except.ok (i, s')) :
    Inv s' ∧ ∀ k, InFlight k s → InFlight k s' := by
  unfold schedule_internal at h
  split at h
  · cases h
  split at h
  · cases h
  simp only at h
  split at h
  · cases h
  next i0 hff =>
  obtain ⟨hl, hfree, _⟩ := find_free_state (s := s) hff
  have hnq : i0 ∉ s.queue := fun hq => by simpa [hfree] using (hi.queued i0 hq).1
  have hne : ∀ k, InFlight k s → k ≠ i0 := fun k hk e => by
    rw [e] at hk; simpa [hfree] using hk.1
  generalize hf : (fun t : timer_t =>
        { t with canceled := false, pending := false, irql := a.irql,
                 repeatable := a.repeatable, period := a.period_ms, type := a.type,
                 callback := a.callback, callback_arg := a.callback_arg,
                 next_tick_count := wrap64 (s.tick_count + a.period_ms),
                 debug_name := a.debug_name, used := true }) = f at h
  have hfu : ∀ t, (f t).used = true ∧ (f t).pending = false := fun t => by subst hf; exact ⟨rfl, rfl⟩
  have hi2 : Inv (State.upd { s with primask := 1 } i0 f) :=
    Inv_upd i0 f (Inv_congr (s := s) rfl rfl hi) (fun hq => absurd hq hnq)
      (fun hp => by simp [(hfu _).2] at hp)
  have hfl2 : ∀ k, InFlight k s → InFlight k (State.upd { s with primask := 1 } i0 f) :=
    fun k hk => (InFlight_upd_ne _ (hne k hk)).2 hk
  split at h
  · split at h
    · cases h
    next s3 h3 =>
    injection h with h
    injection h with h1 h2
    subst h1; subst h2
    have hu2 : ((State.upd { s with primask := 1 } i0 f).timer i0).used = true := by
      rw [timer_upd, if_pos ⟨rfl, hl⟩]; exact (hfu _).1
    have hp2 : ((State.upd { s with primask := 1 } i0 f).timer i0).pending = false := by
      rw [timer_upd, if_pos ⟨rfl, hl⟩]; exact (hfu _).2
    obtain ⟨hi3, hfl3⟩ := on_timer_timeout_good hcc hu2 hp2 hi2 h3
    exact ⟨Inv_congr (s := s3) rfl rfl hi3,
      fun k hk => InFlight_congr (s := s3) rfl rfl (hfl3 k (hne k hk) (hfl2 k hk))⟩
  · injection h with h
    injection h with h1 h2
    subst h1; subst h2
    exact ⟨Inv_congr (s := State.upd { s with primask := 1 } i0 f) rfl rfl hi2,
      fun k hk => InFlight_congr (s := State.upd { s with primask := 1 } i0 f) rfl rfl (hfl2 k hk)⟩

theorem run_action_good {cc : Nat → State → Except Fault State} {q : PushOracle}
    {a : Action} {s s' : State} (hcc : Good cc) (hi : Inv s)
    (h : run_action cc q a s = Except.ok s') :
    Inv s' ∧ ∀ k, InFlight k s → InFlight k s' := by
  cases a with
  | cancel hd => exact cancel_good (by simpa only [run_action] using h) hi
  | schedule a =>
    simp only [run_action] at h
    split at h
    · cases h
    next r hr =>
    injection h with h
    subst h
    exact schedule_good (i := r.1) hcc hi hr

theorem run_actions_good {cc : Nat → State → Except Fault State} {q : PushOracle}
    (hcc : Good cc) (l : List Action) {s s' : State} (hi : Inv s)
    (h : run_actions cc q l s = Except.ok s') :
    Inv s' ∧ ∀ k, InFlight k s → InFlight k s' := by
  induction l generalizing s with
  | nil =>
    unfold run_actions at h
    injection h with h; subst h
    exact ⟨hi, fun _ hk => hk⟩
  | cons a rest ih =>
    unfold run_actions at h
    split at h
    · cases h
    next s1 h1 =>
    obtain ⟨hi1, hf1⟩ := run_action_good hcc hi h1
    obtain ⟨hi2, hf2⟩ := ih hi1 h
    exact ⟨hi2, fun k hk => hf2 k (hf1 k hk)⟩

theorem call_callback_good (prog : Prog) (q : PushOracle) (fuel : Nat) :
    Good (call_callback prog q fuel) := by
  induction fuel with
  | zero => intro j s s' h; simp [call_callback] at h
  | succ n ih =>
    intro j s s' h hi
    unfold call_callback at h
    simp only at h
    obtain ⟨hi2, hf2⟩ := run_actions_good ih _ (Inv_congr (s := s) (r := s.emit _) rfl rfl hi) h
    exact ⟨hi2, fun k hk => hf2 k (InFlight_congr (s := s) (r := s.emit _) rfl rfl hk)⟩

theorem on_timer_event_inv {cc : Nat → State → Except Fault State} {i : Nat} {s s' : State}
    (hcc : Good cc) (hnq : i ∉ s.queue) (hi : Inv s)
    (h : on_timer_event cc i s = Except.ok s') : Inv s' := by
  unfold on_timer_event at h
  by_cases hu : (s.timer i).used = true
  swap
  · rw [if_pos hu] at h; cases h
  rw [if_neg (not_not.2 hu)] at h
  by_cases hp : (s.timer i).pending = true
  swap
  · rw [if_pos hp] at h; cases h
  rw [if_neg (not_not.2 hp)] at h
  by_cases hcn : (s.timer i).canceled = true
  · rw [if_pos hcn] at h
    injection h with h; subst h
    exact Inv_upd i _ hi (fun hq => absurd hq hnq) (fun _ => Or.inr hcn)
  · rw [if_neg hcn] at h
    split at h
    · cases h
    next s2 hc2 =>
    obtain ⟨hi2, hfl2⟩ := hcc _ _ _ hc2 hi
    have hf2 := hfl2 i ⟨hu, hp, hnq⟩
    have hl2 := used_lt s2 i hf2.1
    have hi3 : Inv (s2.upd i (fun t => { t with pending := false })) :=
      Inv_upd i _ hi2 (fun hq => absurd hq hf2.2.2) (fun hp => by simp at hp)
    have hp3 : ((s2.upd i (fun t => { t with pending := false })).timer i).pending = false := by
      rw [timer_upd_same _ hl2]
    simp only at h
    split at h
    · injection h with h; subst h
      exact Inv_upd i _ hi3 (fun hq => absurd hq hf2.2.2) (fun hp => by simp [hp3] at hp)
    · injection h with h; subst h
      exact hi3

theorem tick_visit_inv {cc : Nat → State → Except Fault State} {q : PushOracle} {i : Nat}
    {s s' : State} (hcc : Good cc) (hi : Inv s)
    (h : tick_visit cc q i s = Except.ok s') : Inv s' := by
  unfold tick_visit at h
  split at h
  · next hdue =>
    split at h
    · split at h
      · cases h
      · injection h with h; subst h
        exact Inv_upd_flags i _ hi (fun t => ⟨rfl, rfl, rfl⟩)
    · next hp =>
      exact (on_timer_timeout_good hcc hdue.1 (by simpa using hp) hi h).1
  · injection h with h; subst h
    exact hi

theorem tick_scan_inv {cc : Nat → State → Except Fault State} {q : PushOracle}
    (hcc : Good cc) (n : Nat) {i : Nat} {s s' : State} (hi : Inv s)
    (h : tick_scan cc q n i s = Except.ok s') : Inv s' := by
  induction n generalizing i s with
  | zero =>
    unfold tick_scan at h
    injection h with h; subst h; exact hi
  | succ n ih =>
    unfold tick_scan at h
    split at h
    · cases h
    next s1 h1 => exact ih (tick_visit_inv hcc hi h1) h

theorem timer_callback_irql_inv {cc : Nat → State → Except Fault State} {q : PushOracle}
    {s s' : State} (hcc : Good cc) (hi : Inv s)
    (h : timer_callback_irql cc q s = Except.ok s') : Inv s' := by
  unfold timer_callback_irql at h
  refine tick_scan_inv hcc _ ?_ h
  exact Inv_congr (s := s) rfl rfl hi

theorem event_queue_drain_inv {cc : Nat → State → Except Fault State}
    {s s' : State} (hcc : Good cc) (hi : Inv s)
    (h : event_queue_drain cc s = Except.ok s') : Inv s' := by
  unfold event_queue_drain at h
  split at h
  · injection h with h; subst h; exact hi
  next i rest hq =>
  have hnd := hi.nodup
  rw [hq] at hnd
  have hi1 : Inv { s with queue := rest } :=
    ⟨(List.nodup_cons.1 hnd).2, fun k hk => hi.queued k (by rw [hq]; exact List.mem_cons_of_mem _ hk),
      hi.pend, hi.len⟩
  exact on_timer_event_inv hcc (s := { s with queue := rest }) (List.nodup_cons.1 hnd).1 hi1 h

theorem Inv_zero : Inv State.zero := by
  refine ⟨List.nodup_nil, fun i hi => by simp [State.zero] at hi, fun i hp => ?_,
    by simp [State.zero]⟩
  have : State.zero.timer i = timer_zero := by
    unfold State.timer State.zero
    rw [List.getD_eq_getElem?_getD, List.getElem?_replicate]
    split <;> rfl
  rw [this] at hp
  simp [timer_zero] at hp

theorem step_inv (prog : Prog) (fuel : Nat) (q0 : PushOracle) (op : Op) {s s' : State}
    (hi : Inv s) (h : step prog fuel q0 op s = Except.ok s') : Inv s' := by
  cases op with
  | init b f =>
    simp only [step, scheduler_init] at h
    split at h
    · cases h
    next r hr =>
    split at hr
    · cases hr
    split at hr
    · cases hr
    injection hr with hr
    injection h with h
    subst hr; subst h
    exact Inv_congr (s := s) rfl rfl hi
  | schedule a q =>
    simp only [step] at h
    split at h
    · cases h
    next r hr =>
    injection h with h
    subst h
    exact (schedule_good (i := r.1) (call_callback_good prog q fuel) hi hr).1
  | cancel hd => exact (cancel_good (by simpa only [step] using h) hi).1
  | tick q =>
    exact timer_callback_irql_inv (call_callback_good prog q fuel) hi (by simpa only [step] using h)
  | drain =>
    exact event_queue_drain_inv (call_callback_good prog q0 fuel) hi (by simpa only [step] using h)

theorem run_inv (prog : Prog) (fuel : Nat) (q0 : PushOracle) (ops : List Op) {s s' : State}
    (hi : Inv s) (h : run prog fuel q0 ops s = Except.ok s') : Inv s' := by
  induction ops generalizing s with
  | nil =>
    unfold run at h
    injection h with h; subst h; exact hi
  | cons op rest ih =>
    unfold run at h
    split at h
    · cases h
    next s1 h1 => exact ih (step_inv prog fuel q0 op hi h1) h

theorem reachable_inv {prog : Prog} {fuel : Nat} {q0 : PushOracle} {s : State}
    (h : Reachable prog fuel q0 s) : Inv s := by
  obtain ⟨ops, h⟩ := h
  exact run_inv prog fuel q0 ops Inv_zero h

theorem call_quiet (q : PushOracle) (fuel i : Nat) (s : State) :
    call_callback quiet q (fuel + 1) i s =
      Except.ok (s.emit (Obs.call i s.tick_count (s.timer i).callback (call_arg (s.timer i)))) := by
  simp [call_callback, quiet, run_actions, call_arg]

theorem slot_events_append (h : Nat) (a b : List Obs) :
    slot_events h (a ++ b) = slot_events h a ++ slot_events h b := by
  simp [slot_events]

theorem view_upd_ne {s : State} {h j : Nat} (f : timer_t → timer_t) (hne : j ≠ h) :
    view h (s.upd j f) = view h s := by
  simp [view, timer_upd_ne f (Ne.symm hne)]

theorem view_emit_ne {s : State} {h : Nat} {e : Obs} (hne : e.slot ≠ h) :
    view h (s.emit e) = view h s := by
  simp [view, slot_events, hne]

theorem view_emit_same {s : State} {h : Nat} {e : Obs} (he : e.slot = h) :
    view h (s.emit e) = { view h s with events := (view h s).events ++ [e] } := by
  simp [view, slot_events, he]

@[simp] theorem emit_length (s : State) (e : Obs) : (s.emit e).timers.length = s.timers.length := rfl

theorem on_timer_timeout_view {q : PushOracle} {fuel h : Nat} {s s' : State}
    (hu : (s.timer h).used = true)
    (hr : on_timer_timeout (call_callback quiet q (fuel + 1)) q h s = Except.ok s') :
    timeout_view h (q h) (view h s) = Except.ok (view h s') := by
  have hl := used_lt s h hu
  unfold on_timer_timeout at hr
  unfold timeout_view
  have hv : (view h s).t = s.timer h := rfl
  rw [hv]
  by_cases hirq : (s.timer h).irql = true
  · rw [if_pos hirq, if_neg (not_not.2 hu)] at hr
    rw [if_pos hirq, if_neg (not_not.2 hu)]
    by_cases hcn : (s.timer h).canceled = true
    · rw [if_pos hcn] at hr; cases hr
    rw [if_neg hcn] at hr
    rw [if_neg hcn]
    by_cases hp : (s.timer h).pending = true
    · rw [if_pos hp] at hr; cases hr
    rw [if_neg hp, call_quiet] at hr
    rw [if_neg hp]
    simp only [timer_upd, timer_emit, upd_length, emit_length, hl, and_self, if_true, hcn,
      upd_tick_count] at hr
    rw [if_neg (by simp)] at hr
    split at hr <;> (injection hr with hr; subst hr)
    · next hrep =>
      simp [view, timer_upd, hl, call_arg, slot_events, Obs.slot, hrep, hcn, hp]
    · next hrep =>
      simp [view, timer_upd, hl, call_arg, slot_events, Obs.slot, hrep, hcn, hp]
  · rw [if_neg hirq] at hr
    rw [if_neg hirq]
    simp only [event_queue_try_push] at hr
    by_cases hq : q h = true
    · simp only [hq, if_true] at hr ⊢
      rw [if_neg (by simp [timer_upd, hl])] at hr
      split at hr <;> (injection hr with hr; subst hr)
      · next hrep =>
        simp [timer_upd, hl] at hrep
        simp [view, timer_upd, hl, slot_events, Obs.slot, hrep]
      · next hrep =>
        simp [timer_upd, hl] at hrep
        simp [view, timer_upd, hl, slot_events, Obs.slot, hrep]
    · simp only [hq] at hr ⊢
      rw [if_pos (by simp [timer_upd, hl])] at hr
      injection hr with hr; subst hr
      simp [view, timer_upd, hl, slot_events, Obs.slot]

theorem on_timer_timeout_frame {q : PushOracle} {fuel h j : Nat} {s s' : State} (hne : j ≠ h)
    (hr : on_timer_timeout (call_callback quiet q (fuel + 1)) q j s = Except.ok s') :
    view h s' = view h s := by
  have hne' : h ≠ j := Ne.symm hne
  unfold on_timer_timeout at hr
  split at hr
  · split at hr
    · cases hr
    split at hr
    · cases hr
    split at hr
    · cases hr
    rw [call_quiet] at hr
    simp only at hr
    split at hr
    · injection hr with hr; subst hr
      simp [view, timer_upd, hne', slot_events, Obs.slot, hne]
    split at hr
    · injection hr with hr; subst hr
      simp [view, timer_upd, hne', slot_events, Obs.slot, hne]
    · injection hr with hr; subst hr
      simp [view, timer_upd, hne', slot_events, Obs.slot, hne]
  · simp only [event_queue_try_push] at hr
    by_cases hq : q j = true
    · simp only [hq, if_true] at hr
      split at hr
      · injection hr with hr; subst hr
        simp [view, timer_upd, hne', slot_events, Obs.slot, hne]
      split at hr
      · injection hr with hr; subst hr
        simp [view, timer_upd, hne', slot_events, Obs.slot, hne]
      · injection hr with hr; subst hr
        simp [view, timer_upd, hne', slot_events, Obs.slot, hne]
    · simp only [hq, Bool.false_eq_true, if_false] at hr
      split at hr
      · injection hr with hr; subst hr
        simp [view, timer_upd, hne', slot_events, Obs.slot, hne]
      split at hr
      · injection hr with hr; subst hr
        simp [view, timer_upd, hne', slot_events, Obs.slot, hne]
      · injection hr with hr; subst hr
        simp [view, timer_upd, hne', slot_events, Obs.slot, hne]

theorem tick_visit_view {q : PushOracle} {fuel h : Nat} {s s' : State}
    (hr : tick_visit (call_callback quiet q (fuel + 1)) q h s = Except.ok s') :
    visit_view h (q h) (view h s) = Except.ok (view h s') := by
  unfold tick_visit at hr
  unfold visit_view
  have hv : (view h s).t = s.timer h := rfl
  have hk : (view h s).tick = s.tick_count := rfl
  rw [hv, hk]
  split at hr
  · next hdue =>
    have hl := used_lt s h hdue.1
    rw [if_pos hdue]
    split at hr
    · next hp =>
      rw [if_pos hp]
      split at hr
      · cases hr
      · next hrep =>
        rw [if_neg hrep]
        injection hr with hr; subst hr
        simp [view, timer_upd, hl]
    · next hp =>
      rw [if_neg hp]
      exact on_timer_timeout_view hdue.1 hr
  · next hdue =>
    rw [if_neg hdue]
    injection hr with hr; subst hr
    rfl

theorem tick_visit_frame {q : PushOracle} {fuel h j : Nat} {s s' : State} (hne : j ≠ h)
    (hr : tick_visit (call_callback quiet q (fuel + 1)) q j s = Except.ok s') :
    view h s' = view h s := by
  unfold tick_visit at hr
  split at hr
  · split at hr
    · split at hr
      · cases hr
      · injection hr with hr; subst hr
        exact view_upd_ne _ hne
    · exact on_timer_timeout_frame hne hr
  · injection hr with hr; subst hr
    rfl

theorem tick_scan_view {q : PushOracle} {fuel h : Nat} (n : Nat) {i : Nat} {s s' : State}
    (hr : tick_scan (call_callback quiet q (fuel + 1)) q n i s = Except.ok s') :
    (h < i ∨ i + n ≤ h → view h s' = view h s) ∧
    (i ≤ h ∧ h < i + n → visit_view h (q h) (view h s) = Except.ok (view h s')) := by
  induction n generalizing i s with
  | zero =>
    unfold tick_scan at hr
    injection hr with hr; subst hr
    exact ⟨fun _ => rfl, fun hc => by omega⟩
  | succ n ih =>
    unfold tick_scan at hr
    split at hr
    · cases hr
    next s1 h1 =>
    obtain ⟨ih1, ih2⟩ := ih hr
    by_cases hih : i = h
    · subst hih
      refine ⟨fun hc => by omega, fun _ => ?_⟩
      rw [ih1 (Or.inl (by omega))]
      exact tick_visit_view h1
    · have hf := tick_visit_frame (h := h) hih h1
      refine ⟨fun hc => ?_, fun hc => ?_⟩
      · rw [ih1 (by omega), hf]
      · rw [← hf]; exact ih2 (by omega)

theorem timer_callback_irql_view {q : PushOracle} {fuel h : Nat} {s s' : State}
    (hh : h < timer_count)
    (hr : timer_callback_irql (call_callback quiet q (fuel + 1)) q s = Except.ok s') :
    tick_view h (q h) (view h s) = Except.ok (view h s') := by
  unfold timer_callback_irql at hr
  exact (tick_scan_view (h := h) _ hr).2 ⟨Nat.zero_le _, by omega⟩

theorem on_timer_event_view {q : PushOracle} {fuel h : Nat} {s s' : State} {rest : List Nat}
    (hq : s.queue = h :: rest)
    (hr : on_timer_event (call_callback quiet q (fuel + 1)) h { s with queue := rest } =
      Except.ok s') :
    event_view h (view h s) = Except.ok (view h s') := by
  unfold on_timer_event at hr
  unfold event_view
  have hv : (view h s).t = s.timer h := rfl
  rw [hv]
  simp only [timer_with_queue] at hr
  by_cases hu : (s.timer h).used = true
  swap
  · rw [if_pos hu] at hr; cases hr
  have hl := used_lt s h hu
  rw [if_neg (not_not.2 hu)] at hr ⊢
  by_cases hp : (s.timer h).pending = true
  swap
  · rw [if_pos hp] at hr; cases hr
  rw [if_neg (not_not.2 hp)] at hr ⊢
  by_cases hcn : (s.timer h).canceled = true
  · rw [if_pos hcn] at hr ⊢
    injection hr with hr; subst hr
    simp [view, timer_upd, hl, hq]
  · rw [if_neg hcn] at hr ⊢
    rw [call_quiet] at hr
    simp only at hr
    rw [if_neg (by simp [timer_upd, hl, hcn])] at hr
    injection hr with hr; subst hr
    simp [view, timer_upd, hl, hq, slot_events, Obs.slot]

theorem on_timer_event_frame {q : PushOracle} {fuel h j : Nat} {s s' : State} (hne : j ≠ h)
    (hr : on_timer_event (call_callback quiet q (fuel + 1)) j s = Except.ok s') :
    view h s' = view h s := by
  have hne' : h ≠ j := Ne.symm hne
  unfold on_timer_event at hr
  split at hr
  · cases hr
  split at hr
  · cases hr
  split at hr
  · injection hr with hr; subst hr
    exact view_upd_ne _ hne
  rw [call_quiet] at hr
  simp only at hr
  split at hr
  · injection hr with hr; subst hr
    simp [view, timer_upd, hne', slot_events, Obs.slot, hne]
  · injection hr with hr; subst hr
    simp [view, timer_upd, hne', slot_events, Obs.slot, hne]

/-- The consumer seen from slot `h`: either the event it handles is not one
of the slot, or it is the slot's oldest queued event. -/
theorem event_queue_drain_view {q : PushOracle} {fuel h : Nat} {s s' : State}
    (hr : event_queue_drain (call_callback quiet q (fuel + 1)) s = Except.ok s') :
    view h s' = view h s ∨
    (1 ≤ (view h s).queued ∧ event_view h (view h s) = Except.ok (view h s')) := by
  unfold event_queue_drain at hr
  split at hr
  · injection hr with hr; subst hr
    exact Or.inl rfl
  next i rest hq =>
  by_cases hih : i = h
  · subst hih
    right
    exact ⟨by simp [view, hq], on_timer_event_view hq hr⟩
  · left
    rw [on_timer_event_frame hih hr]
    simp only [view, hq, timer_with_queue]
    rw [List.count_cons_of_ne (Ne.symm hih)]

/-! ## Runs seen from one slot -/

theorem run_nil (prog : Prog) (fuel : Nat) (q0 : PushOracle) (s : State) :
    run prog fuel q0 [] s = Except.ok s := rfl

theorem run_cons {prog : Prog} {fuel : Nat} {q0 : PushOracle} {op : Op} {ops : List Op}
    {s s' : State} (h : run prog fuel q0 (op :: ops) s = Except.ok s') :
    ∃ s1, step prog fuel q0 op s = Except.ok s1 ∧ run prog fuel q0 ops s1 = Except.ok s' := by
  unfold run at h
  split at h
  · cases h
  next s1 h1 => exact ⟨s1, h1, h⟩

theorem run_append {prog : Prog} {fuel : Nat} {q0 : PushOracle} (ops1 ops2 : List Op)
    {s s1 s2 : State} (h1 : run prog fuel q0 ops1 s = Except.ok s1)
    (h2 : run prog fuel q0 ops2 s1 = Except.ok s2) :
    run prog fuel q0 (ops1 ++ ops2) s = Except.ok s2 := by
  induction ops1 generalizing s with
  | nil =>
    rw [run_nil] at h1
    injection h1 with h1; subst h1
    exact h2
  | cons op rest ih =>
    obtain ⟨sm, hs, hr⟩ := run_cons h1
    show run prog fuel q0 (op :: (rest ++ ops2)) s = Except.ok s2
    unfold run
    rw [hs]
    exact ih hr

/-- Induction along a run of ticks and consumer steps, seen from one slot.
`J n` is what holds of the slot's view when `n` operations remain; `D` tells
whether the run may contain consumer steps. -/
theorem run_view (fuel : Nat) (q0 : PushOracle) {h : Nat} (hh : h < timer_count) (D : Prop)
    (J : Nat → SlotView → Prop)
    (hstay : D → ∀ n v, J (n + 1) v → J n v)
    (htick : ∀ n ok v v', J (n + 1) v → tick_view h ok v = Except.ok v' → J n v')
    (hevent : D → ∀ n v v', J (n + 1) v → 1 ≤ v.queued → event_view h v = Except.ok v' → J n v')
    (ops : List Op) {s s' : State}
    (hops : ∀ op ∈ ops, op.ticking = true ∨ (D ∧ op = Op.drain))
    (h0 : J ops.length (view h s))
    (hr : run quiet (fuel + 1) q0 ops s = Except.ok s') : J 0 (view h s') := by
  induction ops generalizing s with
  | nil =>
    rw [run_nil] at hr
    injection hr with hr; subst hr
    exact h0
  | cons op rest ih =>
    obtain ⟨s1, hs, hr1⟩ := run_cons hr
    refine ih (fun o ho => hops o (List.mem_cons_of_mem _ ho)) ?_ hr1
    rcases hops op (List.mem_cons_self _ _) with ht | ⟨hD, hd⟩
    · cases op with
      | tick q =>
        exact htick _ (q h) _ _ h0 (timer_callback_irql_view hh (by simpa only [step] using hs))
      | init _ _ => simp [Op.ticking] at ht
      | schedule _ _ => simp [Op.ticking] at ht
      | cancel _ => simp [Op.ticking] at ht
      | drain => simp [Op.ticking] at ht
    · subst hd
      have hs' : event_queue_drain (call_callback quiet q0 (fuel + 1)) s = Except.ok s1 := by
        simpa only [step] using hs
      rcases event_queue_drain_view (h := h) hs' with he | ⟨hq, he⟩
      · rw [he]; exact hstay hD _ _ h0
      · exact hevent hD _ _ _ h0 hq he

theorem passive_cases {ops : List Op} (hp : ∀ op ∈ ops, op.passive = true) :
    ∀ op ∈ ops, op.ticking = true ∨ (True ∧ op = Op.drain) := by
  intro op ho
  have := hp op ho
  cases op with
  | tick q => left; rfl
  | drain => right; exact ⟨trivial, rfl⟩
  | init _ _ => simp [Op.passive] at this
  | schedule _ _ => simp [Op.passive] at this
  | cancel _ => simp [Op.passive] at this

theorem schedule_pos {cc : Nat → State → Except Fault State} {q : PushOracle}
    {a : sched_args} {s s1 : State} {h : Nat} (hp : a.period_ms ≠ 0)
    (hr : schedule_internal cc q a s = Except.ok (h, s1)) :
    find_free s.timers 0 = Except.ok h ∧ s.scheduler_initialized = true ∧
    s1 = s.upd h (fun _ => fresh_timer a s.tick_count) := by
  unfold schedule_internal at hr
  split at hr
  · cases hr
  next hinit =>
  split at hr
  · cases hr
  simp only at hr
  split at hr
  · cases hr
  next i hff =>
  injection hr with hr
  injection hr with h1 h2
  subst h1; subst h2
  exact ⟨hff, by simpa using hinit, rfl⟩

/-- A slot that is not used and has no queued event stays so, and records no
event, along ticks and consumer steps. -/
theorem free_slot_stays {fuel : Nat} {q0 : PushOracle} {h : Nat} (hh : h < timer_count)
    (ops : List Op) (hp : ∀ op ∈ ops, op.passive = true) {s s' : State}
    (hu : (s.timer h).used = false) (hq : s.queue.count h = 0)
    (hr : run quiet (fuel + 1) q0 ops s = Except.ok s') :
    (s'.timer h).used = false ∧ s'.queue.count h = 0 ∧
    slot_events h s'.trace = slot_events h s.trace := by
  have := run_view fuel q0 hh True
    (fun _ v => v.t.used = false ∧ v.queued = 0 ∧ v.events = slot_events h s.trace)
    (fun _ _ _ hv => hv)
    (fun n ok v v' hv ht => by
      obtain ⟨h1, h2, h3⟩ := hv
      simp only [tick_view, visit_view, h1] at ht
      simp at ht
      subst ht
      exact ⟨h1, h2, h3⟩)
    (fun _ n v v' hv hq' _ => by omega)
    ops (passive_cases hp) ⟨hu, hq, rfl⟩ hr
  exact this

theorem invocations_append (h : Nat) (tr : List Obs) (e : Obs) :
    invocations h (tr ++ [e]) = invocations h tr +
      (match e with
       | Obs.call i _ _ _ => if i = h then 1 else 0
       | Obs.push _ _ _ => 0) := by
  unfold invocations slot_events
  cases e with
  | call i t c a =>
    by_cases hi : i = h <;> simp [List.filter_append, Obs.slot, hi]
  | push i t ok =>
    by_cases hi : i = h <;> simp [List.filter_append, Obs.slot, hi]

/-- Dispatch of a one-shot interrupt-context slot that is used, not canceled
and not pending, for quiet callbacks: one invocation, nothing queued. -/
theorem timeout_once_irql (fuel : Nat) (q : PushOracle) (h : Nat) (s : State)
    (hu : (s.timer h).used = true) (hc : (s.timer h).canceled = false)
    (hp : (s.timer h).pending = false) (hr : (s.timer h).repeatable = false)
    (hi : (s.timer h).irql = true) :
    ∃ s', on_timer_timeout (call_callback quiet q (fuel + 1)) q h s = Except.ok s' ∧
      s'.trace = s.trace ++ [Obs.call h s.tick_count (s.timer h).callback (call_arg (s.timer h))] ∧
      s'.queue = s.queue ∧ (s'.timer h).pending = false ∧ s'.primask = s.primask := by
  have hl := used_lt s h hu
  unfold on_timer_timeout
  rw [if_pos hi, if_neg (not_not.2 hu), if_neg (by simp [hc]), if_neg (by simp [hp]), call_quiet]
  simp only
  rw [if_neg (by simp [timer_upd, hl, hc]), if_neg (by simp [timer_upd, hl, hr])]
  exact ⟨_, rfl, by simp [timer_upd, hl, call_arg], rfl, by simp [timer_upd, hl], rfl⟩

/-- Dispatch of a one-shot deferred slot, for quiet callbacks: one push
attempt and no invocation. -/
theorem timeout_once_deferred (cc : Nat → State → Except Fault State) (q : PushOracle)
    (h : Nat) (s : State)
    (hu : (s.timer h).used = true) (hr : (s.timer h).repeatable = false)
    (hi : (s.timer h).irql = false) :
    ∃ s', on_timer_timeout cc q h s = Except.ok s' ∧
      s'.trace = s.trace ++ [Obs.push h s.tick_count (q h)] ∧
      (s'.timer h).pending = q h ∧
      (q h = true → s'.queue = s.queue ++ [h] ∧
        (s'.timer h).next_tick_count = (s.timer h).next_tick_count) ∧
      (q h = false → s'.queue = s.queue ∧
        (s'.timer h).next_tick_count = wrap64 ((s.timer h).next_tick_count + 1)) ∧
      s'.primask = s.primask := by
  have hl := used_lt s h hu
  unfold on_timer_timeout
  rw [if_neg (by simp [hi])]
  simp only [event_queue_try_push]
  cases hq : q h
  · simp only [Bool.false_eq_true, if_false]
    rw [if_pos (by simp [timer_upd, hl])]
    refine ⟨_, rfl, ?_⟩
    simp [timer_upd, hl]
  · simp only [if_true]
    rw [if_neg (by simp [timer_upd, hl]), if_neg (by simp [timer_upd, hl, hr])]
    refine ⟨_, rfl, ?_⟩
    simp [timer_upd, hl]

/-- Registration of a one-shot timer with period 0, for quiet callbacks: what
`schedule_internal` has done when it returns. -/
theorem zero_period_dispatch (fuel : Nat) (q : PushOracle) (a : sched_args) (s : State)
    (h : Nat) (hinit : s.scheduler_initialized = true)
    (hfree : find_free s.timers 0 = Except.ok h)
    (hp : a.period_ms = 0) (hnr : a.repeatable = false) :
    ∃ s', schedule_internal (call_callback quiet q (fuel + 1)) q a s = Except.ok (h, s') ∧
      (a.irql = true →
        s'.trace = s.trace ++
          [Obs.call h s.tick_count a.callback (call_arg (fresh_timer a s.tick_count))] ∧
        invocations h s'.trace = invocations h s.trace + 1 ∧
        s'.queue = s.queue ∧ (s'.timer h).pending = false) ∧
      (a.irql = false →
        s'.trace = s.trace ++ [Obs.push h s.tick_count (q h)] ∧
        invocations h s'.trace = invocations h s.trace ∧
        (s'.timer h).pending = q h ∧
        (q h = true → s'.queue = s.queue ++ [h]) ∧
        (q h = false → s'.queue = s.queue ∧
          (s'.timer h).next_tick_count = wrap64 (wrap64 s.tick_count + 1))) := by
  obtain ⟨hl, _, _⟩ := find_free_state hfree
  have ht : (State.upd { s with primask := 1 } h (fun _ => fresh_timer a s.tick_count)).timer h =
      fresh_timer a s.tick_count := by
    rw [timer_upd, if_pos ⟨rfl, hl⟩]
  unfold schedule_internal
  rw [if_neg (not_not.2 hinit), if_neg (by simp [hnr])]
  simp only
  rw [hfree]
  simp only
  rw [if_pos hp]
  show ∃ s', (match on_timer_timeout (call_callback quiet q (fuel + 1)) q h
      (State.upd { s with primask := 1 } h (fun _ => fresh_timer a s.tick_count)) with
    | Except.error e => Except.error e
    | Except.ok s3 => Except.ok (h, ({ s3 with primask := s.primask } : State))) =
      Except.ok (h, s') ∧ _
  by_cases hirq : a.irql = true
  · obtain ⟨s3, h1, h2, h3, h4, _⟩ := timeout_once_irql fuel q h
      (State.upd { s with primask := 1 } h (fun _ => fresh_timer a s.tick_count))
      (by rw [ht]; rfl) (by rw [ht]; rfl) (by rw [ht]; rfl) (by rw [ht]; exact hnr)
      (by rw [ht]; exact hirq)
    rw [h1]
    rw [ht] at h2
    refine ⟨_, rfl, ?_, ?_⟩
    · intro _
      refine ⟨h2, ?_, h3, h4⟩
      show invocations h s3.trace = _
      rw [h2]
      simp [invocations_append, fresh_timer]
    · intro hc
      rw [hirq] at hc; cases hc
  · have hirq' : a.irql = false := by simpa using hirq
    obtain ⟨s3, h1, h2, h3, h4, h5, _⟩ := timeout_once_deferred
      (call_callback quiet q (fuel + 1)) q h
      (State.upd { s with primask := 1 } h (fun _ => fresh_timer a s.tick_count))
      (by rw [ht]; rfl) (by rw [ht]; exact hnr) (by rw [ht]; exact hirq')
    rw [h1]
    rw [ht] at h5
    refine ⟨_, rfl, ?_, ?_⟩
    · intro hc
      rw [hirq'] at hc; cases hc
    · intro _
      refine ⟨h2, ?_, h3, fun hq => (h4 hq).1, fun hq => ⟨(h5 hq).1, ?_⟩⟩
      · show invocations h s3.trace = _
        rw [h2]
        simp [invocations_append]
      · show (s3.timer h).next_tick_count = _
        rw [(h5 hq).2]
        simp [fresh_timer, hp]

/-- C3, amended: a one-shot timer registered with period 0 is dispatched
before `schedule_internal` returns.  An interrupt-context timer has its
callback invoked exactly once.  A deferred timer is not invoked: exactly one
push attempt is made; on success the slot is pending with its event in the
queue, on failure it is not pending and is due again at the next tick. -/
theorem C3_zero_period_dispatch (fuel : Nat) (q : PushOracle) (a : sched_args) (s : State)
    (h : Nat) (hinit : s.scheduler_initialized = true)
    (hfree : find_free s.timers 0 = Except.ok h)
    (hp : a.period_ms = 0) (hnr : a.repeatable = false) :
    ∃ s', schedule_internal (call_callback quiet q (fuel + 1)) q a s = Except.ok (h, s') ∧
      (a.irql = true →
        s'.trace = s.trace ++
          [Obs.call h s.tick_count a.callback (call_arg (fresh_timer a s.tick_count))] ∧
        invocations h s'.trace = invocations h s.trace + 1 ∧
        s'.queue = s.queue ∧ (s'.timer h).pending = false) ∧
      (a.irql = false →
        s'.trace = s.trace ++ [Obs.push h s.tick_count (q h)] ∧
        invocations h s'.trace = invocations h s.trace ∧
        (s'.timer h).pending = q h ∧
        (q h = true → s'.queue = s.queue ++ [h]) ∧
        (q h = false → s'.queue = s.queue ∧
          (s'.timer h).next_tick_count = wrap64 (wrap64 s.tick_count + 1))) :=
  zero_period_dispatch fuel q a s h hinit hfree hp hnr

/-- An instance of C3 as amended: an interrupt-context timer of period 0 on a full queue. -/
theorem C3_zero_period_dispatch_witness :
    State.ready.scheduler_initialized = true ∧
    find_free State.ready.timers 0 = Except.ok 0 ∧
    ∃ s', schedule_internal (call_callback quiet never 1) never (sample_args true 0 false)
        State.ready = Except.ok (0, s') ∧
      invocations 0 s'.trace = invocations 0 State.ready.trace + 1 :=
  ⟨rfl, rfl,
    let ⟨s', h1, h2, _⟩ := C3_zero_period_dispatch 0 never (sample_args true 0 false)
      State.ready 0 rfl rfl rfl rfl
    ⟨s', h1, (h2 rfl).2.1⟩⟩

/-- C3 fails for deferred timers: registering a one-shot deferred timer with
period 0 returns without any invocation of its callback; with room in the
queue the event is left to the consumer, with a full queue the dispatch is
left to the next tick. -/
theorem C3_deferred_not_invoked :
    schedule_internal (call_callback quiet always 1) always (sample_args false 0 false)
      State.ready = Except.ok (0, State.zero_period true) ∧
    invocations 0 (State.zero_period true).trace = 0 ∧
    (State.zero_period true).queue = [0] ∧
    schedule_internal (call_callback quiet never 1) never (sample_args false 0 false)
      State.ready = Except.ok (0, State.zero_period false) ∧
    invocations 0 (State.zero_period false).trace = 0 ∧
    ((State.zero_period false).timer 0).next_tick_count = 1 :=
  ⟨rfl, rfl, rfl, rfl, rfl, rfl⟩

/-! ## C4: dispatches of a periodic timer are a period apart -/

theorem tick_view_flags {h : Nat} {ok : Bool} {v v' : SlotView}
    (hc : v.t.canceled = false) (hstep : tick_view h ok v = Except.ok v') :
    v'.t.used = v.t.used ∧ v'.t.canceled = false ∧ v'.init = v.init := by
  simp only [tick_view, visit_view, timeout_view] at hstep
  repeat' split at hstep
  all_goals first
    | (cases hstep; exact ⟨rfl, hc, rfl⟩)
    | cases hstep

theorem event_view_flags {h : Nat} {v v' : SlotView}
    (hc : v.t.canceled = false) (hstep : event_view h v = Except.ok v') :
    v'.t.used = v.t.used ∧ v'.t.canceled = false ∧ v'.init = v.init := by
  simp only [event_view] at hstep
  repeat' split at hstep
  all_goals first
    | (cases hstep; exact ⟨rfl, hc, rfl⟩)
    | (rename_i hcn; rw [hc] at hcn; cases hcn)
    | cases hstep

/-- The two ways `schedule_internal` returns: the claimed slot is written, and
for period 0 `on_timer_timeout` runs on it. -/
theorem schedule_cases {cc : Nat → State → Except Fault State} {q : PushOracle}
    {a : sched_args} {s s' : State} {h : Nat}
    (hr : schedule_internal cc q a s = Except.ok (h, s')) :
    (a.period_ms ≠ 0 ∧
      s' = s.upd h (fun _ => fresh_timer a s.tick_count)) ∨
    (a.period_ms = 0 ∧ ∃ s3,
      on_timer_timeout cc q h
        (State.upd { s with primask := 1 } h (fun _ => fresh_timer a s.tick_count)) =
        Except.ok s3 ∧ s' = { s3 with primask := s.primask }) := by
  by_cases hp : a.period_ms = 0
  · right
    refine ⟨hp, ?_⟩
    unfold schedule_internal at hr
    split at hr
    · cases hr
    split at hr
    · cases hr
    simp only at hr
    split at hr
    · cases hr
    next i hff =>
    split at hr
    · cases hr
    next s3 h3 =>
    injection hr with hr
    injection hr with h1 h2
    subst h1
    exact ⟨s3, h3, h2.symm⟩
  · left
    exact ⟨hp, (schedule_pos hp hr).2.2⟩

/-- The example state with a queued event is reachable. -/
theorem reachable_queued (repeatable : Bool) : Reachable quiet 1 always (State.queued repeatable) :=
  ⟨[Op.init true 72000000, Op.schedule (sample_args false 1 repeatable) always, Op.tick always],
    by cases repeatable <;> rfl⟩

/-- C10 fails: once the event of a deferred timer is queued, the timer is
canceled, and the consumer discards the event, the slot is pending and not
used. -/
theorem C10_pending_slot_not_used :
    run quiet 1 always
      [Op.init true 72000000, Op.schedule (sample_args false 1 false) always, Op.tick always,
        Op.cancel 0, Op.drain] State.zero = Except.ok State.discarded ∧
    (State.discarded.timer 0).pending = true ∧ (State.discarded.timer 0).used = false :=
  ⟨rfl, rfl, rfl⟩

/-- C10, amended: in every reachable state, whatever the callbacks do, every
slot with `pending = true` has `used = true` or `canceled = true`. -/
theorem C10_pending_used_or_canceled (prog : Prog) (fuel : Nat) (q0 : PushOracle) (s : State)
    (hs : Reachable prog fuel q0 s) (i : Nat) (hp : (s.timer i).pending = true) :
    (s.timer i).used = true ∨ (s.timer i).canceled = true :=
  (reachable_inv hs).pend i hp

/-- An instance of C10 as amended: the freed slot is pending and canceled. -/
theorem C10_pending_used_or_canceled_witness :
    (State.discarded.timer 0).pending = true ∧
    ((State.discarded.timer 0).used = true ∨ (State.discarded.timer 0).canceled = true) :=
  ⟨rfl, C10_pending_used_or_canceled quiet 1 always State.discarded
    ⟨[Op.init true 72000000, Op.schedule (sample_args false 1 false) always, Op.tick always,
        Op.cancel 0, Op.drain], rfl⟩ 0 rfl⟩

/-! ## Assertions that keep the globals -/

theorem forget_cancel (h : Nat) (s : State) :
    forget (scheduler_cancel_timer_mem h s) = scheduler_cancel_timer h s := by
  unfold scheduler_cancel_timer_mem scheduler_cancel_timer
  split
  · rfl
  split
  · rfl
  rfl

theorem forget_init (b : Bool) (f : Nat) (s : State) :
    forget (scheduler_init_mem b f s) = scheduler_init b f s := by
  unfold scheduler_init_mem scheduler_init
  split
  · rfl
  split
  · rfl
  rfl

theorem forget_schedule (cc : Nat → State → Except Fault State) (q : PushOracle)
    (tm : Nat → State → Except Halt State)
    (htm : ∀ i s, forget (tm i s) = on_timer_timeout cc q i s) (a : sched_args) (s : State) :
    forget (schedule_internal_mem tm a s) = schedule_internal cc q a s := by
  unfold schedule_internal_mem schedule_internal
  split
  · rfl
  split
  · rfl
  simp only
  cases hf : find_free ({ s with primask := 1 } : State).timers 0 with
  | error e => rfl
  | ok i =>
    simp only
    split
    · rw [← htm]
      cases tm i _ with
      | error e => rfl
      | ok s3 => rfl
    · rfl

/-! ## C11: the two cases of a cancellation -/

theorem cancel_ok {h : Nat} {s : State} (hh : h < timer_count)
    (hu : (s.timer h).used = true) :
    scheduler_cancel_timer h s =
      Except.ok (s.upd h (fun t => if t.pending then { t with canceled := true }
                                   else { t with used := false })) := by
  cases hc : scheduler_cancel_timer h s with
  | error e =>
    unfold scheduler_cancel_timer at hc
    rw [if_neg (not_not.2 hh), if_neg (by simp [hu])] at hc
    cases hc
  | ok s' => rw [(cancel_eq hc).2.2]

/-- C11: for a handle `h` inside the pool whose slot is used, the cancellation
succeeds and does one of two things, chosen by the slot's `pending` flag at
the call.  Not pending: the result is the state with `used` of slot `h`
cleared and nothing else changed, so `canceled` is as before.  Pending: the
result is the state with `canceled` of slot `h` set and nothing else changed,
so `used` is still true. -/
theorem C11_cancel_by_pending (h : Nat) (s : State) (hh : h < timer_count)
    (hu : (s.timer h).used = true) :
    ∃ s', scheduler_cancel_timer h s = Except.ok s' ∧
      ((s.timer h).pending = false →
        s' = s.upd h (fun t => { t with used := false }) ∧
        s'.timer h = { s.timer h with used := false } ∧
        (s'.timer h).used = false ∧ (s'.timer h).canceled = (s.timer h).canceled) ∧
      ((s.timer h).pending = true →
        s' = s.upd h (fun t => { t with canceled := true }) ∧
        s'.timer h = { s.timer h with canceled := true } ∧
        (s'.timer h).canceled = true ∧ (s'.timer h).used = true) := by
  have hl := used_lt s h hu
  refine ⟨_, cancel_ok hh hu, fun hp => ?_, fun hp => ?_⟩
  · have e : s.upd h (fun t => if t.pending then { t with canceled := true }
        else { t with used := false }) = s.upd h (fun t => { t with used := false }) :=
      upd_congr (by simp [hp])
    rw [e, timer_upd_same _ hl]
    exact ⟨rfl, rfl, rfl, rfl⟩
  · have e : s.upd h (fun t => if t.pending then { t with canceled := true }
        else { t with used := false }) = s.upd h (fun t => { t with canceled := true }) :=
      upd_congr (by simp [hp])
    rw [e, timer_upd_same _ hl]
    exact ⟨rfl, rfl, rfl, hu⟩

/-- Instances of C11: the armed timer of slot 0 is freed, its `canceled` flag
untouched; the timer whose event is queued is marked canceled and stays
used. -/
theorem C11_cancel_by_pending_witness :
    (∃ s', scheduler_cancel_timer 0 (State.armed (sample_args true 10 true)) = Except.ok s' ∧
      (s'.timer 0).used = false ∧ (s'.timer 0).canceled = false) ∧
    (∃ s', scheduler_cancel_timer 0 (State.queued true) = Except.ok s' ∧
      (s'.timer 0).canceled = true ∧ (s'.timer 0).used = true) :=
  ⟨(let ⟨s', h1, h2, _⟩ :=
      C11_cancel_by_pending 0 (State.armed (sample_args true 10 true)) (by decide) rfl;
    ⟨s', h1, (h2 rfl).2.2.1, (h2 rfl).2.2.2⟩),
   (let ⟨s', h1, _, h3⟩ := C11_cancel_by_pending 0 (State.queued true) (by decide) rfl;
    ⟨s', h1, (h3 rfl).2.2.1, (h3 rfl).2.2.2⟩)⟩

/-! ## C12: cancellation of an invalid handle -/

theorem cancel_out_of_pool (h : Nat) (s : State) (hh : ¬ h < timer_count) :
    scheduler_cancel_timer_mem h s = Except.error (Fault.handle_out_of_pool, s) ∧
    scheduler_cancel_timer h s = Except.error Fault.handle_out_of_pool := by
  unfold scheduler_cancel_timer_mem scheduler_cancel_timer
  rw [if_pos hh, if_pos hh]
  exact ⟨rfl, rfl⟩

theorem cancel_not_used (h : Nat) (s : State) (hh : h < timer_count)
    (hu : (s.timer h).used = false) :
    scheduler_cancel_timer_mem h s = Except.error (Fault.handle_not_used, s) ∧
    scheduler_cancel_timer h s = Except.error Fault.handle_not_used := by
  unfold scheduler_cancel_timer_mem scheduler_cancel_timer
  rw [if_neg (not_not.2 hh), if_neg (not_not.2 hh), if_pos (by simp [hu]), if_pos (by simp [hu])]
  exact ⟨rfl, rfl⟩

/-- C12: a cancellation whose handle is outside the pool, or whose slot is not
used, stops at the corresponding assertion with the globals exactly as they
were at the call.  In particular, when a first cancellation has freed the slot
(it was not pending), a second cancellation of the same handle fails, both
right away and after any ticks and consumer steps in between. -/
theorem C12_cancel_invalid_handle (h : Nat) (s : State) :
    (¬ h < timer_count →
      scheduler_cancel_timer_mem h s = Except.error (Fault.handle_out_of_pool, s) ∧
      scheduler_cancel_timer h s = Except.error Fault.handle_out_of_pool) ∧
    (h < timer_count → (s.timer h).used = false →
      scheduler_cancel_timer_mem h s = Except.error (Fault.handle_not_used, s) ∧
      scheduler_cancel_timer h s = Except.error Fault.handle_not_used) ∧
    (∀ s1, (s.timer h).pending = false → scheduler_cancel_timer h s = Except.ok s1 →
      (s1.timer h).used = false ∧
      scheduler_cancel_timer_mem h s1 = Except.error (Fault.handle_not_used, s1) ∧
      scheduler_cancel_timer h s1 = Except.error Fault.handle_not_used ∧
      ∀ (fuel : Nat) (q0 : PushOracle) (ops : List Op) (s2 : State),
        s.queue.count h = 0 → (∀ op ∈ ops, op.passive = true) →
        run quiet (fuel + 1) q0 ops s1 = Except.ok s2 →
        scheduler_cancel_timer_mem h s2 = Except.error (Fault.handle_not_used, s2) ∧
        scheduler_cancel_timer h s2 = Except.error Fault.handle_not_used) := by
  refine ⟨cancel_out_of_pool h s, cancel_not_used h s, fun s1 hp hc => ?_⟩
  obtain ⟨hh, hu, rfl⟩ := cancel_eq hc
  have hl := used_lt s h hu
  have hu1 : ((s.upd h (fun t => if t.pending then { t with canceled := true }
      else { t with used := false })).timer h).used = false := by
    rw [timer_upd_same _ hl]; simp [hp]
  refine ⟨hu1, (cancel_not_used h _ hh hu1).1, (cancel_not_used h _ hh hu1).2, ?_⟩
  intro fuel q0 ops s2 hq hpas hr
  obtain ⟨hu2, _, _⟩ := free_slot_stays hh ops hpas hu1 (by simpa [State.upd] using hq) hr
  exact cancel_not_used h s2 hh hu2

/-- An instance of C12: handle 40 is outside the pool, slot 3 of the example
state is not used, and the armed timer of slot 0 cannot be canceled twice. -/
theorem C12_cancel_invalid_handle_witness :
    (scheduler_cancel_timer_mem 40 (State.armed (sample_args false 3 true)) =
      Except.error (Fault.handle_out_of_pool, State.armed (sample_args false 3 true))) ∧
    (scheduler_cancel_timer_mem 3 (State.armed (sample_args false 3 true)) =
      Except.error (Fault.handle_not_used, State.armed (sample_args false 3 true))) ∧
    (scheduler_cancel_timer 0 (State.armed (sample_args false 3 true)) =
      Except.ok ((State.armed (sample_args false 3 true)).upd 0
        (fun t => { t with used := false }))) ∧
    (scheduler_cancel_timer 0 ((State.armed (sample_args false 3 true)).upd 0
        (fun t => { t with used := false })) = Except.error Fault.handle_not_used) :=
  ⟨((C12_cancel_invalid_handle 40 (State.armed (sample_args false 3 true))).1 (by decide)).1,
   ((C12_cancel_invalid_handle 3 (State.armed (sample_args false 3 true))).2.1
      (by decide) rfl).1,
   rfl,
   ((C12_cancel_invalid_handle 0 (State.armed (sample_args false 3 true))).2.2 _ rfl rfl).2.2.1⟩

/-! ## C13: a timer that has fired keeps its slot -/

/-- The interrupt-context dispatch leaves a slot that was not canceled used
and not pending, whatever the callback does. -/
theorem timeout_keeps_slot {cc : Nat → State → Except Fault State} {q : PushOracle}
    {i : Nat} {s s' : State} (hcc : Good cc) (hi : Inv s)
    (hirq : (s.timer i).irql = true)
    (h : on_timer_timeout cc q i s = Except.ok s')
    (hnc : (s'.timer i).canceled = false) :
    (s'.timer i).used = true ∧ (s'.timer i).pending = false := by
  unfold on_timer_timeout at h
  rw [if_pos hirq] at h
  by_cases hu : (s.timer i).used = true
  swap
  · rw [if_pos hu] at h; cases h
  rw [if_neg (not_not.2 hu)] at h
  by_cases hcn : (s.timer i).canceled = true
  · rw [if_pos hcn] at h; cases h
  rw [if_neg hcn] at h
  by_cases hp : (s.timer i).pending = true
  · rw [if_pos hp] at h; cases h
  rw [if_neg hp] at h
  have hl := used_lt s i hu
  have hnq : i ∉ s.queue := fun hq => hp (hi.queued i hq).2
  have hi1 : Inv (s.upd i (fun t => { t with pending := true })) :=
    Inv_upd i _ hi (fun _ => ⟨hu, rfl⟩) (fun _ => Or.inl hu)
  have hf1 : InFlight i (s.upd i (fun t => { t with pending := true })) :=
    ⟨by rw [timer_upd_same _ hl]; exact hu, by rw [timer_upd_same _ hl], hnq⟩
  split at h
  · cases h
  next s2 h2 =>
  obtain ⟨hi2, hf2⟩ := hcc _ _ _ h2 hi1
  obtain ⟨hu2, _, _⟩ := hf2 i hf1
  have hl2 := used_lt s2 i hu2
  simp only [timer_upd_same _ hl2] at h
  split at h
  · next hc =>
    injection h with h; subst h
    rw [timer_upd_same _ (by rw [upd_length]; exact hl2), timer_upd_same _ hl2] at hnc
    exact Bool.noConfusion ((show (s2.timer i).canceled = true from hc).symm.trans
      (show (s2.timer i).canceled = false from hnc))
  · split at h
    all_goals
      injection h with h; subst h
      simp [timer_upd_same, hl2, upd_length, hu2]

/-- The consumer leaves the slot of the event it handles used and not
pending, unless the timer was canceled, whatever the callback does. -/
theorem event_keeps_slot {cc : Nat → State → Except Fault State}
    {i : Nat} {rest : List Nat} {s s' : State} (hcc : Good cc) (hi : Inv s)
    (hq : s.queue = i :: rest)
    (h : event_queue_drain cc s = Except.ok s')
    (hnc : (s'.timer i).canceled = false) :
    (s'.timer i).used = true ∧ (s'.timer i).pending = false := by
  unfold event_queue_drain at h
  rw [hq] at h
  simp only at h
  have hnd := hi.nodup
  rw [hq] at hnd
  have hi1 : Inv { s with queue := rest } :=
    ⟨(List.nodup_cons.1 hnd).2, fun k hk => hi.queued k (by rw [hq]; exact List.mem_cons_of_mem _ hk),
      hi.pend, hi.len⟩
  obtain ⟨hu, hp⟩ := hi.queued i (by rw [hq]; exact List.mem_cons_self _ _)
  have hl := used_lt s i hu
  unfold on_timer_event at h
  simp only [timer_with_queue] at h
  rw [if_neg (not_not.2 hu), if_neg (not_not.2 hp)] at h
  by_cases hcn : (s.timer i).canceled = true
  · rw [if_pos hcn] at h
    injection h with h; subst h
    rw [timer_upd_same _ (by exact hl)] at hnc
    simp only [timer_with_queue] at hnc
    rw [hcn] at hnc; cases hnc
  rw [if_neg hcn] at h
  have hf1 : InFlight i { s with queue := rest } := ⟨hu, hp, (List.nodup_cons.1 hnd).1⟩
  split at h
  · cases h
  next s2 h2 =>
  obtain ⟨hi2, hf2⟩ := hcc _ _ _ h2 hi1
  obtain ⟨hu2, _, _⟩ := hf2 i hf1
  have hl2 := used_lt s2 i hu2
  simp only [timer_upd_same _ hl2] at h
  split at h
  · next hc =>
    injection h with h; subst h
    rw [timer_upd_same _ (by rw [upd_length]; exact hl2), timer_upd_same _ hl2] at hnc
    exact Bool.noConfusion ((show (s2.timer i).canceled = true from hc).symm.trans
      (show (s2.timer i).canceled = false from hnc))
  · injection h with h; subst h
    simp [timer_upd_same, hl2, hu2]

/-- A used slot that is not canceled stays so along ticks and consumer steps. -/
theorem used_slot_stays {fuel : Nat} {q0 : PushOracle} {h : Nat} (hh : h < timer_count)
    (ops : List Op) (hp : ∀ op ∈ ops, op.passive = true) {s s' : State}
    (hu : (s.timer h).used = true) (hc : (s.timer h).canceled = false)
    (hr : run quiet (fuel + 1) q0 ops s = Except.ok s') :
    (s'.timer h).used = true ∧ (s'.timer h).canceled = false := by
  exact run_view fuel q0 hh True
    (fun _ v => v.t.used = true ∧ v.t.canceled = false)
    (fun _ _ _ hv => hv)
    (fun n ok v v' hv ht => by
      obtain ⟨h1, h2, _⟩ := tick_view_flags hv.2 ht
      exact ⟨h1.trans hv.1, h2⟩)
    (fun _ n v v' hv _ ht => by
      obtain ⟨h1, h2, _⟩ := event_view_flags hv.2 ht
      exact ⟨h1.trans hv.1, h2⟩)
    ops (passive_cases hp) ⟨hu, hc⟩ hr

/-- C13 does not hold: a one-shot interrupt-context timer of period 1 is
invoked by the first tick, and a one-shot deferred timer whose event is queued
is invoked by the consumer; neither was canceled, and after the invocation
both slots are still used. -/
theorem C13_fired_slot_still_used :
    (∃ s', timer_callback_irql (call_callback quiet always 1) always
        (State.armed (sample_args true 1 false)) = Except.ok s' ∧
      invocations 0 s'.trace = 1 ∧ (s'.timer 0).repeatable = false ∧
      (s'.timer 0).canceled = false ∧ (s'.timer 0).used = true) ∧
    (∃ s', event_queue_drain (call_callback quiet always 1) (State.queued false) =
        Except.ok s' ∧
      invocations 0 s'.trace = 1 ∧ (s'.timer 0).repeatable = false ∧
      (s'.timer 0).canceled = false ∧ (s'.timer 0).used = true) :=
  ⟨⟨_, rfl, rfl, rfl, rfl, rfl⟩, ⟨_, rfl, rfl, rfl, rfl, rfl⟩⟩

/-- C13, amended: a timer that has fired and was not canceled keeps its slot.
In a state satisfying the pool invariant (every reachable state does, and so
does every state inside the tick handler's scan), whatever the callbacks do:
when the dispatch of an interrupt-context timer returns, and when the consumer
has handled the queued event of a deferred timer, a slot whose `canceled` flag
is clear has `used = true` and `pending = false`, repeatable or not.  Such a
slot stays used along all later ticks and consumer steps of callbacks that
make no scheduler call. -/
theorem C13_fired_timer_keeps_slot (prog : Prog) (fuel : Nat) (q : PushOracle) (i : Nat)
    (s s' : State) (hh : i < timer_count) (hi : Inv s)
    (hnc : (s'.timer i).canceled = false) :
    ((s.timer i).irql = true →
      on_timer_timeout (call_callback prog q fuel) q i s = Except.ok s' →
      (s'.timer i).used = true ∧ (s'.timer i).pending = false) ∧
    (∀ rest, s.queue = i :: rest →
      event_queue_drain (call_callback prog q fuel) s = Except.ok s' →
      (s'.timer i).used = true ∧ (s'.timer i).pending = false) ∧
    (∀ (q0 : PushOracle) (ops : List Op) (s2 : State), (s'.timer i).used = true →
      (∀ op ∈ ops, op.passive = true) → run quiet (fuel + 1) q0 ops s' = Except.ok s2 →
      (s2.timer i).used = true ∧ (s2.timer i).canceled = false) := by
  refine ⟨fun hirq h => timeout_keeps_slot (call_callback_good prog q fuel) hi hirq h hnc,
    fun rest hq h => event_keeps_slot (call_callback_good prog q fuel) hi hq h hnc,
    fun q0 ops s2 hu hp hr => used_slot_stays hh ops hp hu hnc hr⟩

end Scheduler
namespace Scheduler

/-- An instance of C13 as amended: the dispatch of the one-shot
interrupt-context timer registered in slot 0 leaves the slot used. -/
theorem C13_fired_timer_keeps_slot_witness :
    on_timer_timeout (call_callback quiet always 1) always 0
        (State.armed (sample_args true 1 false)) =
      Except.ok { State.armed (sample_args true 1 false) with
        trace := [Obs.call 0 0 7 (some 5)] } ∧
    ((State.armed (sample_args true 1 false)).timer 0).repeatable = false ∧
    (({ State.armed (sample_args true 1 false) with
        trace := [Obs.call 0 0 7 (some 5)] } : State).timer 0).used = true ∧
    (({ State.armed (sample_args true 1 false) with
        trace := [Obs.call 0 0 7 (some 5)] } : State).timer 0).pending = false :=
  ⟨rfl, rfl,
    (C13_fired_timer_keeps_slot quiet 1 always 0 (State.armed (sample_args true 1 false))
      { State.armed (sample_args true 1 false) with trace := [Obs.call 0 0 7 (some 5)] }
      (by decide)
      (run_inv quiet 1 always
        [Op.init true 72000000, Op.schedule (sample_args true 1 false) always] Inv_zero rfl)
      rfl).1 rfl rfl⟩

/-! ## C14: registration claims the lowest free slot -/

theorem find_free_some (l : List timer_t) (k n : Nat) (hn : n < l.length)
    (hf : (l.getD n timer_zero).used = false) : ∃ i, find_free l k = Except.ok i := by
  induction l generalizing k n with
  | nil => simp at hn
  | cons t rest ih =>
    unfold find_free
    by_cases hu : t.used = true
    · rw [if_neg (not_not.2 hu)]
      cases n with
      | zero => simp [hu] at hf
      | succ m => exact ih (k + 1) m (by simpa using hn) (by simpa using hf)
    · rw [if_pos hu]
      exact ⟨k, rfl⟩

/-- Registration with a positive period in closed form. -/
theorem schedule_pos_ok (cc : Nat → State → Except Fault State) (q : PushOracle)
    (a : sched_args) {s : State} {h : Nat} (hinit : s.scheduler_initialized = true)
    (hP : 0 < a.period_ms) (hfree : find_free s.timers 0 = Except.ok h) :
    schedule_internal cc q a s =
      Except.ok (h, s.upd h (fun _ => fresh_timer a s.tick_count)) := by
  unfold schedule_internal
  rw [if_neg (not_not.2 hinit), if_neg (fun hc => hc.2 hP)]
  simp only
  rw [hfree]
  simp only
  rw [if_neg (by omega)]
  rfl

/-- C14: in an initialized state whose pool has a free slot, a registration
with period `P > 0` succeeds and returns the lowest free slot: the slot was not
used and every slot below it was.  The result is the state at the call with
that slot overwritten: used, not canceled, not pending, with the requested
context, repeatable flag, period, callback type, callback, argument and debug
name, and with due tick (tick counter at the call) + `P`, the sum being taken
in 64 bits as the code does (it is the plain sum whenever that fits). -/
theorem C14_schedule_lowest_free_slot (cc : Nat → State → Except Fault State)
    (q : PushOracle) (a : sched_args) (s : State)
    (hlen : s.timers.length = timer_count)
    (hinit : s.scheduler_initialized = true) (hP : 0 < a.period_ms)
    (k : Nat) (hk : k < timer_count) (hfree : (s.timer k).used = false) :
    ∃ h s', schedule_internal cc q a s = Except.ok (h, s') ∧
      h ≤ k ∧ (s.timer h).used = false ∧ (∀ j, j < h → (s.timer j).used = true) ∧
      s' = s.upd h (fun _ => s'.timer h) ∧
      s'.timer h =
        { used := true, repeatable := a.repeatable, canceled := false, pending := false,
          irql := a.irql, period := a.period_ms,
          next_tick_count := (s.tick_count + a.period_ms) % 18446744073709551616,
          type := a.type, callback := a.callback, callback_arg := a.callback_arg,
          debug_name := a.debug_name } ∧
      (s.tick_count + a.period_ms < 18446744073709551616 →
        (s'.timer h).next_tick_count = s.tick_count + a.period_ms) := by
  obtain ⟨h, hff⟩ := find_free_some s.timers 0 k (by rw [hlen]; exact hk)
    (by simpa [State.timer] using hfree)
  obtain ⟨hl, hu, hbelow⟩ := find_free_state hff
  have ht : (s.upd h (fun _ => fresh_timer a s.tick_count)).timer h =
      fresh_timer a s.tick_count := timer_upd_same _ hl
  refine ⟨h, _, schedule_pos_ok cc q a hinit hP hff, ?_, hu, hbelow, ?_, ?_, ?_⟩
  · by_contra hc
    have := hbelow k (by omega)
    rw [hfree] at this; cases this
  · rw [ht]
  · rw [ht]; rfl
  · intro hno
    rw [ht]
    show wrap64 (s.tick_count + a.period_ms) = _
    unfold wrap64; omega

/-- An instance of C14: with slot 0 taken, a registration at tick 0 claims
slot 1. -/
theorem C14_schedule_lowest_free_slot_witness :
    ∃ h s', schedule_internal (call_callback quiet always 1) always (sample_args false 5 true)
        (State.armed (sample_args true 10 true)) = Except.ok (h, s') ∧
      h = 1 ∧ s'.timer h = fresh_timer (sample_args false 5 true) 0 ∧
      (s'.timer h).next_tick_count = 5 :=
  let ⟨h, s', h1, h2, h3, h4, _, h6, h7⟩ :=
    C14_schedule_lowest_free_slot (call_callback quiet always 1) always
      (sample_args false 5 true) (State.armed (sample_args true 10 true)) rfl rfl
      (by decide) 1 (by decide) rfl
  ⟨h, s', h1, by
    have := h4 0
    rcases Nat.lt_or_ge 0 h with hlt | hge
    · have hu := this hlt
      omega
    · have : h = 0 := by omega
      subst this
      exact absurd h3 (by decide), h6, h7 (by decide)⟩

/-! ## The scalar globals across operations -/

@[simp] theorem regs_upd (s : State) (i : Nat) (f : timer_t → timer_t) :
    (s.upd i f).regs = s.regs := rfl

@[simp] theorem regs_emit (s : State) (e : Obs) : (s.emit e).regs = s.regs := rfl

@[simp] theorem regs_queue_trace (s : State) (l : List Nat) (l2 : List Obs) :
    ({ s with queue := l, trace := l2 } : State).regs = s.regs := rfl

@[simp] theorem regs_trace (s : State) (l2 : List Obs) :
    ({ s with trace := l2 } : State).regs = s.regs := rfl

@[simp] theorem regs_queue (s : State) (l : List Nat) :
    ({ s with queue := l } : State).regs = s.regs := rfl

theorem cancel_keeps {h : Nat} {s s' : State}
    (hc : scheduler_cancel_timer h s = Except.ok s') : s'.regs = s.regs := by
  obtain ⟨_, _, rfl⟩ := cancel_eq hc
  rfl

theorem on_timer_timeout_keeps {cc : Nat → State → Except Fault State} {q : PushOracle}
    {i : Nat} {s s' : State} (hcc : Keeps cc)
    (h : on_timer_timeout cc q i s = Except.ok s') : s'.regs = s.regs := by
  unfold on_timer_timeout at h
  split at h
  · split at h
    · cases h
    split at h
    · cases h
    split at h
    · cases h
    split at h
    · cases h
    next s2 h2 =>
    have e2 := hcc _ _ _ h2
    rw [regs_upd] at e2
    simp only at h
    repeat' split at h
    all_goals
      injection h with h; subst h
      simpa using e2
  · unfold event_queue_try_push at h
    split at h
    all_goals simp only at h
    all_goals repeat' split at h
    all_goals
      injection h with h; subst h
      rfl

theorem schedule_keeps {cc : Nat → State → Except Fault State} {q : PushOracle}
    {a : sched_args} {s s' : State} {h : Nat} (hcc : Keeps cc)
    (hr : schedule_internal cc q a s = Except.ok (h, s')) : s'.regs = s.regs := by
  rcases schedule_cases hr with ⟨_, rfl⟩ | ⟨_, s3, h3, rfl⟩
  · rfl
  · have := on_timer_timeout_keeps hcc h3
    simp only [State.regs, upd_tick_count, upd_init, upd_primask, Prod.mk.injEq] at this ⊢
    exact ⟨this.1, this.2.1, trivial⟩

theorem run_action_keeps {cc : Nat → State → Except Fault State} {q : PushOracle}
    {a : Action} {s s' : State} (hcc : Keeps cc)
    (h : run_action cc q a s = Except.ok s') : s'.regs = s.regs := by
  cases a with
  | cancel hd => exact cancel_keeps (by simpa only [run_action] using h)
  | schedule a =>
    simp only [run_action] at h
    split at h
    · cases h
    next r hr =>
    injection h with h
    subst h
    exact schedule_keeps (h := r.1) hcc hr

theorem run_actions_keeps {cc : Nat → State → Except Fault State} {q : PushOracle}
    (hcc : Keeps cc) (l : List Action) {s s' : State}
    (h : run_actions cc q l s = Except.ok s') : s'.regs = s.regs := by
  induction l generalizing s with
  | nil =>
    unfold run_actions at h
    injection h with h; subst h; rfl
  | cons a rest ih =>
    unfold run_actions at h
    split at h
    · cases h
    next s1 h1 => exact (ih h).trans (run_action_keeps hcc h1)

theorem call_callback_keeps (prog : Prog) (q : PushOracle) (fuel : Nat) :
    Keeps (call_callback prog q fuel) := by
  induction fuel with
  | zero => intro j s s' h; simp [call_callback] at h
  | succ n ih =>
    intro j s s' h
    unfold call_callback at h
    simp only at h
    exact (run_actions_keeps ih _ h).trans (regs_emit s _)

theorem on_timer_event_keeps {cc : Nat → State → Except Fault State} {i : Nat} {s s' : State}
    (hcc : Keeps cc) (h : on_timer_event cc i s = Except.ok s') : s'.regs = s.regs := by
  unfold on_timer_event at h
  split at h
  · cases h
  split at h
  · cases h
  split at h
  · injection h with h; subst h; rfl
  split at h
  · cases h
  next s2 h2 =>
  have e2 := hcc _ _ _ h2
  simp only at h
  repeat' split at h
  all_goals
    injection h with h; subst h
    simpa using e2

theorem tick_visit_keeps {cc : Nat → State → Except Fault State} {q : PushOracle} {i : Nat}
    {s s' : State} (hcc : Keeps cc) (h : tick_visit cc q i s = Except.ok s') :
    s'.regs = s.regs := by
  unfold tick_visit at h
  split at h
  · split at h
    · split at h
      · cases h
      · injection h with h; subst h; rfl
    · exact on_timer_timeout_keeps hcc h
  · injection h with h; subst h; rfl

theorem tick_scan_keeps {cc : Nat → State → Except Fault State} {q : PushOracle}
    (hcc : Keeps cc) (n i : Nat) {s s' : State}
    (h : tick_scan cc q n i s = Except.ok s') : s'.regs = s.regs := by
  induction n generalizing i s with
  | zero =>
    unfold tick_scan at h
    injection h with h; subst h; rfl
  | succ n ih =>
    unfold tick_scan at h
    split at h
    · cases h
    next s1 h1 => exact (ih _ h).trans (tick_visit_keeps hcc h1)

/-- The tick handler adds one to the counter, in 64 bits, and leaves the
initialized flag and the interrupt mask. -/
theorem timer_callback_irql_regs {cc : Nat → State → Except Fault State} {q : PushOracle}
    {s s' : State} (hcc : Keeps cc) (h : timer_callback_irql cc q s = Except.ok s') :
    s'.regs = (wrap64 (s.tick_count + 1), s.scheduler_initialized, s.primask) := by
  unfold timer_callback_irql at h
  exact tick_scan_keeps hcc _ _ h

theorem event_queue_drain_keeps {cc : Nat → State → Except Fault State} {s s' : State}
    (hcc : Keeps cc) (h : event_queue_drain cc s = Except.ok s') : s'.regs = s.regs := by
  unfold event_queue_drain at h
  split at h
  · injection h with h; subst h; rfl
  next i rest _ => exact (on_timer_event_keeps (s := { s with queue := rest }) hcc h).trans rfl

/-! ## C15: initialisation -/

theorem step_regs (prog : Prog) (fuel : Nat) (q0 : PushOracle) (op : Op) {s s' : State}
    (h : step prog fuel q0 op s = Except.ok s') :
    s'.tick_count = (if op.ticking then wrap64 (s.tick_count + 1) else s.tick_count) ∧
    (op.inits = false → s'.scheduler_initialized = s.scheduler_initialized) := by
  cases op with
  | init b f =>
    simp only [step, scheduler_init] at h
    split at h
    · cases h
    next r hr =>
    split at hr
    · cases hr
    split at hr
    · cases hr
    injection hr with hr
    subst hr
    injection h with h
    subst h
    exact ⟨rfl, fun hc => by simp [Op.inits] at hc⟩
  | schedule a q =>
    simp only [step] at h
    split at h
    · cases h
    next r hr =>
    injection h with h
    subst h
    have := schedule_keeps (h := r.1) (call_callback_keeps prog q fuel) hr
    simp only [State.regs, Prod.mk.injEq] at this
    exact ⟨this.1, fun _ => this.2.1⟩
  | cancel hd =>
    have := cancel_keeps (by simpa only [step] using h)
    simp only [State.regs, Prod.mk.injEq] at this
    exact ⟨this.1, fun _ => this.2.1⟩
  | tick q =>
    have := timer_callback_irql_regs (call_callback_keeps prog q fuel)
      (by simpa only [step] using h)
    simp only [State.regs, Prod.mk.injEq] at this
    exact ⟨this.1, fun _ => this.2.1⟩
  | drain =>
    have := event_queue_drain_keeps (call_callback_keeps prog q0 fuel)
      (by simpa only [step] using h)
    simp only [State.regs, Prod.mk.injEq] at this
    exact ⟨this.1, fun _ => this.2.1⟩

/-- A run adds the number of its ticks to the counter, in 64 bits. -/
theorem run_tick_count (prog : Prog) (fuel : Nat) (q0 : PushOracle) (ops : List Op)
    {s s' : State} (hs : s.tick_count < 18446744073709551616)
    (h : run prog fuel q0 ops s = Except.ok s') :
    s'.tick_count = wrap64 (s.tick_count + ticks ops) := by
  induction ops generalizing s with
  | nil =>
    rw [run_nil] at h
    injection h with h; subst h
    simp only [ticks, List.countP_nil]
    unfold wrap64; omega
  | cons op rest ih =>
    obtain ⟨s1, h1, h2⟩ := run_cons h
    obtain ⟨e1, _⟩ := step_regs prog fuel q0 op h1
    have hlt : s1.tick_count < 18446744073709551616 := by
      rw [e1]; split
      · unfold wrap64; omega
      · exact hs
    rw [ih hlt h2, e1]
    unfold ticks at *
    rw [List.countP_cons]
    cases op.ticking
    · simp
    · simp only [if_true, List.length_singleton]
      unfold wrap64; omega

/-- A run without initialisation leaves the initialized flag. -/
theorem run_no_init (prog : Prog) (fuel : Nat) (q0 : PushOracle) (ops : List Op)
    {s s' : State} (hn : ∀ op ∈ ops, op.inits = false)
    (h : run prog fuel q0 ops s = Except.ok s') :
    s'.scheduler_initialized = s.scheduler_initialized := by
  induction ops generalizing s with
  | nil =>
    rw [run_nil] at h
    injection h with h; subst h; rfl
  | cons op rest ih =>
    obtain ⟨s1, h1, h2⟩ := run_cons h
    rw [ih (fun o ho => hn o (List.mem_cons_of_mem _ ho)) h2]
    exact (step_regs prog fuel q0 op h1).2 (hn op (List.mem_cons_self _ _))

/-- C15: `scheduler_init` stops at an assertion, with the globals (the
initialized flag among them) as they were, when the event queue reports that
it is not initialized or when the scheduler is already initialized; otherwise
it succeeds, sets the flag, changes nothing else, and `scheduler_is_init`
returns true.  `scheduler_is_init` returns false at start-up and after every
sequence of operations that contains no initialisation. -/
theorem C15_init_once (b : Bool) (f : Nat) (s : State) :
    (b = false →
      scheduler_init_mem b f s = Except.error (Fault.event_queue_not_init, s) ∧
      scheduler_init b f s = Except.error Fault.event_queue_not_init) ∧
    (b = true → s.scheduler_initialized = true →
      scheduler_init_mem b f s = Except.error (Fault.already_initialized, s) ∧
      scheduler_init b f s = Except.error Fault.already_initialized) ∧
    (b = true → s.scheduler_initialized = false →
      ∃ r, scheduler_init b f s = Except.ok (r, { s with scheduler_initialized := true }) ∧
        scheduler_is_init { s with scheduler_initialized := true } = true) ∧
    scheduler_is_init State.zero = false ∧
    (∀ (prog : Prog) (fuel : Nat) (q0 : PushOracle) (ops : List Op) (s' : State),
      (∀ op ∈ ops, op.inits = false) → run prog fuel q0 ops State.zero = Except.ok s' →
      scheduler_is_init s' = false) := by
  refine ⟨fun hb => ?_, fun hb hi => ?_, fun hb hi => ?_, rfl, fun prog fuel q0 ops s' hn h => ?_⟩
  · subst hb
    exact ⟨rfl, rfl⟩
  · subst hb
    unfold scheduler_init_mem scheduler_init
    simp [hi]
  · subst hb
    refine ⟨(wrap32 (wrap32 f / (999 + 1) / 1000 + 4294967296 - 1), 999), ?_, rfl⟩
    unfold scheduler_init
    rw [if_neg (by simp), if_neg (by simp [hi])]
  · unfold scheduler_is_init
    rw [run_no_init prog fuel q0 ops hn h]
    rfl

/-- An instance of C15: the first initialisation succeeds, a second one
fails. -/
theorem C15_init_once_witness :
    (∃ r, scheduler_init true 72000000 State.zero = Except.ok (r, State.ready) ∧
      scheduler_is_init State.ready = true) ∧
    scheduler_init_mem true 72000000 State.ready =
      Except.error (Fault.already_initialized, State.ready) ∧
    scheduler_init_mem false 72000000 State.zero =
      Except.error (Fault.event_queue_not_init, State.zero) :=
  ⟨(C15_init_once true 72000000 State.zero).2.2.1 rfl rfl,
   ((C15_init_once true 72000000 State.ready).2.1 rfl rfl).1,
   ((C15_init_once false 72000000 State.zero).1 rfl).1⟩

/-! ## C16: rejected registrations -/

theorem schedule_not_initialized (tm : Nat → State → Except Halt State)
    (cc : Nat → State → Except Fault State) (q : PushOracle) (a : sched_args) (s : State)
    (hi : s.scheduler_initialized = false) :
    schedule_internal_mem tm a s = Except.error (Fault.not_initialized, s) ∧
    schedule_internal cc q a s = Except.error Fault.not_initialized := by
  unfold schedule_internal_mem schedule_internal
  rw [if_pos (by simp [hi] : ¬ s.scheduler_initialized = true),
    if_pos (by simp [hi] : ¬ s.scheduler_initialized = true)]
  exact ⟨rfl, rfl⟩

/-- C16: a registration made while the scheduler is not initialized (so every
registration before the first initialisation), and a registration of a
repeatable timer with period 0, stop at the corresponding assertion with the
globals, hence every slot, as they were at the call: no slot is claimed or
written, no callback runs and nothing is pushed. -/
theorem C16_schedule_rejected (tm : Nat → State → Except Halt State)
    (cc : Nat → State → Except Fault State) (q : PushOracle) (a : sched_args) (s : State) :
    (s.scheduler_initialized = false →
      schedule_internal_mem tm a s = Except.error (Fault.not_initialized, s) ∧
      schedule_internal cc q a s = Except.error Fault.not_initialized) ∧
    (s.scheduler_initialized = true → a.repeatable = true → a.period_ms = 0 →
      schedule_internal_mem tm a s = Except.error (Fault.repeatable_zero_period, s) ∧
      schedule_internal cc q a s = Except.error Fault.repeatable_zero_period) ∧
    (∀ (prog : Prog) (fuel : Nat) (q0 : PushOracle) (ops : List Op) (s' : State),
      (∀ op ∈ ops, op.inits = false) → run prog fuel q0 ops State.zero = Except.ok s' →
      schedule_internal_mem tm a s' = Except.error (Fault.not_initialized, s') ∧
      schedule_internal cc q a s' = Except.error Fault.not_initialized) := by
  refine ⟨schedule_not_initialized tm cc q a s, fun hi hr hp => ?_,
    fun prog fuel q0 ops s' hn h =>
      schedule_not_initialized tm cc q a s' ((run_no_init prog fuel q0 ops hn h).trans rfl)⟩
  unfold schedule_internal_mem schedule_internal
  rw [if_neg (not_not.2 hi),
    if_pos (show a.repeatable = true ∧ ¬ a.period_ms > 0 from ⟨hr, by omega⟩),
    if_neg (not_not.2 hi),
    if_pos (show a.repeatable = true ∧ ¬ a.period_ms > 0 from ⟨hr, by omega⟩)]
  exact ⟨rfl, rfl⟩

/-- An instance of C16: a registration at start-up, and the registration of a
repeatable timer of period 0 in the initialized state. -/
theorem C16_schedule_rejected_witness :
    (schedule_internal_mem (fun _ s => Except.ok s) (sample_args true 10 true) State.zero =
      Except.error (Fault.not_initialized, State.zero)) ∧
    (schedule_internal (call_callback quiet always 1) always (sample_args true 0 true)
      State.ready = Except.error Fault.repeatable_zero_period) ∧
    (schedule_internal_mem (fun _ s => Except.ok s) (sample_args false 0 true) State.ready =
      Except.error (Fault.repeatable_zero_period, State.ready)) :=
  ⟨((C16_schedule_rejected (fun _ s => Except.ok s) (call_callback quiet always 1) always
      (sample_args true 10 true) State.zero).1 rfl).1,
   ((C16_schedule_rejected (fun _ s => Except.ok s) (call_callback quiet always 1) always
      (sample_args true 0 true) State.ready).2.1 rfl rfl rfl).2,
   ((C16_schedule_rejected (fun _ s => Except.ok s) (call_callback quiet always 1) always
      (sample_args false 0 true) State.ready).2.1 rfl rfl rfl).1⟩

/-! ## C17 and C18: the busy wait -/

/-- On a pool without used slots the scan of the tick handler does nothing. -/
theorem tick_scan_idle (cc : Nat → State → Except Fault State) (q : PushOracle)
    (n i : Nat) (s : State) (hfree : ∀ j, (s.timer j).used = false) :
    tick_scan cc q n i s = Except.ok s := by
  induction n generalizing i with
  | zero => rfl
  | succ n ih =>
    unfold tick_scan
    have : tick_visit cc q i s = Except.ok s := by
      unfold tick_visit
      rw [if_neg (by simp [hfree i])]
    rw [this]
    exact ih (i + 1)

/-- With the mask clear the assertion of `scheduler_wait` passes and the loop
is entered. -/
theorem wait_enters_loop (prog : Prog) (fuel ms : Nat) (irqs : List (Option PushOracle))
    (s : State) (hmask : s.primask % 2 = 0) :
    scheduler_wait prog fuel ms irqs s = wait_loop prog fuel s.tick_count ms irqs s := by
  unfold scheduler_wait
  rw [if_neg (not_not.2 hmask)]

/-- While no tick interrupt is taken the loop of a wait for `ms > 0` keeps
spinning. -/
theorem wait_loop_idle (prog : Prog) (fuel ms n : Nat) (s : State) (hms : 0 < ms) :
    wait_loop prog fuel s.tick_count ms (List.replicate n none) s =
      Except.error Fault.out_of_fuel := by
  induction n with
  | zero => rfl
  | succ n ih =>
    rw [List.replicate_succ]
    unfold wait_loop
    simp only [take_irq]
    rw [if_pos (by unfold wrap64; omega)]
    exact ih

/-- A wait for 0 ms ends at the first evaluation of the loop condition. -/
theorem wait_loop_zero (prog : Prog) (fuel : Nat) (rest : List (Option PushOracle))
    (s : State) :
    wait_loop prog fuel s.tick_count 0 (none :: rest) s = Except.ok s := by
  unfold wait_loop
  simp only [take_irq]
  rw [if_neg (by unfold wrap64; omega)]

/-- On a pool without used slots, a wait whose loop is preempted by the tick
interrupt at every evaluation returns when `ms` ticks have passed. -/
theorem wait_loop_ticks (prog : Prog) (fuel : Nat) (q : PushOracle) (start ms k : Nat)
    (s : State) (hfree : ∀ j, (s.timer j).used = false) (hk : 0 < k)
    (ht : s.tick_count + k = start + ms) (hs : start ≤ s.tick_count)
    (hno : start + ms < 18446744073709551616) :
    wait_loop prog fuel start ms (List.replicate k (some q)) s =
      Except.ok { s with tick_count := start + ms } := by
  induction k generalizing s with
  | zero => omega
  | succ k ih =>
    rw [List.replicate_succ]
    unfold wait_loop
    have htick : take_irq prog fuel (some q) s =
        Except.ok { s with tick_count := wrap64 (s.tick_count + 1) } := by
      simp only [take_irq, timer_callback_irql]
      exact tick_scan_idle _ q _ _ _ (fun j => hfree j)
    rw [htick]
    simp only
    have hw : wrap64 (s.tick_count + 1) = s.tick_count + 1 := by unfold wrap64; omega
    rw [hw]
    by_cases hk0 : k = 0
    · subst hk0
      rw [if_neg (by unfold wrap64; omega)]
      have : s.tick_count + 1 = start + ms := by omega
      rw [this]
    · rw [if_pos (by unfold wrap64; omega)]
      rw [ih { s with tick_count := s.tick_count + 1 } (fun j => hfree j) (by omega)
        (by show s.tick_count + 1 + k = _; omega) (by show start ≤ s.tick_count + 1; omega)]

/-- With interrupts enabled and the tick interrupt arriving, `scheduler_wait`
returns after `ms` ticks: here on the initialized empty pool. -/
theorem wait_returns (prog : Prog) (fuel : Nat) (q : PushOracle) (ms : Nat) (hms : 0 < ms)
    (h32 : ms < 4294967296) :
    scheduler_wait prog fuel ms (List.replicate ms (some q)) State.ready =
      Except.ok { State.ready with tick_count := ms } := by
  rw [wait_enters_loop prog fuel ms _ State.ready rfl]
  have := wait_loop_ticks prog fuel q 0 ms ms State.ready (fun j => by
      show (State.zero.timer j).used = false
      unfold State.timer State.zero
      rw [List.getD_eq_getElem?_getD, List.getElem?_replicate]
      split <;> rfl) hms (by show 0 + ms = 0 + ms; rfl) (Nat.zero_le _) (by omega)
  rw [Nat.zero_add] at this
  exact this

/-- C17: called with interrupts disabled (bit 0 of `PRIMASK` set),
`scheduler_wait` stops at its assertion, for every `ms`, every value of the
tick counter and every arrival of tick interrupts, also when not a single
evaluation of the loop condition is allowed (`irqs = []`): the loop is not
entered.  With the mask clear and `ms > 0`, a call that is allowed no
evaluation reports the unfinished loop instead. -/
theorem C17_wait_interrupts_disabled (prog : Prog) (fuel ms : Nat)
    (irqs : List (Option PushOracle)) (s : State) :
    (s.primask % 2 = 1 →
      scheduler_wait prog fuel ms irqs s = Except.error Fault.interrupts_disabled ∧
      scheduler_wait prog fuel ms [] s = Except.error Fault.interrupts_disabled) ∧
    (s.primask % 2 = 0 → 0 < ms →
      scheduler_wait prog fuel ms [] s = Except.error Fault.out_of_fuel) := by
  refine ⟨fun hm => ?_, fun hm hms => ?_⟩
  · unfold scheduler_wait
    rw [if_pos (by omega), if_pos (by omega)]
    exact ⟨rfl, rfl⟩
  · rw [wait_enters_loop prog fuel ms [] s hm]
    exact wait_loop_idle prog fuel ms 0 s hms

/-- An instance of C17: a wait of 5 ms inside a critical section, with a tick
interrupt waiting to be taken. -/
theorem C17_wait_interrupts_disabled_witness :
    ({ State.ready with primask := 1 } : State).primask % 2 = 1 ∧
    scheduler_wait quiet 1 5 [some always, none] { State.ready with primask := 1 } =
      Except.error Fault.interrupts_disabled :=
  ⟨rfl, ((C17_wait_interrupts_disabled quiet 1 5 [some always, none]
    { State.ready with primask := 1 }).1 rfl).1⟩

/-- C18 does not hold: the tick handler runs the callback of the
interrupt-context timer of slot 0 with `PRIMASK` clear; a callback that calls
`scheduler_wait (0)` returns and the tick handler completes, and one that
calls `scheduler_wait (3)` spins (here through 50 evaluations of the loop
condition) without an assertion failing. -/
theorem C18_wait_in_tick_handler :
    (State.armed (sample_args true 1 false)).primask % 2 = 0 ∧
    timer_callback_irql (wait_callback 0 1) always (State.armed (sample_args true 1 false)) =
      Except.ok { State.armed (sample_args true 1 false) with
        tick_count := 1, trace := [Obs.call 0 1 7 (some 5)] } ∧
    timer_callback_irql (wait_callback 3 50) always (State.armed (sample_args true 1 false)) =
      Except.error Fault.out_of_fuel :=
  ⟨rfl, rfl, rfl⟩

/-- C18, amended: the only condition `scheduler_wait` checks is bit 0 of
`PRIMASK`.  Called with the mask clear it passes the assertion and enters the
loop, in any context.  When no tick interrupt is taken during the call, as in
a callback run by the tick handler, a wait for 0 ms returns at the first
evaluation of the loop condition with the state as it was, and a wait for
`ms > 0` is still spinning after any number `n` of evaluations. -/
theorem C18_wait_checks_only_primask (prog : Prog) (fuel ms n : Nat) (i : Nat) (s : State)
    (hmask : s.primask % 2 = 0) :
    (∀ irqs, scheduler_wait prog fuel ms irqs s = wait_loop prog fuel s.tick_count ms irqs s) ∧
    (ms = 0 → scheduler_wait prog fuel ms (List.replicate (n + 1) none) s = Except.ok s) ∧
    (0 < ms →
      scheduler_wait prog fuel ms (List.replicate n none) s = Except.error Fault.out_of_fuel) ∧
    (ms = 0 → wait_callback ms (n + 1) i s =
      Except.ok (s.emit (Obs.call i s.tick_count (s.timer i).callback (call_arg (s.timer i))))) ∧
    (0 < ms → wait_callback ms n i s = Except.error Fault.out_of_fuel) := by
  refine ⟨fun irqs => wait_enters_loop prog fuel ms irqs s hmask, fun h0 => ?_, fun hms => ?_,
    fun h0 => ?_, fun hms => ?_⟩
  · subst h0
    rw [wait_enters_loop prog fuel 0 _ s hmask, List.replicate_succ]
    exact wait_loop_zero prog fuel _ s
  · rw [wait_enters_loop prog fuel ms _ s hmask]
    exact wait_loop_idle prog fuel ms n s hms
  · subst h0
    unfold wait_callback
    rw [wait_enters_loop quiet 0 0 _ _ (by exact hmask), List.replicate_succ]
    exact wait_loop_zero quiet 0 _ _
  · unfold wait_callback
    rw [wait_enters_loop quiet 0 ms _ _ (by exact hmask)]
    exact wait_loop_idle quiet 0 ms n _ hms

/-- An instance of C18 as amended: a wait of 3 ms with the mask clear and no
tick interrupt taken is still spinning after 8 evaluations. -/
theorem C18_wait_checks_only_primask_witness :
    State.ready.primask % 2 = 0 ∧
    scheduler_wait quiet 1 3 (List.replicate 8 none) State.ready =
      Except.error Fault.out_of_fuel ∧
    scheduler_wait quiet 1 0 (List.replicate 1 none) State.ready = Except.ok State.ready :=
  ⟨rfl, (C18_wait_checks_only_primask quiet 1 3 8 0 State.ready rfl).2.2.1 (by decide),
    (C18_wait_checks_only_primask quiet 1 0 0 0 State.ready rfl).2.1 rfl⟩

/-! ## C19: the tick counter -/

/-- From start-up, `n` runs of the tick handler succeed and leave the counter
at `n` modulo 2^64. -/
theorem run_ticks_idle (prog : Prog) (fuel : Nat) (q0 q : PushOracle) (n t : Nat)
    (ht : t < 18446744073709551616) :
    run prog fuel q0 (List.replicate n (Op.tick q)) { State.zero with tick_count := t } =
      Except.ok { State.zero with tick_count := wrap64 (t + n) } := by
  induction n generalizing t with
  | zero =>
    have : wrap64 (t + 0) = t := by unfold wrap64; omega
    rw [this]; rfl
  | succ n ih =>
    rw [List.replicate_succ]
    unfold run
    have hstep : step prog fuel q0 (Op.tick q) { State.zero with tick_count := t } =
        Except.ok { State.zero with tick_count := wrap64 (t + 1) } := by
      simp only [step, timer_callback_irql]
      exact tick_scan_idle _ q _ _ _ (fun j => by
        show (State.zero.timer j).used = false
        unfold State.timer State.zero
        rw [List.getD_eq_getElem?_getD, List.getElem?_replicate]
        split <;> rfl)
    rw [hstep]
    simp only
    rw [ih (wrap64 (t + 1)) (by unfold wrap64; omega)]
    have : wrap64 (wrap64 (t + 1) + n) = wrap64 (t + (n + 1)) := by unfold wrap64; omega
    rw [this]

/-- C19: the 32-bit accessor returns the tick counter modulo 2^32 and the
64-bit accessor returns the counter.  The counter is 0 at start-up; a run of
the tick handler adds exactly 1 to it, in 64 bits as the code does (the plain
sum except at the wrap from 2^64 - 1 to 0), and no other operation changes it,
whatever the callbacks do.  So after any sequence of operations from start-up
that holds `n` runs of the tick handler the 64-bit accessor returns `n` modulo
2^64, which is `n` when `n < 2^64`, and the 32-bit accessor returns `n` modulo
2^32; and `n` runs of the tick handler from start-up do succeed, for every
`n`. -/
theorem C19_tick_counter (prog : Prog) (fuel : Nat) (q0 : PushOracle) :
    (∀ s : State, scheduler_get_time_ms32 s = s.tick_count % 4294967296 ∧
      scheduler_get_time_ms64 s = s.tick_count) ∧
    scheduler_get_time_ms64 State.zero = 0 ∧
    (∀ (q : PushOracle) (s s' : State),
      timer_callback_irql (call_callback prog q fuel) q s = Except.ok s' →
      scheduler_get_time_ms64 s' = (scheduler_get_time_ms64 s + 1) % 18446744073709551616 ∧
      (scheduler_get_time_ms64 s + 1 < 18446744073709551616 →
        scheduler_get_time_ms64 s' = scheduler_get_time_ms64 s + 1)) ∧
    (∀ (ops : List Op) (s : State), run prog fuel q0 ops State.zero = Except.ok s →
      scheduler_get_time_ms64 s = ticks ops % 18446744073709551616 ∧
      scheduler_get_time_ms32 s = ticks ops % 4294967296 ∧
      (ticks ops < 18446744073709551616 → scheduler_get_time_ms64 s = ticks ops)) ∧
    (∀ (q : PushOracle) (n : Nat), ∃ s,
      run prog fuel q0 (List.replicate n (Op.tick q)) State.zero = Except.ok s ∧
      scheduler_get_time_ms64 s = n % 18446744073709551616 ∧
      scheduler_get_time_ms32 s = n % 4294967296) := by
  refine ⟨fun s => ⟨rfl, rfl⟩, rfl, fun q s s' h => ?_, fun ops s h => ?_, fun q n => ?_⟩
  · have := timer_callback_irql_regs (call_callback_keeps prog q fuel) h
    simp only [State.regs, Prod.mk.injEq] at this
    unfold scheduler_get_time_ms64
    rw [this.1]
    refine ⟨rfl, fun hlt => ?_⟩
    unfold wrap64; omega
  · have e := run_tick_count prog fuel q0 ops (s := State.zero) (by decide) h
    have e0 : State.zero.tick_count = 0 := rfl
    rw [e0, Nat.zero_add] at e
    unfold scheduler_get_time_ms64 scheduler_get_time_ms32
    rw [e]
    unfold wrap64 wrap32
    refine ⟨rfl, by omega, fun hlt => by omega⟩
  · refine ⟨_, run_ticks_idle prog fuel q0 q n 0 (by decide), ?_, ?_⟩
    · unfold scheduler_get_time_ms64
      show wrap64 (0 + n) = _
      unfold wrap64; omega
    · unfold scheduler_get_time_ms32
      show wrap32 (wrap64 (0 + n)) = _
      unfold wrap64 wrap32; omega

/-- An instance of C19: three ticks after start-up, with a registration in
between, both accessors return 3. -/
theorem C19_tick_counter_witness :
    run quiet 1 always [Op.init true 72000000, Op.tick always,
        Op.schedule (sample_args true 10 true) always, Op.tick always, Op.tick never]
      State.zero =
      Except.ok { State.ready.upd 0 (fun _ => fresh_timer (sample_args true 10 true) 1) with
        tick_count := 3 } ∧
    scheduler_get_time_ms64 { State.ready.upd 0 (fun _ =>
      fresh_timer (sample_args true 10 true) 1) with tick_count := 3 } = 3 ∧
    scheduler_get_time_ms32 { State.ready.upd 0 (fun _ =>
      fresh_timer (sample_args true 10 true) 1) with tick_count := 3 } = 3 :=
  ⟨rfl,
   ((C19_tick_counter quiet 1 always).2.2.2.1 [Op.init true 72000000, Op.tick always,
      Op.schedule (sample_args true 10 true) always, Op.tick always, Op.tick never] _ rfl).2.2
      (by decide),
   ((C19_tick_counter quiet 1 always).2.2.2.1 [Op.init true 72000000, Op.tick always,
      Op.schedule (sample_args true 10 true) always, Op.tick always, Op.tick never] _ rfl).2.1⟩

/-! ## C20: the prescaler -/

/-- C20 does not hold: for a clock of 1.5 MHz `scheduler_init` passes
prescaler 0 with reload 999, which divides the clock by 1000 and gives 1.5 kHz;
for a clock of 500 kHz the subtraction wraps and it passes prescaler
4294967295. -/
theorem C20_tick_rate_not_exact :
    scheduler_init true 1500000 State.zero = Except.ok ((0, 999), State.ready) ∧
    (0 + 1) * (999 + 1) * 1000 ≠ 1500000 ∧
    scheduler_init true 500000 State.zero = Except.ok ((4294967295, 999), State.ready) ∧
    (4294967295 + 1) * (999 + 1) * 1000 ≠ 500000 :=
  ⟨rfl, by decide, rfl, by decide⟩

/-- C20, amended: for every 32-bit clock frequency `f`, `scheduler_init`
(which places no condition on `f`) passes reload 999 and the prescaler
`(f / 1000 / 1000) - 1` computed in 32-bit unsigned arithmetic; the tick rate
is exactly 1 kHz, that is `(p + 1) * (r + 1) * 1000 = f`, exactly when `f` is a
positive multiple of 1000000. -/
theorem C20_prescaler (f : Nat) (s : State) (hf : f < 4294967296)
    (hs : s.scheduler_initialized = false) :
    ∃ p r s', scheduler_init true f s = Except.ok ((p, r), s') ∧ r = 999 ∧
      p = (f / 1000 / 1000 + 4294967296 - 1) % 4294967296 ∧
      ((p + 1) * (r + 1) * 1000 = f ↔ (0 < f ∧ 1000000 ∣ f)) := by
  refine ⟨(f / 1000 / 1000 + 4294967296 - 1) % 4294967296, 999,
    { s with scheduler_initialized := true }, ?_, rfl, rfl, ?_⟩
  · unfold scheduler_init
    rw [if_neg (by simp), if_neg (by simp [hs])]
    have : f % 4294967296 = f := by omega
    simp only [wrap32, this]
  · omega

/-- An instance of C20 as amended: a clock of 72 MHz gives prescaler 71. -/
theorem C20_prescaler_witness :
    ∃ p r s', scheduler_init true 72000000 State.zero = Except.ok ((p, r), s') ∧ r = 999 ∧
      p = 71 ∧ (p + 1) * (r + 1) * 1000 = 72000000 :=
  let ⟨p, r, s', h1, h2, h3, h4⟩ := C20_prescaler 72000000 State.zero (by decide) rfl
  ⟨p, r, s', h1, h2, h3, h4.2 (by decide)⟩

/-! ## C21: a due slot that is pending -/

/-- The loop body of the tick handler on a used, due, pending slot. -/
theorem tick_visit_pending (cc : Nat → State → Except Fault State) (q : PushOracle)
    (i : Nat) (s : State) (hu : (s.timer i).used = true)
    (hdue : (s.timer i).next_tick_count = s.tick_count) (hp : (s.timer i).pending = true) :
    tick_visit cc q i s =
      if (s.timer i).repeatable then
        Except.ok (s.upd i (fun t =>
          { t with next_tick_count := wrap64 (t.next_tick_count + 1) }))
      else Except.error Fault.pending_not_repeatable := by
  unfold tick_visit
  rw [if_pos ⟨hu, hdue⟩, if_pos hp]
  cases (s.timer i).repeatable <;> rfl

/-- The tick handler as a whole on a used, repeatable, pending slot that is
due at the new tick, for callbacks that make no scheduler call. -/
theorem tick_pending_slot (fuel : Nat) (q : PushOracle) (h : Nat) (s s' : State)
    (hh : h < timer_count) (hu : (s.timer h).used = true)
    (hdue : (s.timer h).next_tick_count = wrap64 (s.tick_count + 1))
    (hp : (s.timer h).pending = true) (hr : (s.timer h).repeatable = true)
    (ht : timer_callback_irql (call_callback quiet q (fuel + 1)) q s = Except.ok s') :
    s'.timer h = { s.timer h with
      next_tick_count := wrap64 ((s.timer h).next_tick_count + 1) } ∧
    slot_events h s'.trace = slot_events h s.trace ∧
    s'.queue.count h = s.queue.count h := by
  have hv := timer_callback_irql_view (h := h) hh ht
  have e1 : (view h s).t = s.timer h := rfl
  have e2 : (view h s).tick = s.tick_count := rfl
  simp only [tick_view, visit_view, e1, e2] at hv
  rw [if_pos ⟨hu, hdue⟩, if_pos hp, if_neg (by simp [hr])] at hv
  injection hv with hv
  exact ⟨(congrArg SlotView.t hv).symm, (congrArg SlotView.events hv).symm,
    (congrArg SlotView.queued hv).symm⟩

/-- C21 does not hold for a slot that is not repeatable: the callback of the
timer in slot 0 registers, during tick 1, a one-shot deferred timer of period
0; it lands in slot 1, is pushed at once, and is used, pending and due when the
scan reaches it, where the tick handler stops at its assertion.  So it does on
the due, pending one-shot slot of the second state. -/
theorem C21_pending_one_shot_asserts :
    run (reentrant false) 2 always
      [Op.init true 72000000, Op.schedule reentrant_args always, Op.tick always]
      State.zero = Except.error Fault.pending_not_repeatable ∧
    ((State.queued false).timer 0).used = true ∧
    ((State.queued false).timer 0).pending = true ∧
    ((State.queued false).timer 0).next_tick_count = (State.queued false).tick_count ∧
    tick_visit (call_callback quiet always 1) always 0 (State.queued false) =
      Except.error Fault.pending_not_repeatable :=
  ⟨rfl, rfl, rfl, rfl, rfl⟩

/-- C21, amended: on a used repeatable slot that is due and pending, the loop
body of the tick handler adds 1 to the slot's due tick (in 64 bits) and does
nothing else: the result is the state with that one field rewritten, so no
event is pushed or recorded, no callback is invoked, and every other field of
the slot, every other slot and the counter are as before.  With callbacks that
make no scheduler call the same holds of the slot across the whole tick
handler.  On a slot that is not repeatable the assertion fails. -/
theorem C21_pending_due_slot (cc : Nat → State → Except Fault State) (q : PushOracle)
    (i : Nat) (s : State) (hu : (s.timer i).used = true)
    (hdue : (s.timer i).next_tick_count = s.tick_count)
    (hp : (s.timer i).pending = true) :
    ((s.timer i).repeatable = true →
      ∃ s', tick_visit cc q i s = Except.ok s' ∧
        s' = s.upd i (fun t => { t with next_tick_count := wrap64 (t.next_tick_count + 1) }) ∧
        s'.timer i = { s.timer i with
          next_tick_count := ((s.timer i).next_tick_count + 1) % 18446744073709551616 } ∧
        ((s.timer i).next_tick_count + 1 < 18446744073709551616 →
          (s'.timer i).next_tick_count = (s.timer i).next_tick_count + 1) ∧
        (∀ j, j ≠ i → s'.timer j = s.timer j) ∧
        s'.queue = s.queue ∧ s'.trace = s.trace ∧ s'.tick_count = s.tick_count) ∧
    ((s.timer i).repeatable = false →
      tick_visit cc q i s = Except.error Fault.pending_not_repeatable) ∧
    (∀ (fuel : Nat) (r r' : State), i < timer_count → (r.timer i).used = true →
      (r.timer i).next_tick_count = wrap64 (r.tick_count + 1) →
      (r.timer i).pending = true → (r.timer i).repeatable = true →
      timer_callback_irql (call_callback quiet q (fuel + 1)) q r = Except.ok r' →
      r'.timer i = { r.timer i with
        next_tick_count := wrap64 ((r.timer i).next_tick_count + 1) } ∧
      slot_events i r'.trace = slot_events i r.trace ∧
      r'.queue.count i = r.queue.count i) := by
  have hl := used_lt s i hu
  have hv := tick_visit_pending cc q i s hu hdue hp
  refine ⟨fun hr => ?_, fun hr => ?_, fun fuel r r' h1 h2 h3 h4 h5 h6 =>
    tick_pending_slot fuel q i r r' h1 h2 h3 h4 h5 h6⟩
  · rw [hr, if_pos rfl] at hv
    refine ⟨_, hv, rfl, ?_, fun hlt => ?_, fun j hj => timer_upd_ne _ hj, rfl, rfl, rfl⟩
    · rw [timer_upd_same _ hl]; rfl
    · rw [timer_upd_same _ hl]
      show wrap64 _ = _
      unfold wrap64; omega
  · rw [hr] at hv
    exact hv

/-- An instance of C21 as amended: the repeatable deferred timer of slot 0,
pending since tick 1, is deferred to tick 3 by the scan of tick 2. -/
theorem C21_pending_due_slot_witness :
    ∃ s', tick_visit (call_callback quiet always 1) always 0
        { State.queued true with tick_count := 2 } = Except.ok s' ∧
      (s'.timer 0).next_tick_count = 3 ∧ (s'.timer 0).pending = true ∧
      s'.queue = [0] ∧ s'.trace = [Obs.push 0 1 true] :=
  let ⟨s', h1, h2, _, _, _, h6, h7, _⟩ :=
    (C21_pending_due_slot (call_callback quiet always 1) always 0
      { State.queued true with tick_count := 2 } rfl rfl rfl).1 rfl
  ⟨s', h1, by rw [h2]; rfl, by rw [h2]; rfl, h6, h7⟩

/-! ## C22: a due deferred slot -/

/-- Dispatch of a deferred slot in closed form. -/
theorem timeout_deferred (cc : Nat → State → Except Fault State) (q : PushOracle)
    (i : Nat) (s : State) (hu : (s.timer i).used = true) (hi : (s.timer i).irql = false) :
    ∃ s', on_timer_timeout cc q i s = Except.ok s' ∧
      s'.trace = s.trace ++ [Obs.push i s.tick_count (q i)] ∧
      s'.queue = (if q i then s.queue ++ [i] else s.queue) ∧
      s'.timer i = { s.timer i with
        pending := q i,
        next_tick_count :=
          if q i then
            (if (s.timer i).repeatable then
              wrap64 ((s.timer i).next_tick_count + (s.timer i).period)
             else (s.timer i).next_tick_count)
          else wrap64 ((s.timer i).next_tick_count + 1) } ∧
      (∀ j, j ≠ i → s'.timer j = s.timer j) ∧ s'.regs = s.regs := by
  have hl := used_lt s i hu
  unfold on_timer_timeout
  rw [if_neg (by simp [hi])]
  simp only [event_queue_try_push]
  cases hq : q i
  · simp only [Bool.false_eq_true, if_false]
    rw [if_pos (by simp [timer_upd, hl])]
    refine ⟨_, rfl, rfl, rfl, ?_, fun j hj => ?_, rfl⟩
    · simp [timer_upd, hl]
    · simp [timer_upd, hj]
  · simp only [if_true]
    rw [if_neg (by simp [timer_upd, hl])]
    cases hr : (s.timer i).repeatable
    · rw [if_neg (by simp [timer_upd, hl, hr])]
      refine ⟨_, rfl, rfl, rfl, ?_, fun j hj => ?_, rfl⟩
      · simp [timer_upd, hl, hr]
      · simp [timer_upd, hj]
    · rw [if_pos (by simp [timer_upd, hl, hr])]
      refine ⟨_, rfl, rfl, rfl, ?_, fun j hj => ?_, rfl⟩
      · simp [timer_upd, hl, hr]
      · simp [timer_upd, hj]

end Scheduler
namespace Scheduler

/-- The tick handler as a whole on a used deferred slot that is not pending
and is due at the new tick, for callbacks that make no scheduler call. -/
theorem tick_deferred_slot (fuel : Nat) (q : PushOracle) (h : Nat) (s s' : State)
    (hh : h < timer_count) (hu : (s.timer h).used = true)
    (hdue : (s.timer h).next_tick_count = wrap64 (s.tick_count + 1))
    (hp : (s.timer h).pending = false) (hi : (s.timer h).irql = false)
    (ht : timer_callback_irql (call_callback quiet q (fuel + 1)) q s = Except.ok s') :
    slot_events h s'.trace =
      slot_events h s.trace ++ [Obs.push h (wrap64 (s.tick_count + 1)) (q h)] ∧
    s'.queue.count h = s.queue.count h + (if q h then 1 else 0) ∧
    s'.timer h = { s.timer h with
      pending := q h,
      next_tick_count :=
        if q h then
          (if (s.timer h).repeatable then
            wrap64 ((s.timer h).next_tick_count + (s.timer h).period)
           else (s.timer h).next_tick_count)
        else wrap64 ((s.timer h).next_tick_count + 1) } := by
  have hv := timer_callback_irql_view (h := h) hh ht
  have e1 : (view h s).t = s.timer h := rfl
  have e2 : (view h s).tick = s.tick_count := rfl
  simp only [tick_view, visit_view, e1, e2] at hv
  rw [if_pos ⟨hu, hdue⟩, if_neg (by simp [hp])] at hv
  simp only [timeout_view, e1] at hv
  rw [if_neg (by simp [hi])] at hv
  cases hq : q h
  · rw [hq] at hv
    simp only [Bool.false_eq_true, if_false] at hv ⊢
    injection hv with hv
    exact ⟨(congrArg SlotView.events hv).symm, (congrArg SlotView.queued hv).symm,
      (congrArg SlotView.t hv).symm⟩
  · rw [hq] at hv
    simp only [if_true] at hv ⊢
    injection hv with hv
    exact ⟨(congrArg SlotView.events hv).symm, (congrArg SlotView.queued hv).symm,
      (congrArg SlotView.t hv).symm⟩

/-- C22: on a used deferred slot that is due and not pending, the loop body of
the tick handler makes one push attempt and invokes no callback: the record
grows by exactly that push.  When the push succeeds the slot's event joins the
queue, the slot gets `pending = true`, and its due tick grows by the period (in
64 bits) when repeatable and stays when not.  When the push fails the queue is
as before, `pending` stays false and the due tick grows by 1 (in 64 bits),
repeatable or not.  Nothing else in the slot and no other slot changes.  With
callbacks that make no scheduler call the same holds of the slot across the
whole tick handler. -/
theorem C22_due_deferred_slot (cc : Nat → State → Except Fault State) (q : PushOracle)
    (i : Nat) (s : State) (hu : (s.timer i).used = true)
    (hdue : (s.timer i).next_tick_count = s.tick_count)
    (hp : (s.timer i).pending = false) (hi : (s.timer i).irql = false) :
    (∃ s', tick_visit cc q i s = Except.ok s' ∧
      s'.trace = s.trace ++ [Obs.push i s.tick_count (q i)] ∧
      invocations i s'.trace = invocations i s.trace ∧
      (∀ j, j ≠ i → s'.timer j = s.timer j) ∧
      (q i = true →
        s'.queue = s.queue ++ [i] ∧
        s'.timer i = { s.timer i with
          pending := true,
          next_tick_count :=
            if (s.timer i).repeatable then
              ((s.timer i).next_tick_count + (s.timer i).period) % 18446744073709551616
            else (s.timer i).next_tick_count } ∧
        ((s.timer i).repeatable = true →
          (s.timer i).next_tick_count + (s.timer i).period < 18446744073709551616 →
          (s'.timer i).next_tick_count = (s.timer i).next_tick_count + (s.timer i).period) ∧
        ((s.timer i).repeatable = false →
          (s'.timer i).next_tick_count = (s.timer i).next_tick_count)) ∧
      (q i = false →
        s'.queue = s.queue ∧
        s'.timer i = { s.timer i with
          pending := false,
          next_tick_count := ((s.timer i).next_tick_count + 1) % 18446744073709551616 } ∧
        ((s.timer i).next_tick_count + 1 < 18446744073709551616 →
          (s'.timer i).next_tick_count = (s.timer i).next_tick_count + 1))) ∧
    (∀ (fuel : Nat) (r r' : State), i < timer_count → (r.timer i).used = true →
      (r.timer i).next_tick_count = wrap64 (r.tick_count + 1) →
      (r.timer i).pending = false → (r.timer i).irql = false →
      timer_callback_irql (call_callback quiet q (fuel + 1)) q r = Except.ok r' →
      slot_events i r'.trace =
        slot_events i r.trace ++ [Obs.push i (wrap64 (r.tick_count + 1)) (q i)] ∧
      r'.queue.count i = r.queue.count i + (if q i then 1 else 0) ∧
      r'.timer i = { r.timer i with
        pending := q i,
        next_tick_count :=
          if q i then
            (if (r.timer i).repeatable then
              wrap64 ((r.timer i).next_tick_count + (r.timer i).period)
             else (r.timer i).next_tick_count)
          else wrap64 ((r.timer i).next_tick_count + 1) }) := by
  refine ⟨?_, fun fuel r r' h1 h2 h3 h4 h5 h6 => tick_deferred_slot fuel q i r r' h1 h2 h3 h4 h5 h6⟩
  obtain ⟨s', h1, h2, h3, h4, h5, _⟩ := timeout_deferred cc q i s hu hi
  have hv : tick_visit cc q i s = Except.ok s' := by
    unfold tick_visit
    rw [if_pos ⟨hu, hdue⟩, if_neg (by simp [hp])]
    exact h1
  refine ⟨s', hv, h2, ?_, h5, fun hq => ?_, fun hq => ?_⟩
  · rw [h2, invocations_append]; rfl
  · rw [hq] at h3 h4
    simp only [if_true] at h3 h4
    refine ⟨h3, ?_, fun hr hlt => ?_, fun hr => ?_⟩
    · rw [h4]; rfl
    · rw [h4, hr]
      show wrap64 _ = _
      unfold wrap64; omega
    · rw [h4, hr]; rfl
  · rw [hq] at h3 h4
    simp only [Bool.false_eq_true, if_false] at h3 h4
    refine ⟨h3, ?_, fun hlt => ?_⟩
    · rw [h4]; rfl
    · rw [h4]
      show wrap64 _ = _
      unfold wrap64; omega

/-- An instance of C22: the repeatable deferred timer of period 3 in slot 0,
due at tick 3, with a push that succeeds. -/
theorem C22_due_deferred_slot_witness :
    ∃ s', tick_visit (call_callback quiet always 1) always 0
        { State.armed (sample_args false 3 true) with tick_count := 3 } = Except.ok s' ∧
      s'.trace = [Obs.push 0 3 true] ∧ s'.queue = [0] ∧
      (s'.timer 0).pending = true ∧ (s'.timer 0).next_tick_count = 6 :=
  let ⟨s', h1, h2, _, _, h5, _⟩ :=
    (C22_due_deferred_slot (call_callback quiet always 1) always 0
      { State.armed (sample_args false 3 true) with tick_count := 3 } rfl rfl rfl rfl).1
  ⟨s', h1, h2, (h5 rfl).1, by rw [(h5 rfl).2.1], (h5 rfl).2.2.1 rfl (by decide)⟩

/-! ## Dispatch and event handling in closed form -/

theorem upd_outside {s : State} {i : Nat} (f : timer_t → timer_t)
    (hl : s.timers.length ≤ i) : s.upd i f = s := by
  unfold State.upd
  rw [List.set_eq_of_length_le hl]

theorem upd_upd (s : State) (i : Nat) (f g : timer_t → timer_t) :
    (s.upd i f).upd i g = s.upd i (fun t => g (f t)) := by
  by_cases hl : i < s.timers.length
  · have e := timer_upd_same (s := s) f hl
    have e2 : ((s.upd i f).upd i g).timers =
        (s.timers.set i (f (s.timer i))).set i (g ((s.upd i f).timer i)) := rfl
    have e3 : (s.upd i (fun t => g (f t))).timers = s.timers.set i (g (f (s.timer i))) := rfl
    have e4 : ((s.upd i f).upd i g).timers = (s.upd i (fun t => g (f t))).timers := by
      rw [e2, e3, List.set_set, e]
    unfold State.upd at e4 ⊢
    simp only at e4 ⊢
    rw [e4]
  · rw [upd_outside f (by omega), upd_outside g (by omega), upd_outside _ (by omega)]

/-- The statements after the callback of an interrupt-context timer, as one
assignment to the slot. -/
theorem finish_dispatch (i : Nat) (s2 : State) :
    (if ((s2.upd i (fun t => { t with pending := false })).timer i).canceled then
      (Except.ok ((s2.upd i (fun t => { t with pending := false })).upd i
        (fun t => { t with used := false })) : Except Fault State)
     else if ((s2.upd i (fun t => { t with pending := false })).timer i).repeatable then
      Except.ok ((s2.upd i (fun t => { t with pending := false })).upd i (fun t =>
        { t with next_tick_count := wrap64 (t.next_tick_count + t.period) }))
     else Except.ok (s2.upd i (fun t => { t with pending := false }))) =
    Except.ok (s2.upd i after_dispatch) := by
  by_cases hl : i < s2.timers.length
  · rw [timer_upd_same _ hl]
    by_cases hc : (s2.timer i).canceled = true
    · rw [if_pos (by exact hc), upd_upd]
      congr 1
      apply upd_congr
      simp [after_dispatch, hc]
    · rw [if_neg (by exact hc)]
      by_cases hr : (s2.timer i).repeatable = true
      · rw [if_pos (by exact hr), upd_upd]
        congr 1
        apply upd_congr
        simp [after_dispatch, hc, hr]
      · rw [if_neg (by exact hr)]
        congr 1
        apply upd_congr
        simp [after_dispatch, hc, hr]
  · have hl' : s2.timers.length ≤ i := by omega
    rw [upd_outside _ hl', upd_outside _ hl', upd_outside _ hl', upd_outside _ hl']
    split
    · rfl
    · split <;> rfl

/-- Dispatch of an interrupt-context slot: the assertions, the callback with
`pending` set, and the statements after it. -/
theorem timeout_irql_eq (cc : Nat → State → Except Fault State) (q : PushOracle) (i : Nat)
    (s : State) (hirq : (s.timer i).irql = true) :
    on_timer_timeout cc q i s =
      if ¬ (s.timer i).used then Except.error Fault.timeout_not_used
      else if (s.timer i).canceled then Except.error Fault.timeout_canceled
      else if (s.timer i).pending then Except.error Fault.timeout_pending
      else
        match cc i (s.upd i (fun t => { t with pending := true })) with
        | Except.error e => Except.error e
        | Except.ok s2 => Except.ok (s2.upd i after_dispatch) := by
  unfold on_timer_timeout
  rw [if_pos hirq]
  by_cases hu : (s.timer i).used = true
  swap
  · rw [if_pos hu, if_pos hu]
  rw [if_neg (not_not.2 hu), if_neg (not_not.2 hu)]
  by_cases hc : (s.timer i).canceled = true
  · rw [if_pos hc, if_pos hc]
  rw [if_neg hc, if_neg hc]
  by_cases hp : (s.timer i).pending = true
  · rw [if_pos hp, if_pos hp]
  rw [if_neg hp, if_neg hp]
  generalize cc i (s.upd i (fun t => { t with pending := true })) = r
  cases r with
  | error e => rfl
  | ok s2 => exact finish_dispatch i s2

/-- Dispatch of a deferred slot: the push attempt and the statements after
it. -/
theorem timeout_deferred_eq (cc : Nat → State → Except Fault State) (q : PushOracle) (i : Nat)
    (s : State) (hu : (s.timer i).used = true) (hirq : (s.timer i).irql = false) :
    on_timer_timeout cc q i s = Except.ok ((pushed q i s).upd i (after_push (q i))) := by
  have hl := used_lt s i hu
  unfold on_timer_timeout
  rw [if_neg (by simp [hirq])]
  simp only [event_queue_try_push, pushed]
  cases hq : q i
  · simp only [Bool.false_eq_true, if_false]
    rw [if_pos (by simp [timer_upd, hl]), upd_upd]
    congr 1
  · simp only [if_true]
    rw [if_neg (by simp [timer_upd, hl])]
    by_cases hr : (s.timer i).repeatable = true
    · rw [if_pos (by simp [timer_upd, hl, hr]), upd_upd]
      congr 1
      apply upd_congr
      simp [after_push, hr]
    · rw [if_neg (by simp [timer_upd, hl, hr])]
      congr 1
      apply upd_congr
      simp [after_push, hr]

/-- The statements of `on_timer_event` after the callback, as one assignment
to the slot. -/
theorem finish_event (i : Nat) (s2 : State) :
    (if ((s2.upd i (fun t => { t with pending := false })).timer i).canceled then
      (Except.ok ((s2.upd i (fun t => { t with pending := false })).upd i
        (fun t => { t with used := false })) : Except Fault State)
     else Except.ok (s2.upd i (fun t => { t with pending := false }))) =
    Except.ok (s2.upd i after_event) := by
  by_cases hl : i < s2.timers.length
  · rw [timer_upd_same _ hl]
    by_cases hc : (s2.timer i).canceled = true
    · rw [if_pos (by exact hc), upd_upd]
      congr 1
      apply upd_congr
      simp [after_event, hc]
    · rw [if_neg (by exact hc)]
      congr 1
      apply upd_congr
      simp [after_event, hc]
  · have hl' : s2.timers.length ≤ i := by omega
    rw [upd_outside _ hl', upd_outside _ hl', upd_outside _ hl']
    split <;> rfl

/-- The handler `on_timer_event`: the assertions, the discarding of a canceled
event, or the callback and the statements after it. -/
theorem on_timer_event_eq (cc : Nat → State → Except Fault State) (i : Nat) (s : State) :
    on_timer_event cc i s =
      if ¬ (s.timer i).used then Except.error Fault.event_not_used
      else if ¬ (s.timer i).pending then Except.error Fault.event_not_pending
      else if (s.timer i).canceled then
        Except.ok (s.upd i (fun t => { t with used := false }))
      else
        match cc i s with
        | Except.error e => Except.error e
        | Except.ok s2 => Except.ok (s2.upd i after_event) := by
  unfold on_timer_event
  by_cases hu : (s.timer i).used = true
  swap
  · rw [if_pos hu, if_pos hu]
  rw [if_neg (not_not.2 hu), if_neg (not_not.2 hu)]
  by_cases hp : (s.timer i).pending = true
  swap
  · rw [if_pos hp, if_pos hp]
  rw [if_neg (not_not.2 hp), if_neg (not_not.2 hp)]
  by_cases hc : (s.timer i).canceled = true
  · rw [if_pos hc, if_pos hc]
  rw [if_neg hc, if_neg hc]
  generalize cc i s = r
  cases r with
  | error e => rfl
  | ok s2 => exact finish_event i s2

theorem ticks_cons (op : Op) (rest : List Op) :
    ticks (op :: rest) = ticks rest + (if op.ticking = true then 1 else 0) := by
  unfold ticks
  rw [List.countP_cons]

/-- The invocation of a callback that makes no scheduler call. -/
theorem call_silent (prog : Prog) (q : PushOracle) (fuel i : Nat) (s : State)
    (hs : ∀ x y, prog (s.timer i).callback x y = []) :
    call_callback prog q (fuel + 1) i s =
      Except.ok (s.emit (Obs.call i s.tick_count (s.timer i).callback (call_arg (s.timer i)))) := by
  simp [call_callback, hs, run_actions, call_arg]

/-! ## The invariant of the flags under arbitrary callbacks -/

theorem Sound_congr {P : Nat → Prop} {s r : State} (ht : r.timers = s.timers)
    (h : Sound P s) : Sound P r := by
  have ht' : ∀ i, r.timer i = s.timer i := fun i => by simp [State.timer, ht]
  exact ⟨fun i => by rw [ht']; exact h.tidy i, fun i => by rw [ht']; exact h.idle i⟩

theorem Sound_upd {P Q : Nat → Prop} {s : State} (i : Nat) (f : timer_t → timer_t)
    (h : Sound P s) (hPQ : ∀ k, k ≠ i → P k → Q k)
    (h1 : (f (s.timer i)).used = true → (f (s.timer i)).canceled = true →
      (f (s.timer i)).pending = true)
    (h2 : (f (s.timer i)).used = true → (f (s.timer i)).irql = true →
      (f (s.timer i)).pending = true → Q i) :
    Sound Q (s.upd i f) := by
  refine ⟨fun k => ?_, fun k => ?_⟩
  · rw [timer_upd]
    split
    · next hc => exact h1
    · exact h.tidy k
  · rw [timer_upd]
    split
    · next hc => rw [hc.1]; exact h2
    · next hc =>
      intro hu hi hp
      by_cases hk : k = i
      · subst hk
        exact absurd ⟨rfl, used_lt s k hu⟩ hc
      · exact hPQ k hk (h.idle k hu hi hp)

theorem cancel_sound {P : Nat → Prop} {h : Nat} {s s' : State}
    (hc : scheduler_cancel_timer h s = Except.ok s') (hs : Sound P s) : Sound P s' := by
  obtain ⟨_, hu, rfl⟩ := cancel_eq hc
  refine Sound_upd h _ hs (fun _ _ hp => hp) ?_ ?_
  · by_cases hp : (s.timer h).pending = true
    · simp [hp]
    · simp [hp]
  · by_cases hp : (s.timer h).pending = true
    · simp only [hp, if_true]
      exact fun _ hi _ => hs.idle h hu hi hp
    · simp [hp]

theorem on_timer_timeout_sound {cc : Nat → State → Except Fault State} {q : PushOracle}
    {P : Nat → Prop} {i : Nat} {s s' : State} (hcc : Sounds cc)
    (hu : (s.timer i).used = true) (hnp : (s.timer i).pending = false) (hs : Sound P s)
    (h : on_timer_timeout cc q i s = Except.ok s') : Sound P s' := by
  by_cases hirq : (s.timer i).irql = true
  · rw [timeout_irql_eq cc q i s hirq] at h
    split at h
    · cases h
    split at h
    · cases h
    split at h
    · cases h
    split at h
    · cases h
    next s2 h2 =>
    injection h with h; subst h
    have hs1 : Sound (fun k => P k ∨ k = i) (s.upd i (fun t => { t with pending := true })) :=
      Sound_upd i _ hs (fun k _ hp => Or.inl hp) (fun _ _ => rfl) (fun _ _ _ => Or.inr rfl)
    have hs2 := hcc _ _ _ _ h2 hs1
    refine Sound_upd i _ hs2 (fun k hk hp => hp.resolve_right hk) ?_ ?_
    · unfold after_dispatch
      split
      · intro hc; cases hc
      · next hcn =>
        split
        · intro _ hc; exact absurd hc hcn
        · intro _ hc; exact absurd hc hcn
    · unfold after_dispatch
      split
      · intro hc; cases hc
      · split
        · intro _ _ hc; cases hc
        · intro _ _ hc; cases hc
  · have hirq' : (s.timer i).irql = false := by simpa using hirq
    rw [timeout_deferred_eq cc q i s hu hirq'] at h
    injection h with h; subst h
    have hs1 : Sound P (pushed q i s) := Sound_congr (s := s) rfl hs
    have ht : (pushed q i s).timer i = s.timer i := rfl
    refine Sound_upd i _ hs1 (fun _ _ hp => hp) ?_ ?_
    · rw [ht]
      unfold after_push
      split
      · split
        · intro _ _; rfl
        · intro _ _; rfl
      · intro hu' hc
        have := hs.tidy i hu hc
        rw [hnp] at this; cases this
    · rw [ht]
      unfold after_push
      split
      · split
        · intro _ hi; exact absurd hi hirq
        · intro _ hi; exact absurd hi hirq
      · intro _ _ hp; cases hp

/-- Registration: the assertions, the scan, the slot written, and the dispatch
at once when the period is 0. -/
theorem schedule_eq (cc : Nat → State → Except Fault State) (q : PushOracle)
    (a : sched_args) (s : State) :
    schedule_internal cc q a s =
      if ¬ s.scheduler_initialized then Except.error Fault.not_initialized
      else if a.repeatable ∧ ¬ a.period_ms > 0 then Except.error Fault.repeatable_zero_period
      else
        match find_free s.timers 0 with
        | Except.error e => Except.error e
        | Except.ok i =>
          if a.period_ms = 0 then
            match on_timer_timeout cc q i
              (State.upd { s with primask := 1 } i (fun _ => fresh_timer a s.tick_count)) with
            | Except.error e => Except.error e
            | Except.ok s3 => Except.ok (i, { s3 with primask := s.primask })
          else Except.ok (i, s.upd i (fun _ => fresh_timer a s.tick_count)) := by
  unfold schedule_internal
  split
  · rfl
  split
  · rfl
  rfl

theorem find_free_error {l : List timer_t} {k : Nat} {e : Fault}
    (h : find_free l k = Except.error e) : e = Fault.pool_exhausted := by
  induction l generalizing k with
  | nil =>
    unfold find_free at h
    injection h with h; exact h.symm
  | cons t rest ih =>
    unfold find_free at h
    split at h
    · cases h
    · exact ih h

theorem Sound_fresh {P : Nat → Prop} {s : State} (i : Nat) (t : timer_t) (h : Sound P s)
    (hp : t.pending = false) (hc : t.canceled = false) :
    Sound P (s.upd i (fun _ => t)) :=
  Sound_upd i _ h (fun _ _ hp => hp) (fun _ hc' => by rw [hc] at hc'; cases hc')
    (fun _ _ hp' => by rw [hp] at hp'; cases hp')

theorem schedule_sound {cc : Nat → State → Except Fault State} {q : PushOracle}
    {P : Nat → Prop} {a : sched_args} {s s' : State} {i : Nat} (hcc : Sounds cc)
    (hs : Sound P s) (h : schedule_internal cc q a s = Except.ok (i, s')) : Sound P s' := by
  rw [schedule_eq] at h
  split at h
  · cases h
  split at h
  · cases h
  split at h
  · cases h
  next i0 hff =>
  obtain ⟨hl, _, _⟩ := find_free_state hff
  have hs2 : Sound P (State.upd { s with primask := 1 } i0 (fun _ => fresh_timer a s.tick_count)) :=
    Sound_fresh i0 _ (Sound_congr (s := s) rfl hs) rfl rfl
  split at h
  · split at h
    · cases h
    next s3 h3 =>
    injection h with h
    injection h with h1 h2
    subst h1; subst h2
    have ht : (State.upd { s with primask := 1 } i0
        (fun _ => fresh_timer a s.tick_count)).timer i0 = fresh_timer a s.tick_count := by
      rw [timer_upd, if_pos ⟨rfl, hl⟩]
    exact Sound_congr (s := s3) rfl
      (on_timer_timeout_sound hcc (by rw [ht]; rfl) (by rw [ht]; rfl) hs2 h3)
  · injection h with h
    injection h with h1 h2
    subst h1; subst h2
    exact Sound_fresh i0 _ hs rfl rfl

theorem run_action_sound {cc : Nat → State → Except Fault State} {q : PushOracle}
    {P : Nat → Prop} {a : Action} {s s' : State} (hcc : Sounds cc) (hs : Sound P s)
    (h : run_action cc q a s = Except.ok s') : Sound P s' := by
  cases a with
  | cancel hd => exact cancel_sound (by simpa only [run_action] using h) hs
  | schedule a =>
    simp only [run_action] at h
    split at h
    · cases h
    next r hr =>
    injection h with h
    subst h
    exact schedule_sound (i := r.1) hcc hs hr

theorem run_actions_sound {cc : Nat → State → Except Fault State} {q : PushOracle}
    {P : Nat → Prop} (hcc : Sounds cc) (l : List Action) {s s' : State} (hs : Sound P s)
    (h : run_actions cc q l s = Except.ok s') : Sound P s' := by
  induction l generalizing s with
  | nil =>
    unfold run_actions at h
    injection h with h; subst h; exact hs
  | cons a rest ih =>
    unfold run_actions at h
    split at h
    · cases h
    next s1 h1 => exact ih (run_action_sound hcc hs h1) h

theorem call_callback_sound (prog : Prog) (q : PushOracle) (fuel : Nat) :
    Sounds (call_callback prog q fuel) := by
  induction fuel with
  | zero => intro P j s s' h; simp [call_callback] at h
  | succ n ih =>
    intro P j s s' h hs
    unfold call_callback at h
    simp only at h
    refine run_actions_sound ih _ ?_ h
    exact Sound_congr (s := s) rfl hs

theorem on_timer_event_sound {cc : Nat → State → Except Fault State} {P : Nat → Prop}
    {i : Nat} {s s' : State} (hcc : Sounds cc) (hs : Sound P s)
    (h : on_timer_event cc i s = Except.ok s') : Sound P s' := by
  rw [on_timer_event_eq] at h
  split at h
  · cases h
  split at h
  · cases h
  split at h
  · injection h with h; subst h
    exact Sound_upd i _ hs (fun _ _ hp => hp) (fun hc => by cases hc) (fun hc => by cases hc)
  split at h
  · cases h
  next s2 h2 =>
  injection h with h; subst h
  have hs2 := hcc _ _ _ _ h2 hs
  refine Sound_upd i _ hs2 (fun _ _ hp => hp) ?_ ?_
  · unfold after_event
    split
    · intro hc; cases hc
    · next hcn => intro _ hc; exact absurd hc hcn
  · unfold after_event
    split
    · intro hc; cases hc
    · intro _ _ hc; cases hc

theorem tick_visit_sound {cc : Nat → State → Except Fault State} {q : PushOracle}
    {P : Nat → Prop} {i : Nat} {s s' : State} (hcc : Sounds cc) (hs : Sound P s)
    (h : tick_visit cc q i s = Except.ok s') : Sound P s' := by
  unfold tick_visit at h
  split at h
  · next hdue =>
    split at h
    · split at h
      · cases h
      · injection h with h; subst h
        exact Sound_upd i _ hs (fun _ _ hp => hp) (hs.tidy i) (hs.idle i)
    · next hp => exact on_timer_timeout_sound hcc hdue.1 (by simpa using hp) hs h
  · injection h with h; subst h
    exact hs

theorem tick_scan_sound {cc : Nat → State → Except Fault State} {q : PushOracle}
    {P : Nat → Prop} (hcc : Sounds cc) (n : Nat) {i : Nat} {s s' : State} (hs : Sound P s)
    (h : tick_scan cc q n i s = Except.ok s') : Sound P s' := by
  induction n generalizing i s with
  | zero =>
    unfold tick_scan at h
    injection h with h; subst h; exact hs
  | succ n ih =>
    unfold tick_scan at h
    split at h
    · cases h
    next s1 h1 => exact ih (tick_visit_sound hcc hs h1) h

theorem Sound_zero : Sound (fun _ => False) State.zero := by
  have hz : ∀ i, State.zero.timer i = timer_zero := fun i => by
    unfold State.timer State.zero
    rw [List.getD_eq_getElem?_getD, List.getElem?_replicate]
    split <;> rfl
  exact ⟨fun i hu => (by rw [hz] at hu; cases hu), fun i hu => (by rw [hz] at hu; cases hu)⟩

theorem step_sound (prog : Prog) (fuel : Nat) (q0 : PushOracle) (op : Op) {P : Nat → Prop}
    {s s' : State} (hs : Sound P s) (h : step prog fuel q0 op s = Except.ok s') :
    Sound P s' := by
  cases op with
  | init b f =>
    simp only [step, scheduler_init] at h
    split at h
    · cases h
    next r hr =>
    split at hr
    · cases hr
    split at hr
    · cases hr
    injection hr with hr
    subst hr
    injection h with h
    subst h
    exact Sound_congr (s := s) rfl hs
  | schedule a q =>
    simp only [step] at h
    split at h
    · cases h
    next r hr =>
    injection h with h
    subst h
    exact schedule_sound (i := r.1) (call_callback_sound prog q fuel) hs hr
  | cancel hd => exact cancel_sound (by simpa only [step] using h) hs
  | tick q =>
    simp only [step, timer_callback_irql] at h
    refine tick_scan_sound (call_callback_sound prog q fuel) _ ?_ h
    exact Sound_congr (s := s) rfl hs
  | drain =>
    simp only [step, event_queue_drain] at h
    split at h
    · injection h with h; subst h; exact hs
    next i rest hq =>
    refine on_timer_event_sound (call_callback_sound prog q0 fuel) ?_ h
    exact Sound_congr (s := s) rfl hs

theorem run_sound (prog : Prog) (fuel : Nat) (q0 : PushOracle) (ops : List Op)
    {P : Nat → Prop} {s s' : State} (hs : Sound P s)
    (h : run prog fuel q0 ops s = Except.ok s') : Sound P s' := by
  induction ops generalizing s with
  | nil =>
    rw [run_nil] at h
    injection h with h; subst h; exact hs
  | cons op rest ih =>
    obtain ⟨s1, h1, h2⟩ := run_cons h
    exact ih (step_sound prog fuel q0 op hs h1) h2

/-! ## The assertions on the flags never fail -/

theorem cancel_safe {h : Nat} {s : State} {e : Fault}
    (hc : scheduler_cancel_timer h s = Except.error e) : e.on_flags = false := by
  unfold scheduler_cancel_timer at hc
  split at hc
  · injection hc with hc; subst hc; rfl
  split at hc
  · injection hc with hc; subst hc; rfl
  cases hc

theorem on_timer_timeout_safe {cc : Nat → State → Except Fault State} {q : PushOracle}
    {P : Nat → Prop} {i : Nat} {s : State} {e : Fault} (hsf : Safe cc)
    (hu : (s.timer i).used = true) (hnp : (s.timer i).pending = false)
    (hi : Inv s) (hs : Sound P s)
    (h : on_timer_timeout cc q i s = Except.error e) : e.on_flags = false := by
  by_cases hirq : (s.timer i).irql = true
  · rw [timeout_irql_eq cc q i s hirq] at h
    have hnc : ¬ (s.timer i).canceled = true := fun hc => by
      have := hs.tidy i hu hc
      rw [hnp] at this; cases this
    rw [if_neg (not_not.2 hu), if_neg hnc, if_neg (by simp [hnp])] at h
    split at h
    · next e' h2 =>
      injection h with h; subst h
      have hnq : i ∉ s.queue := fun hq => by simpa [hnp] using (hi.queued i hq).2
      have hi1 : Inv (s.upd i (fun t => { t with pending := true })) :=
        Inv_upd i _ hi (fun hq => absurd hq hnq) (fun _ => Or.inl hu)
      have hs1 : Sound (fun k => P k ∨ k = i)
          (s.upd i (fun t => { t with pending := true })) :=
        Sound_upd i _ hs (fun k _ hp => Or.inl hp) (fun _ _ => rfl) (fun _ _ _ => Or.inr rfl)
      exact hsf _ _ _ _ hi1 hs1 h2
    · cases h
  · have hirq' : (s.timer i).irql = false := by simpa using hirq
    rw [timeout_deferred_eq cc q i s hu hirq'] at h
    cases h

theorem schedule_safe {cc : Nat → State → Except Fault State} {q : PushOracle}
    {P : Nat → Prop} {a : sched_args} {s : State} {e : Fault} (hsf : Safe cc)
    (hi : Inv s) (hs : Sound P s)
    (h : schedule_internal cc q a s = Except.error e) : e.on_flags = false := by
  rw [schedule_eq] at h
  split at h
  · injection h with h; subst h; rfl
  split at h
  · injection h with h; subst h; rfl
  split at h
  · next e' hff =>
    injection h with h; subst h
    rw [find_free_error hff]; rfl
  next i0 hff =>
  obtain ⟨hl, hfree, _⟩ := find_free_state hff
  have hnq : i0 ∉ s.queue := fun hq => by simpa [hfree] using (hi.queued i0 hq).1
  have hi2 : Inv (State.upd { s with primask := 1 } i0 (fun _ => fresh_timer a s.tick_count)) :=
    Inv_upd i0 _ (Inv_congr (s := s) rfl rfl hi) (fun hq => absurd hq hnq)
      (fun hp => by cases hp)
  have hs2 : Sound P (State.upd { s with primask := 1 } i0 (fun _ => fresh_timer a s.tick_count)) :=
    Sound_fresh i0 _ (Sound_congr (s := s) rfl hs) rfl rfl
  have ht : (State.upd { s with primask := 1 } i0
      (fun _ => fresh_timer a s.tick_count)).timer i0 = fresh_timer a s.tick_count := by
    rw [timer_upd, if_pos ⟨rfl, hl⟩]
  split at h
  · split at h
    · next e' h3 =>
      injection h with h; subst h
      exact on_timer_timeout_safe hsf (by rw [ht]; rfl) (by rw [ht]; rfl) hi2 hs2 h3
    · cases h
  · cases h

theorem run_actions_safe {cc : Nat → State → Except Fault State} {q : PushOracle}
    {P : Nat → Prop} (hg : Good cc) (hsd : Sounds cc) (hsf : Safe cc) (l : List Action)
    {s : State} {e : Fault} (hi : Inv s) (hs : Sound P s)
    (h : run_actions cc q l s = Except.error e) : e.on_flags = false := by
  induction l generalizing s with
  | nil =>
    unfold run_actions at h
    cases h
  | cons a rest ih =>
    unfold run_actions at h
    split at h
    · next e' h1 =>
      injection h with h; subst h
      cases a with
      | cancel hd => exact cancel_safe (by simpa only [run_action] using h1)
      | schedule a =>
        simp only [run_action] at h1
        split at h1
        · next e2 h2 =>
          injection h1 with h1; subst h1
          exact schedule_safe hsf hi hs h2
        · cases h1
    next s1 h1 =>
    exact ih (run_action_good hg hi h1).1 (run_action_sound hsd hs h1) h

theorem call_callback_safe (prog : Prog) (q : PushOracle) (fuel : Nat) :
    Safe (call_callback prog q fuel) := by
  induction fuel with
  | zero =>
    intro P j s e _ _ h
    simp only [call_callback] at h
    injection h with h; subst h; rfl
  | succ n ih =>
    intro P j s e hi hs h
    unfold call_callback at h
    simp only at h
    refine run_actions_safe (P := P) (call_callback_good prog q n)
      (call_callback_sound prog q n) ih _ ?_ ?_ h
    · exact Inv_congr (s := s) rfl rfl hi
    · exact Sound_congr (s := s) rfl hs

theorem tick_visit_safe {cc : Nat → State → Except Fault State} {q : PushOracle}
    {P : Nat → Prop} {i : Nat} {s : State} {e : Fault} (hsf : Safe cc)
    (hi : Inv s) (hs : Sound P s)
    (h : tick_visit cc q i s = Except.error e) : e.on_flags = false := by
  unfold tick_visit at h
  split at h
  · next hdue =>
    split at h
    · split at h
      · injection h with h; subst h; rfl
      · cases h
    · next hp => exact on_timer_timeout_safe hsf hdue.1 (by simpa using hp) hi hs h
  · cases h

theorem tick_scan_safe {cc : Nat → State → Except Fault State} {q : PushOracle}
    {P : Nat → Prop} (hg : Good cc) (hsd : Sounds cc) (hsf : Safe cc) (n : Nat) {i : Nat}
    {s : State} {e : Fault} (hi : Inv s) (hs : Sound P s)
    (h : tick_scan cc q n i s = Except.error e) : e.on_flags = false := by
  induction n generalizing i s with
  | zero =>
    unfold tick_scan at h
    cases h
  | succ n ih =>
    unfold tick_scan at h
    split at h
    · next e' h1 =>
      injection h with h; subst h
      exact tick_visit_safe hsf hi hs h1
    next s1 h1 => exact ih (tick_visit_inv hg hi h1) (tick_visit_sound hsd hs h1) h

theorem event_queue_drain_safe {cc : Nat → State → Except Fault State} {P : Nat → Prop}
    {s : State} {e : Fault} (hsf : Safe cc) (hi : Inv s) (hs : Sound P s)
    (h : event_queue_drain cc s = Except.error e) : e.on_flags = false := by
  unfold event_queue_drain at h
  split at h
  · cases h
  next i rest hq =>
  have hnd := hi.nodup
  rw [hq] at hnd
  have hi1 : Inv { s with queue := rest } :=
    ⟨(List.nodup_cons.1 hnd).2, fun k hk => hi.queued k (by rw [hq]; exact List.mem_cons_of_mem _ hk),
      hi.pend, hi.len⟩
  obtain ⟨hu, hp⟩ := hi.queued i (by rw [hq]; exact List.mem_cons_self _ _)
  rw [on_timer_event_eq] at h
  simp only [timer_with_queue] at h
  rw [if_neg (not_not.2 hu), if_neg (not_not.2 hp)] at h
  split at h
  · cases h
  split at h
  · next e' h2 =>
    injection h with h; subst h
    exact hsf _ _ _ _ hi1 (Sound_congr (s := s) rfl hs) h2
  · cases h

theorem step_safe (prog : Prog) (fuel : Nat) (q0 : PushOracle) (op : Op) {P : Nat → Prop}
    {s : State} {e : Fault} (hi : Inv s) (hs : Sound P s)
    (h : step prog fuel q0 op s = Except.error e) : e.on_flags = false := by
  cases op with
  | init b f =>
    simp only [step, scheduler_init] at h
    split at h
    · next e' hr =>
      injection h with h; subst h
      split at hr
      · injection hr with hr; subst hr; rfl
      split at hr
      · injection hr with hr; subst hr; rfl
      cases hr
    · cases h
  | schedule a q =>
    simp only [step] at h
    split at h
    · next e' hr =>
      injection h with h; subst h
      exact schedule_safe (call_callback_safe prog q fuel) hi hs hr
    · cases h
  | cancel hd => exact cancel_safe (by simpa only [step] using h)
  | tick q =>
    simp only [step, timer_callback_irql] at h
    refine tick_scan_safe (P := P) (call_callback_good prog q fuel)
      (call_callback_sound prog q fuel) (call_callback_safe prog q fuel) _ ?_ ?_ h
    · exact Inv_congr (s := s) rfl rfl hi
    · exact Sound_congr (s := s) rfl hs
  | drain =>
    exact event_queue_drain_safe (call_callback_safe prog q0 fuel) hi hs
      (by simpa only [step] using h)

/-- No run from a state satisfying the invariants stops at one of the
assertions on the flags of a slot. -/
theorem run_safe (prog : Prog) (fuel : Nat) (q0 : PushOracle) (ops : List Op)
    {P : Nat → Prop} {s : State} {e : Fault} (hi : Inv s) (hs : Sound P s)
    (h : run prog fuel q0 ops s = Except.error e) : e.on_flags = false := by
  induction ops generalizing s with
  | nil =>
    rw [run_nil] at h
    cases h
  | cons op rest ih =>
    unfold run at h
    split at h
    · next e' h1 =>
      injection h with h; subst h
      exact step_safe prog fuel q0 op hi hs h1
    next s1 h1 =>
    exact ih (step_inv prog fuel q0 op hi h1) (step_sound prog fuel q0 op hs h1) h

/-! ## Slots in flight during a callback -/

theorem Kept_refl (s : State) : Kept (fun _ => 0) s s := fun _ _ _ => ⟨rfl, rfl⟩

theorem Kept_trans {n m : Nat → Nat} {s s1 s2 : State} (h1 : Kept n s s1) (h2 : Kept m s1 s2) :
    Kept (fun i => n i + m i) s s2 := by
  intro i hu hp
  obtain ⟨e1, c1⟩ := h1 i hu hp
  have hu1 : (s1.timer i).used = true := by rw [e1]; exact hu
  have hp1 : (s1.timer i).pending = true := by rw [e1]; exact hp
  obtain ⟨e2, c2⟩ := h2 i hu1 hp1
  refine ⟨?_, by rw [c2, c1, Nat.add_assoc]⟩
  rw [e2, e1]

theorem Kept_congr {n : Nat → Nat} {s r s' : State} (ht : r.timers = s.timers)
    (htr : r.trace = s.trace) (h : Kept n r s') : Kept n s s' := by
  have ht' : ∀ i, r.timer i = s.timer i := fun i => by simp [State.timer, ht]
  intro i hu hp
  have := h i (by rw [ht']; exact hu) (by rw [ht']; exact hp)
  rw [ht', htr] at this
  exact this

theorem Kept_congr_right {n : Nat → Nat} {s t r : State} (ht : r.timers = t.timers)
    (htr : r.trace = t.trace) (h : Kept n s t) : Kept n s r := by
  have ht' : ∀ i, r.timer i = t.timer i := fun i => by simp [State.timer, ht]
  intro i hu hp
  have := h i hu hp
  rw [ht', htr]
  exact this

/-- An assignment to a slot that is not pending, or that changes only
`canceled`, keeps the slots in flight. -/
theorem Kept_upd (s : State) (k : Nat) (f : timer_t → timer_t)
    (hf : (s.timer k).used = true → (s.timer k).pending = true →
      f (s.timer k) = { s.timer k with canceled := (f (s.timer k)).canceled }) :
    Kept (fun _ => 0) s (s.upd k f) := by
  intro i hu hp
  refine ⟨?_, rfl⟩
  rw [timer_upd]
  split
  · next hc =>
    obtain ⟨rfl, _⟩ := hc
    exact hf hu hp
  · rfl

theorem Kept_zero {n : Nat → Nat} {s s' : State} (h : Kept n s s') (hn : ∀ i, n i = 0) :
    Kept (fun _ => 0) s s' := fun i hu hp => by
  have := h i hu hp
  rw [hn i] at this
  exact this

theorem cancel_kept {h : Nat} {s s' : State}
    (hc : scheduler_cancel_timer h s = Except.ok s') : Kept (fun _ => 0) s s' := by
  obtain ⟨_, _, rfl⟩ := cancel_eq hc
  exact Kept_upd s h _ (fun _ hp => by simp [hp])

theorem invocations_push (i : Nat) (tr : List Obs) (j t : Nat) (ok : Bool) :
    invocations i (tr ++ [Obs.push j t ok]) = invocations i tr := by
  rw [invocations_append]; rfl

theorem on_timer_timeout_kept {cc : Nat → State → Except Fault State} {q : PushOracle}
    {k : Nat} {s s' : State} (hcc : Calm cc)
    (hu : (s.timer k).used = true) (hnp : (s.timer k).pending = false)
    (h : on_timer_timeout cc q k s = Except.ok s') : Kept (fun _ => 0) s s' := by
  have hl := used_lt s k hu
  by_cases hirq : (s.timer k).irql = true
  · rw [timeout_irql_eq cc q k s hirq] at h
    split at h
    · cases h
    split at h
    · cases h
    split at h
    · cases h
    split at h
    · cases h
    next s2 h2 =>
    injection h with h; subst h
    intro i hui hpi
    have hik : i ≠ k := fun e => by rw [e, hnp] at hpi; cases hpi
    have e1 : (s.upd k (fun t => { t with pending := true })).timer i = s.timer i :=
      timer_upd_ne _ hik
    obtain ⟨g1, g2⟩ := hcc _ _ _ h2 i (by rw [e1]; exact hui) (by rw [e1]; exact hpi)
    rw [e1] at g1
    simp only [if_neg hik] at g2
    rw [timer_upd_ne _ hik]
    exact ⟨g1, g2⟩
  · have hirq' : (s.timer k).irql = false := by simpa using hirq
    rw [timeout_deferred_eq cc q k s hu hirq'] at h
    injection h with h; subst h
    intro i hui hpi
    have hik : i ≠ k := fun e => by rw [e, hnp] at hpi; cases hpi
    rw [timer_upd_ne _ hik]
    exact ⟨rfl, invocations_push i s.trace k s.tick_count (q k)⟩

theorem schedule_kept {cc : Nat → State → Except Fault State} {q : PushOracle}
    {a : sched_args} {s s' : State} {j : Nat} (hcc : Calm cc)
    (h : schedule_internal cc q a s = Except.ok (j, s')) : Kept (fun _ => 0) s s' := by
  rw [schedule_eq] at h
  split at h
  · cases h
  split at h
  · cases h
  split at h
  · cases h
  next i0 hff =>
  obtain ⟨hl, hfree, _⟩ := find_free_state hff
  have hk1 : Kept (fun _ => 0) s
      (State.upd { s with primask := 1 } i0 (fun _ => fresh_timer a s.tick_count)) :=
    Kept_congr_right (t := s.upd i0 (fun _ => fresh_timer a s.tick_count)) rfl rfl
      (Kept_upd s i0 _ (fun hu _ => by rw [hfree] at hu; cases hu))
  have ht : (State.upd { s with primask := 1 } i0
      (fun _ => fresh_timer a s.tick_count)).timer i0 = fresh_timer a s.tick_count := by
    rw [timer_upd, if_pos ⟨rfl, hl⟩]
  split at h
  · split at h
    · cases h
    next s3 h3 =>
    injection h with h
    injection h with h1 h2
    subst h1; subst h2
    have hk2 := on_timer_timeout_kept hcc (by rw [ht]; rfl) (by rw [ht]; rfl) h3
    exact Kept_congr_right (t := s3) rfl rfl (Kept_zero (Kept_trans hk1 hk2) (fun _ => rfl))
  · injection h with h
    injection h with h1 h2
    subst h1; subst h2
    exact Kept_upd s i0 _ (fun hu _ => by rw [hfree] at hu; cases hu)

theorem run_action_kept {cc : Nat → State → Except Fault State} {q : PushOracle}
    {a : Action} {s s' : State} (hcc : Calm cc)
    (h : run_action cc q a s = Except.ok s') : Kept (fun _ => 0) s s' := by
  cases a with
  | cancel hd => exact cancel_kept (by simpa only [run_action] using h)
  | schedule a =>
    simp only [run_action] at h
    split at h
    · cases h
    next r hr =>
    injection h with h
    subst h
    exact schedule_kept (j := r.1) hcc hr

theorem run_actions_kept {cc : Nat → State → Except Fault State} {q : PushOracle}
    (hcc : Calm cc) (l : List Action) {s s' : State}
    (h : run_actions cc q l s = Except.ok s') : Kept (fun _ => 0) s s' := by
  induction l generalizing s with
  | nil =>
    unfold run_actions at h
    injection h with h; subst h
    exact Kept_refl s
  | cons a rest ih =>
    unfold run_actions at h
    split at h
    · cases h
    next s1 h1 => exact Kept_zero (Kept_trans (run_action_kept hcc h1) (ih h)) (fun _ => rfl)

theorem call_callback_calm (prog : Prog) (q : PushOracle) (fuel : Nat) :
    Calm (call_callback prog q fuel) := by
  induction fuel with
  | zero => intro j s s' h; simp [call_callback] at h
  | succ n ih =>
    intro j s s' h
    unfold call_callback at h
    simp only at h
    have hk := run_actions_kept ih _ h
    intro i hu hp
    obtain ⟨g1, g2⟩ := hk i (by exact hu) (by exact hp)
    refine ⟨g1, ?_⟩
    rw [g2, emit_trace, invocations_append]
    simp only [Nat.add_zero]
    by_cases hij : i = j
    · subst hij; simp
    · rw [if_neg hij, if_neg (fun e => hij e.symm)]

/-! ## C23 and C24: dispatch of an interrupt-context slot, the consumer -/

/-- The invocation of a callback whose body is the cancellation of its own
handle, for a slot that is used and pending. -/
theorem call_cancel_self (prog : Prog) (q : PushOracle) (fuel i : Nat) (s : State)
    (hb : ∀ x y, prog (s.timer i).callback x y = [Action.cancel i])
    (hh : i < timer_count) (hu : (s.timer i).used = true) (hp : (s.timer i).pending = true) :
    ∃ s2, call_callback prog q (fuel + 1) i s = Except.ok s2 ∧
      s2.timer i = { s.timer i with canceled := true } ∧
      (∀ j, j ≠ i → s2.timer j = s.timer j) ∧ s2.queue = s.queue ∧ s2.regs = s.regs ∧
      s2.trace = s.trace ++ [Obs.call i s.tick_count (s.timer i).callback (call_arg (s.timer i))] := by
  have hl := used_lt s i hu
  unfold call_callback
  simp only
  rw [hb]
  unfold run_actions
  simp only [run_action]
  rw [cancel_ok hh (by exact hu)]
  simp only [run_actions]
  refine ⟨_, rfl, ?_, fun j hj => ?_, rfl, rfl, rfl⟩
  · rw [timer_upd_same _ (by exact hl)]
    simp only [timer_emit, hp, if_true]
  · rw [timer_upd_ne _ hj]; rfl

end Scheduler
namespace Scheduler

/-- The consumer's handler on the event at the head of the queue, in a state
where `Inv` holds: the assertions pass. -/
theorem drain_head (cc : Nat → State → Except Fault State) (i : Nat) (rest : List Nat)
    (s : State) (hi : Inv s) (hq : s.queue = i :: rest) :
    event_queue_drain cc s =
      if (s.timer i).canceled then
        Except.ok (State.upd { s with queue := rest } i (fun t => { t with used := false }))
      else
        (match cc i { s with queue := rest } with
         | Except.error e => Except.error e
         | Except.ok s2 => Except.ok (s2.upd i after_event)) := by
  obtain ⟨hu, hp⟩ := hi.queued i (by rw [hq]; exact List.mem_cons_self _ _)
  unfold event_queue_drain
  rw [hq]
  simp only
  rw [on_timer_event_eq]
  simp only [timer_with_queue]
  rw [if_neg (not_not.2 hu), if_neg (not_not.2 hp)]

/-- C24: when the consumer takes the event of slot `i` off the queue, in a
reachable state (any state where `Inv` holds), and the slot is not canceled,
the handler passes its assertions and invokes the callback once; it fails only
if the callback does.  When the callback returns, one more invocation of the
slot is recorded and `pending` is cleared.  If the slot's `canceled` flag is
then set (the callback canceled its own handle) the slot ends with
`used = false`; if it is clear the slot ends used and not pending; in both
cases the due tick and every other field are as before.  A callback whose
body is the cancellation of its own handle gives the first case, a callback
that makes no scheduler call the second. -/
theorem C24_consumer_handles_event (prog : Prog) (q : PushOracle) (fuel : Nat)
    (i : Nat) (rest : List Nat) (s : State) (hi : Inv s) (hq : s.queue = i :: rest)
    (hnc : (s.timer i).canceled = false) :
    event_queue_drain (call_callback prog q fuel) s =
      (match call_callback prog q fuel i { s with queue := rest } with
       | Except.error e => Except.error e
       | Except.ok s2 => Except.ok (s2.upd i after_event)) ∧
    (∀ s2, call_callback prog q fuel i { s with queue := rest } = Except.ok s2 →
      ∃ s', event_queue_drain (call_callback prog q fuel) s = Except.ok s' ∧
        invocations i s'.trace = invocations i s.trace + 1 ∧
        ((s2.timer i).canceled = true →
          s'.timer i = { s.timer i with pending := false, used := false, canceled := true }) ∧
        ((s2.timer i).canceled = false →
          s'.timer i = { s.timer i with pending := false })) ∧
    (∀ n, fuel = n + 1 → (∀ x y, prog (s.timer i).callback x y = [Action.cancel i]) →
      ∃ s', event_queue_drain (call_callback prog q fuel) s = Except.ok s' ∧
        invocations i s'.trace = invocations i s.trace + 1 ∧
        (s'.timer i).used = false ∧ (s'.timer i).pending = false ∧
        (s'.timer i).next_tick_count = (s.timer i).next_tick_count) ∧
    (∀ n, fuel = n + 1 → (∀ x y, prog (s.timer i).callback x y = []) →
      ∃ s', event_queue_drain (call_callback prog q fuel) s = Except.ok s' ∧
        invocations i s'.trace = invocations i s.trace + 1 ∧
        (s'.timer i).used = true ∧ (s'.timer i).pending = false ∧
        (s'.timer i).next_tick_count = (s.timer i).next_tick_count) := by
  obtain ⟨hu, hp⟩ := hi.queued i (by rw [hq]; exact List.mem_cons_self _ _)
  have hl := used_lt s i hu
  have hh : i < timer_count := by rw [← hi.len]; exact hl
  have hv : event_queue_drain (call_callback prog q fuel) s =
      (match call_callback prog q fuel i { s with queue := rest } with
       | Except.error e => Except.error e
       | Except.ok s2 => Except.ok (s2.upd i after_event)) := by
    rw [drain_head _ i rest s hi hq, if_neg (by simp [hnc])]
  have key : ∀ s2, call_callback prog q fuel i { s with queue := rest } = Except.ok s2 →
      event_queue_drain (call_callback prog q fuel) s = Except.ok (s2.upd i after_event) ∧
        invocations i (s2.upd i after_event).trace = invocations i s.trace + 1 ∧
        ((s2.timer i).canceled = true →
          (s2.upd i after_event).timer i =
            { s.timer i with pending := false, used := false, canceled := true }) ∧
        ((s2.timer i).canceled = false →
          (s2.upd i after_event).timer i = { s.timer i with pending := false }) := by
    intro s2 h2
    obtain ⟨g1, g2⟩ := call_callback_calm prog q fuel _ _ _ h2 i (by exact hu) (by exact hp)
    simp only [if_true] at g2
    have g1' : s2.timer i = { s.timer i with canceled := (s2.timer i).canceled } := g1
    have hl2 : i < s2.timers.length := used_lt s2 i (by rw [g1']; exact hu)
    refine ⟨by rw [hv, h2], g2, fun hc => ?_, fun hc => ?_⟩
    · rw [timer_upd_same _ hl2, g1', hc]
      simp [after_event]
    · rw [timer_upd_same _ hl2, g1', hc]
      cases hti : s.timer i
      rw [hti] at hnc
      simp only at hnc
      subst hnc
      simp [after_event]
  refine ⟨hv, fun s2 h2 => ⟨_, key s2 h2⟩, fun n hn hb => ?_, fun n hn hb => ?_⟩
  · subst hn
    obtain ⟨s2, h2, g1, _⟩ := call_cancel_self prog q n i { s with queue := rest }
      (by exact hb) hh (by exact hu) (by exact hp)
    obtain ⟨k1, k2, k3, _⟩ := key s2 h2
    have hc2 : (s2.timer i).canceled = true := by rw [g1]
    exact ⟨_, k1, k2, by rw [k3 hc2], by rw [k3 hc2], by rw [k3 hc2]⟩
  · subst hn
    have h2 := call_silent prog q n i { s with queue := rest } (by exact hb)
    obtain ⟨k1, k2, _, k4⟩ := key _ h2
    have hc2 : ((({ s with queue := rest } : State).emit
        (Obs.call i ({ s with queue := rest } : State).tick_count
          (({ s with queue := rest } : State).timer i).callback
          (call_arg (({ s with queue := rest } : State).timer i)))).timer i).canceled = false := hnc
    exact ⟨_, k1, k2, by rw [k4 hc2]; exact hu, by rw [k4 hc2], by rw [k4 hc2]⟩

/-- An instance of C24: the consumer handles the queued event of the
repeatable deferred timer of slot 0, whose callback makes no scheduler call. -/
theorem C24_consumer_handles_event_witness :
    ∃ s', event_queue_drain (call_callback quiet always 1) (State.queued true) = Except.ok s' ∧
      invocations 0 s'.trace = 1 ∧ (s'.timer 0).used = true ∧ (s'.timer 0).pending = false ∧
      (s'.timer 0).next_tick_count = 2 :=
  (C24_consumer_handles_event quiet always 1 0 [] (State.queued true)
    (reachable_inv (reachable_queued true)) rfl rfl).2.2.2 0 rfl (fun _ _ => rfl)

/-! ## C25: one-shot slots in flight are never due -/

theorem SelfCanceling_quiet : SelfCanceling quiet := fun _ _ _ h => by
  simp [quiet] at h

theorem SelfCanceling_cancel_own : SelfCanceling cancel_own := by
  intro i s a h
  simp [cancel_own, State.emit] at h
  exact h

theorem cancel_unasserted {h : Nat} {s : State} {e : Fault}
    (hc : scheduler_cancel_timer h s = Except.error e) :
    e ≠ Fault.pending_not_repeatable := by
  unfold scheduler_cancel_timer at hc
  split at hc
  · injection hc with hc; subst hc; decide
  split at hc
  · injection hc with hc; subst hc; decide
  cases hc

theorem on_timer_timeout_unasserted {cc : Nat → State → Except Fault State} {q : PushOracle}
    {i : Nat} {s : State} {e : Fault} (hcc : Unasserted cc)
    (h : on_timer_timeout cc q i s = Except.error e) : e ≠ Fault.pending_not_repeatable := by
  by_cases hirq : (s.timer i).irql = true
  · rw [timeout_irql_eq cc q i s hirq] at h
    split at h
    · injection h with h; subst h; decide
    split at h
    · injection h with h; subst h; decide
    split at h
    · injection h with h; subst h; decide
    split at h
    · next e' he => injection h with h; subst h; exact hcc _ _ _ he
    · cases h
  · unfold on_timer_timeout at h
    rw [if_neg hirq] at h
    simp only at h
    split at h
    · cases h
    split at h <;> cases h

theorem schedule_unasserted {cc : Nat → State → Except Fault State} {q : PushOracle}
    {a : sched_args} {s : State} {e : Fault} (hcc : Unasserted cc)
    (h : schedule_internal cc q a s = Except.error e) : e ≠ Fault.pending_not_repeatable := by
  rw [schedule_eq] at h
  split at h
  · injection h with h; subst h; decide
  split at h
  · injection h with h; subst h; decide
  split at h
  · next e' he =>
    injection h with h; subst h
    rw [find_free_error he]; decide
  split at h
  · split at h
    · next e' he => injection h with h; subst h; exact on_timer_timeout_unasserted hcc he
    · cases h
  · cases h

theorem run_actions_unasserted {cc : Nat → State → Except Fault State} {q : PushOracle}
    (hcc : Unasserted cc) (l : List Action) {s : State} {e : Fault}
    (h : run_actions cc q l s = Except.error e) : e ≠ Fault.pending_not_repeatable := by
  induction l generalizing s with
  | nil =>
    unfold run_actions at h
    cases h
  | cons a rest ih =>
    unfold run_actions at h
    split at h
    · next e' he =>
      injection h with h; subst h
      cases a with
      | cancel hd => exact cancel_unasserted (by simpa only [run_action] using he)
      | schedule a =>
        simp only [run_action] at he
        split at he
        · next e2 h2 => injection he with he; subst he; exact schedule_unasserted hcc h2
        · cases he
    · exact ih h

theorem call_callback_unasserted (prog : Prog) (q : PushOracle) (fuel : Nat) :
    Unasserted (call_callback prog q fuel) := by
  induction fuel with
  | zero =>
    intro j s e h
    simp only [call_callback] at h
    injection h with h; subst h; decide
  | succ n ih =>
    intro j s e h
    unfold call_callback at h
    simp only at h
    exact run_actions_unasserted ih _ h

theorem on_timer_event_unasserted {cc : Nat → State → Except Fault State} {i : Nat}
    {s : State} {e : Fault} (hcc : Unasserted cc)
    (h : on_timer_event cc i s = Except.error e) : e ≠ Fault.pending_not_repeatable := by
  rw [on_timer_event_eq] at h
  split at h
  · injection h with h; subst h; decide
  split at h
  · injection h with h; subst h; decide
  split at h
  · cases h
  split at h
  · next e' he => injection h with h; subst h; exact hcc _ _ _ he
  · cases h

/-- The calls of a callback that cancels its own handle leave the other
slots. -/
theorem run_cancels_own {cc : Nat → State → Except Fault State} {q : PushOracle} {i : Nat}
    (l : List Action) (hl : ∀ a ∈ l, a = Action.cancel i) {s s' : State}
    (h : run_actions cc q l s = Except.ok s') : ∀ k, k ≠ i → s'.timer k = s.timer k := by
  induction l generalizing s with
  | nil =>
    unfold run_actions at h
    injection h with h; subst h
    intro _ _; rfl
  | cons a rest ih =>
    unfold run_actions at h
    split at h
    · cases h
    next s1 h1 =>
    intro k hk
    rw [ih (fun b hb => hl b (List.mem_cons_of_mem _ hb)) h k hk]
    rw [hl a (List.mem_cons_self _ _)] at h1
    simp only [run_action] at h1
    obtain ⟨_, _, rfl⟩ := cancel_eq h1
    exact timer_upd_ne _ hk

theorem call_callback_own {prog : Prog} (hsc : SelfCanceling prog) (q : PushOracle)
    (fuel : Nat) : Own (call_callback prog q fuel) := by
  intro i s s' h
  cases fuel with
  | zero => simp [call_callback] at h
  | succ n =>
    unfold call_callback at h
    simp only at h
    intro k hk
    rw [run_cancels_own _ (hsc i s) h k hk]
    rfl

/-- What the one-shot slots in flight see of a dispatch under callbacks that
leave the other slots: the counter and the other slots are untouched, and the
slot dispatched, if its event is then in flight, has kept its due tick. -/
theorem on_timer_timeout_own {cc : Nat → State → Except Fault State} {q : PushOracle}
    {i : Nat} {s s' : State} (hown : Own cc) (hkeep : Keeps cc)
    (hu : (s.timer i).used = true) (h : on_timer_timeout cc q i s = Except.ok s') :
    s'.tick_count = s.tick_count ∧ (∀ j, j ≠ i → s'.timer j = s.timer j) ∧
    ((s'.timer i).repeatable = false → (s'.timer i).pending = true →
      (s'.timer i).next_tick_count = (s.timer i).next_tick_count) := by
  have hl := used_lt s i hu
  by_cases hirq : (s.timer i).irql = true
  · rw [timeout_irql_eq cc q i s hirq] at h
    split at h
    · cases h
    split at h
    · cases h
    split at h
    · cases h
    split at h
    · cases h
    next s2 h2 =>
    injection h with h; subst h
    have hk2 : s2.tick_count = s.tick_count := congrArg Prod.fst (hkeep _ _ _ h2)
    refine ⟨hk2, fun j hj => ?_, ?_⟩
    · rw [timer_upd_ne _ hj, hown _ _ _ h2 j hj, timer_upd_ne _ hj]
    · rw [timer_upd]
      split
      · intro _ hp
        exfalso
        revert hp
        unfold after_dispatch
        split
        · intro hc; cases hc
        · split <;> (intro hc; cases hc)
      · next hn =>
        intro _ hp
        exfalso
        have hnu : ¬ (s2.timer i).used = true := fun hc => hn ⟨rfl, used_lt s2 i hc⟩
        have hl2 : ¬ i < s2.timers.length := fun hc => hn ⟨rfl, hc⟩
        have : s2.timer i = timer_zero := by
          unfold State.timer
          rw [List.getD_eq_getElem?_getD, List.getElem?_eq_none (by omega)]
          rfl
        rw [this] at hp
        cases hp
  · have hirq' : (s.timer i).irql = false := by simpa using hirq
    rw [timeout_deferred_eq cc q i s hu hirq'] at h
    injection h with h; subst h
    have hl1 : i < (pushed q i s).timers.length := hl
    refine ⟨rfl, fun j hj => timer_upd_ne _ hj, ?_⟩
    rw [timer_upd_same _ hl1]
    show (after_push (q i) (s.timer i)).repeatable = false →
      (after_push (q i) (s.timer i)).pending = true →
      (after_push (q i) (s.timer i)).next_tick_count = (s.timer i).next_tick_count
    intro hr hp
    have hr' : (s.timer i).repeatable = false := by
      rw [← hr]; unfold after_push
      split
      · split <;> rfl
      · rfl
    cases hq : q i
    · rw [hq] at hp; simp [after_push] at hp
    · simp [after_push, hr']

theorem Settled_mono {k m : Nat} {s : State} (hkm : k ≤ m) (h : Settled k s) : Settled m s :=
  fun i hu hr hp => ⟨(h i hu hr hp).1, fun hi => (h i hu hr hp).2 (by omega)⟩

/-- The visit of slot `i` by the scan: the assertion on a pending due slot
holds, and the scan moves past the slot. -/
theorem tick_visit_settled {cc : Nat → State → Except Fault State} {q : PushOracle}
    {i : Nat} {s : State} (hown : Own cc) (hkeep : Keeps cc) (hun : Unasserted cc)
    (hs : Settled i s) :
    (∀ s', tick_visit cc q i s = Except.ok s' → Settled (i + 1) s') ∧
    (∀ e, tick_visit cc q i s = Except.error e → e ≠ Fault.pending_not_repeatable) := by
  refine ⟨fun s' h => ?_, fun e h => ?_⟩
  · unfold tick_visit at h
    split at h
    · next hdue =>
      have hl := used_lt s i hdue.1
      split at h
      · split at h
        · cases h
        next hrep =>
        injection h with h; subst h
        have hrep' : (s.timer i).repeatable = true := by simpa using hrep
        intro j
        rw [timer_upd]
        split
        · intro _ hr
          have hr' : (s.timer i).repeatable = false := hr
          rw [hrep'] at hr'; cases hr'
        · intro hu hr hp
          exact ⟨(hs j hu hr hp).1, fun hj => (hs j hu hr hp).2 (by omega)⟩
      · obtain ⟨g1, g2, g3⟩ := on_timer_timeout_own hown hkeep hdue.1 h
        intro j hu hr hp
        by_cases hj : j = i
        · subst hj
          rw [g3 hr hp, g1, hdue.2]
          exact ⟨Nat.le_refl _, fun hc => absurd hc (by omega)⟩
        · rw [g2 j hj] at hu hr hp ⊢
          rw [g1]
          exact ⟨(hs j hu hr hp).1, fun hc => (hs j hu hr hp).2 (by omega)⟩
    · injection h with h; subst h
      exact Settled_mono (Nat.le_succ i) hs
  · unfold tick_visit at h
    split at h
    · next hdue =>
      split at h
      · next hp =>
        split at h
        · next hrep =>
          exfalso
          have := (hs i hdue.1 (by simpa using hrep) hp).2 (Nat.le_refl i)
          rw [hdue.2] at this
          exact Nat.lt_irrefl _ this
        · cases h
      · exact on_timer_timeout_unasserted hun h
    · cases h

theorem tick_scan_settled {cc : Nat → State → Except Fault State} {q : PushOracle}
    (hown : Own cc) (hkeep : Keeps cc) (hun : Unasserted cc) (n : Nat) {i : Nat} {s : State}
    (hs : Settled i s) :
    (∀ s', tick_scan cc q n i s = Except.ok s' → Settled (i + n) s') ∧
    (∀ e, tick_scan cc q n i s = Except.error e → e ≠ Fault.pending_not_repeatable) := by
  induction n generalizing i s with
  | zero =>
    refine ⟨fun s' h => ?_, fun e h => ?_⟩
    · unfold tick_scan at h
      injection h with h; subst h; exact hs
    · unfold tick_scan at h
      cases h
  | succ n ih =>
    obtain ⟨v1, v2⟩ := tick_visit_settled (q := q) hown hkeep hun hs
    refine ⟨fun s' h => ?_, fun e h => ?_⟩
    · unfold tick_scan at h
      split at h
      · cases h
      next s1 h1 =>
      have := (ih (v1 s1 h1)).1 s' h
      rw [show i + (n + 1) = i + 1 + n by omega]
      exact this
    · unfold tick_scan at h
      split at h
      · next e' he => injection h with h; subst h; exact v2 _ he
      next s1 h1 => exact (ih (v1 s1 h1)).2 e h

/-- The state at the start of a run of the tick handler: no one-shot slot in
flight is due at the new counter value. -/
theorem Settled_tick {s : State} (hs : Late s)
    (hroom : s.tick_count + 1 < 18446744073709551616) :
    Settled 0 { s with tick_count := wrap64 (s.tick_count + 1) } := by
  intro i hu hr hp
  have e : wrap64 (s.tick_count + 1) = s.tick_count + 1 := by unfold wrap64; omega
  have := hs i hu hr hp
  show (s.timer i).next_tick_count ≤ wrap64 (s.tick_count + 1) ∧
    (0 ≤ i → (s.timer i).next_tick_count < wrap64 (s.tick_count + 1))
  rw [e]
  exact ⟨by omega, fun _ => by omega⟩

theorem Late_congr {s r : State} (ht : r.timers = s.timers)
    (hk : r.tick_count = s.tick_count) (h : Late s) : Late r := by
  have ht' : ∀ i, r.timer i = s.timer i := fun i => by simp [State.timer, ht]
  intro i
  rw [ht', hk]
  exact h i

theorem Late_upd {s : State} (i : Nat) (f : timer_t → timer_t) (h : Late s)
    (hf : (f (s.timer i)).used = true → (f (s.timer i)).repeatable = false →
      (f (s.timer i)).pending = true → (f (s.timer i)).next_tick_count ≤ s.tick_count) :
    Late (s.upd i f) := by
  intro j
  rw [timer_upd]
  split
  · exact hf
  · exact h j

theorem Late_zero : Late State.zero := by
  have hz : ∀ i, State.zero.timer i = timer_zero := fun i => by
    unfold State.timer State.zero
    rw [List.getD_eq_getElem?_getD, List.getElem?_replicate]
    split <;> rfl
  intro i hu
  rw [hz] at hu; cases hu

theorem cancel_late {h : Nat} {s s' : State}
    (hc : scheduler_cancel_timer h s = Except.ok s') (hs : Late s) : Late s' := by
  obtain ⟨_, _, rfl⟩ := cancel_eq hc
  refine Late_upd h _ hs ?_
  by_cases hp : (s.timer h).pending = true
  · rw [if_pos hp]
    intro hu hr _
    exact hs h hu hr hp
  · rw [if_neg hp]
    intro hc; cases hc

theorem schedule_late {cc : Nat → State → Except Fault State} {q : PushOracle}
    {a : sched_args} {s s' : State} {i : Nat} (hown : Own cc) (hkeep : Keeps cc)
    (hs : Late s) (h : schedule_internal cc q a s = Except.ok (i, s')) : Late s' := by
  rw [schedule_eq] at h
  split at h
  · cases h
  split at h
  · cases h
  split at h
  · cases h
  next i0 hff =>
  obtain ⟨hl, _, _⟩ := find_free_state hff
  split at h
  · next hz =>
    split at h
    · cases h
    next s3 h3 =>
    injection h with h
    injection h with h1 h2
    subst h1; subst h2
    have ht : (State.upd { s with primask := 1 } i0
        (fun _ => fresh_timer a s.tick_count)).timer i0 = fresh_timer a s.tick_count := by
      rw [timer_upd, if_pos ⟨rfl, hl⟩]
    obtain ⟨g1, g2, g3⟩ := on_timer_timeout_own hown hkeep (by rw [ht]; rfl) h3
    intro j hu hr hp
    have hu' : (s3.timer j).used = true := hu
    have hr' : (s3.timer j).repeatable = false := hr
    have hp' : (s3.timer j).pending = true := hp
    show (s3.timer j).next_tick_count ≤ s3.tick_count
    rw [g1]
    by_cases hj : j = i0
    · subst hj
      rw [g3 hr' hp', ht]
      show wrap64 (s.tick_count + a.period_ms) ≤ s.tick_count
      rw [hz]
      unfold wrap64
      exact Nat.mod_le _ _
    · rw [g2 j hj] at hu' hr' hp' ⊢
      rw [timer_upd_ne _ hj] at hu' hr' hp' ⊢
      exact hs j hu' hr' hp'
  · injection h with h
    injection h with h1 h2
    subst h1; subst h2
    exact Late_upd i0 _ hs (fun _ _ hp => by cases hp)

theorem on_timer_event_late {cc : Nat → State → Except Fault State} {i : Nat}
    {s s' : State} (hown : Own cc) (hkeep : Keeps cc) (hs : Late s)
    (h : on_timer_event cc i s = Except.ok s') : Late s' := by
  rw [on_timer_event_eq] at h
  split at h
  · cases h
  split at h
  · cases h
  split at h
  · injection h with h; subst h
    exact Late_upd i _ hs (fun hc => by cases hc)
  split at h
  · cases h
  next s2 h2 =>
  injection h with h; subst h
  have hk2 : s2.tick_count = s.tick_count := congrArg Prod.fst (hkeep _ _ _ h2)
  intro j
  rw [timer_upd]
  split
  · intro _ _ hp
    exfalso
    revert hp
    unfold after_event
    split <;> (intro hc; cases hc)
  · next hn =>
    by_cases hj : j = i
    · subst hj
      intro hu
      exact absurd ⟨rfl, used_lt s2 j hu⟩ hn
    · show (s2.timer j).used = true → (s2.timer j).repeatable = false →
        (s2.timer j).pending = true → (s2.timer j).next_tick_count ≤ s2.tick_count
      rw [hown _ _ _ h2 j hj, hk2]
      exact hs j

theorem step_late {prog : Prog} (hsc : SelfCanceling prog) (fuel : Nat) (q0 : PushOracle)
    (op : Op) {s : State} (hs : Late s)
    (hroom : op.ticking = true → s.tick_count + 1 < 18446744073709551616) :
    (∀ s', step prog fuel q0 op s = Except.ok s' → Late s') ∧
    (∀ e, step prog fuel q0 op s = Except.error e → e ≠ Fault.pending_not_repeatable) := by
  cases op with
  | init b f =>
    refine ⟨fun s' h => ?_, fun e h => ?_⟩
    · simp only [step, scheduler_init] at h
      split at h
      · cases h
      next r hr =>
      split at hr
      · cases hr
      split at hr
      · cases hr
      injection hr with hr
      subst hr
      injection h with h
      subst h
      exact Late_congr (s := s) rfl rfl hs
    · simp only [step, scheduler_init] at h
      split at h
      · next e' hr =>
        injection h with h; subst h
        split at hr
        · injection hr with hr; subst hr; decide
        split at hr
        · injection hr with hr; subst hr; decide
        cases hr
      · cases h
  | schedule a q =>
    refine ⟨fun s' h => ?_, fun e h => ?_⟩
    · simp only [step] at h
      split at h
      · cases h
      next r hr =>
      injection h with h
      subst h
      exact schedule_late (i := r.1) (call_callback_own hsc q fuel)
        (call_callback_keeps prog q fuel) hs hr
    · simp only [step] at h
      split at h
      · next e' hr =>
        injection h with h; subst h
        exact schedule_unasserted (call_callback_unasserted prog q fuel) hr
      · cases h
  | cancel hd =>
    exact ⟨fun s' h => cancel_late (by simpa only [step] using h) hs,
      fun e h => cancel_unasserted (by simpa only [step] using h)⟩
  | tick q =>
    obtain ⟨v1, v2⟩ := tick_scan_settled (q := q) (call_callback_own hsc q fuel)
      (call_callback_keeps prog q fuel) (call_callback_unasserted prog q fuel) timer_count
      (Settled_tick hs (hroom rfl))
    refine ⟨fun s' h => ?_, fun e h => ?_⟩
    · simp only [step, timer_callback_irql] at h
      intro i hu hr hp
      exact (v1 s' h i hu hr hp).1
    · simp only [step, timer_callback_irql] at h
      exact v2 e h
  | drain =>
    refine ⟨fun s' h => ?_, fun e h => ?_⟩
    · simp only [step, event_queue_drain] at h
      split at h
      · injection h with h; subst h; exact hs
      next i rest hq =>
      refine on_timer_event_late (call_callback_own hsc q0 fuel)
        (call_callback_keeps prog q0 fuel) ?_ h
      exact Late_congr (s := s) rfl rfl hs
    · simp only [step, event_queue_drain] at h
      split at h
      · cases h
      · exact on_timer_event_unasserted (call_callback_unasserted prog q0 fuel) h

theorem run_late {prog : Prog} (hsc : SelfCanceling prog) (fuel : Nat) (q0 : PushOracle)
    (ops : List Op) {s : State} (hs : Late s)
    (hno : s.tick_count + ticks ops < 18446744073709551616) :
    (∀ s', run prog fuel q0 ops s = Except.ok s' → Late s') ∧
    (∀ e, run prog fuel q0 ops s = Except.error e → e ≠ Fault.pending_not_repeatable) := by
  induction ops generalizing s with
  | nil =>
    refine ⟨fun s' h => ?_, fun e h => ?_⟩
    · rw [run_nil] at h
      injection h with h; subst h; exact hs
    · rw [run_nil] at h
      cases h
  | cons op rest ih =>
    rw [ticks_cons] at hno
    obtain ⟨v1, v2⟩ := step_late hsc fuel q0 op hs
      (fun ht => by rw [if_pos ht] at hno; omega)
    have next : ∀ s1, step prog fuel q0 op s = Except.ok s1 →
        s1.tick_count + ticks rest < 18446744073709551616 := by
      intro s1 h1
      obtain ⟨e1, _⟩ := step_regs prog fuel q0 op h1
      rw [e1]
      by_cases ht : op.ticking = true
      · rw [if_pos ht] at hno ⊢
        unfold wrap64; omega
      · rw [if_neg ht] at hno ⊢
        omega
    refine ⟨fun s' h => ?_, fun e h => ?_⟩
    · obtain ⟨s1, h1, h2⟩ := run_cons h
      exact (ih (v1 s1 h1) (next s1 h1)).1 s' h2
    · unfold run at h
      split at h
      · next e' he => injection h with h; subst h; exact v2 _ he
      next s1 h1 => exact (ih (v1 s1 h1) (next s1 h1)).2 e h

/-- C25: with callbacks limited to cancelling their own handle, and fewer than
`2^64` ticks, no run of operations from start-up stops at the assertion of the
tick handler that a pending due timer is repeatable.  After each operation a
used one-shot slot that is pending has its due tick at or before the counter.
A slot is due when the scan of the tick handler examines it and finds its due
tick equal to the incremented counter: whenever the scan of the next tick is
about to examine a slot `n`, that slot is not at once used, one-shot, pending
and due, and that scan does not stop at the assertion either.  (A one-shot
slot whose event was pushed at the current tick keeps a due tick equal to the
counter; no scan examines it before the counter has moved on.) -/
theorem C25_pending_one_shot_never_due (prog : Prog) (fuel : Nat) (q0 : PushOracle)
    (ops : List Op) (hsc : SelfCanceling prog)
    (hno : ticks ops < 18446744073709551616) :
    (∀ e, run prog fuel q0 ops State.zero = Except.error e →
      e ≠ Fault.pending_not_repeatable) ∧
    (∀ s, run prog fuel q0 ops State.zero = Except.ok s →
      (∀ i, (s.timer i).used = true → (s.timer i).repeatable = false →
        (s.timer i).pending = true → (s.timer i).next_tick_count ≤ s.tick_count) ∧
      (∀ q n, ticks ops + 1 < 18446744073709551616 →
        (∀ s1, tick_scan (call_callback prog q fuel) q n 0
            { s with tick_count := wrap64 (s.tick_count + 1) } = Except.ok s1 →
          ¬ ((s1.timer n).used = true ∧ (s1.timer n).repeatable = false ∧
            (s1.timer n).pending = true ∧ (s1.timer n).next_tick_count = s1.tick_count)) ∧
        (∀ e, tick_scan (call_callback prog q fuel) q n 0
            { s with tick_count := wrap64 (s.tick_count + 1) } = Except.error e →
          e ≠ Fault.pending_not_repeatable))) := by
  have hrun := run_late hsc fuel q0 ops Late_zero
    (by show 0 + ticks ops < 18446744073709551616; omega)
  refine ⟨hrun.2, fun s hr => ⟨hrun.1 s hr, fun q n hroom => ?_⟩⟩
  have ht : s.tick_count = ticks ops := by
    rw [run_tick_count prog fuel q0 ops (by decide) hr]
    show wrap64 (0 + ticks ops) = ticks ops
    unfold wrap64; omega
  obtain ⟨v1, v2⟩ := tick_scan_settled (q := q) (call_callback_own hsc q fuel)
    (call_callback_keeps prog q fuel) (call_callback_unasserted prog q fuel) n
    (Settled_tick (hrun.1 s hr) (by rw [ht]; exact hroom))
  refine ⟨fun s1 h1 hc => ?_, v2⟩
  have := (v1 s1 h1 n hc.1 hc.2.1 hc.2.2.1).2 (by omega)
  rw [hc.2.2.2] at this
  exact Nat.lt_irrefl _ this

/-- An instance of C25: the one-shot slot whose event was pushed at tick 1. -/
theorem C25_pending_one_shot_never_due_witness :
    ((State.queued false).timer 0).next_tick_count ≤ (State.queued false).tick_count :=
  ((C25_pending_one_shot_never_due cancel_own 1 always
    [Op.init true 72000000, Op.schedule (sample_args false 1 false) always, Op.tick always]
    SelfCanceling_cancel_own (by decide)).2 (State.queued false) rfl).1 0 rfl rfl rfl

/-! ## C26 and C27: the flags in reachable states -/

theorem reachable_sound {prog : Prog} {fuel : Nat} {q0 : PushOracle} {s : State}
    (h : Reachable prog fuel q0 s) : Sound (fun _ => False) s := by
  obtain ⟨ops, h⟩ := h
  exact run_sound prog fuel q0 ops Sound_zero h

/-- C27: in every reachable state (after each complete operation), whatever
the callbacks do, every slot that is used and canceled is pending.  A used
interrupt-context slot is then neither pending nor canceled, so it is not
canceled when it becomes due.  No continuation of the run stops at one of the
three assertions at the start of the dispatch of an interrupt-context timer
(from start-up: no run does). -/
theorem C27_canceled_slots_are_pending (prog : Prog) (fuel : Nat) (q0 : PushOracle)
    (s : State) (hs : Reachable prog fuel q0 s) :
    (∀ i, (s.timer i).used = true → (s.timer i).canceled = true →
      (s.timer i).pending = true) ∧
    (∀ i, (s.timer i).used = true → (s.timer i).irql = true →
      (s.timer i).pending = false ∧ (s.timer i).canceled = false) ∧
    (∀ (ops : List Op) (e : Fault), run prog fuel q0 ops s = Except.error e →
      e ≠ Fault.timeout_not_used ∧ e ≠ Fault.timeout_canceled ∧
      e ≠ Fault.timeout_pending) := by
  have hi := reachable_inv hs
  have hsd := reachable_sound hs
  refine ⟨hsd.tidy, fun i hu hirq => ?_, fun ops e h => ?_⟩
  · have hp : (s.timer i).pending = false := by
      cases hp : (s.timer i).pending
      · rfl
      · exact (hsd.idle i hu hirq hp).elim
    refine ⟨hp, ?_⟩
    cases hc : (s.timer i).canceled
    · rfl
    · have := hsd.tidy i hu hc
      rw [hp] at this; cases this
  · have := run_safe prog fuel q0 ops hi hsd h
    refine ⟨?_, ?_, ?_⟩ <;> (intro he; subst he; cases this)

/-- The state `State.queued true` after the timer is canceled: the slot is
used, canceled and pending. -/
theorem reachable_canceled :
    Reachable quiet 1 always
      ((State.queued true).upd 0 (fun t => { t with canceled := true })) :=
  ⟨[Op.init true 72000000, Op.schedule (sample_args false 1 true) always, Op.tick always,
    Op.cancel 0], rfl⟩

/-- An instance of C27: the slot canceled while its event is queued. -/
theorem C27_canceled_slots_are_pending_witness :
    (((State.queued true).upd 0 (fun t => { t with canceled := true })).timer 0).used = true ∧
    (((State.queued true).upd 0 (fun t => { t with canceled := true })).timer 0).canceled
      = true ∧
    (((State.queued true).upd 0 (fun t => { t with canceled := true })).timer 0).pending
      = true :=
  ⟨rfl, rfl,
    (C27_canceled_slots_are_pending quiet 1 always _ reachable_canceled).1 0 rfl rfl⟩

/-! ## C28: due ticks of repeatable slots -/

theorem Ahead_congr {k : Nat} {s r : State} (ht : r.timers = s.timers)
    (hk : r.tick_count = s.tick_count) (h : Ahead k s) : Ahead k r := by
  have ht' : ∀ i, r.timer i = s.timer i := fun i => by simp [State.timer, ht]
  exact ⟨by rw [hk]; exact h.room, fun i => by rw [ht', hk]; exact h.due i⟩

theorem Ahead_mono {k m : Nat} {s : State} (hkm : m ≤ k) (h : Ahead k s) : Ahead m s :=
  ⟨h.room, fun i hu hr => by
    obtain ⟨h1, h2, h3, h4, h5⟩ := h.due i hu hr
    exact ⟨h1, h2, h3, fun hi => h4 (by omega), h5⟩⟩

/-- An assignment to a slot keeps `Ahead` when the slot it writes, if used and
repeatable, has its due tick after the counter and at most a period ahead. -/
theorem Ahead_upd {k : Nat} {s : State} (i : Nat) (f : timer_t → timer_t) (h : Ahead k s)
    (hf : (f (s.timer i)).used = true → (f (s.timer i)).repeatable = true →
      0 < (f (s.timer i)).period ∧ (f (s.timer i)).period < 4294967296 ∧
      s.tick_count ≤ (f (s.timer i)).next_tick_count ∧
      (i < k → s.tick_count < (f (s.timer i)).next_tick_count) ∧
      (f (s.timer i)).next_tick_count ≤ s.tick_count + (f (s.timer i)).period) :
    Ahead k (s.upd i f) := by
  refine ⟨h.room, fun j => ?_⟩
  rw [timer_upd]
  split
  · next hc => rw [hc.1]; exact hf
  · exact h.due j

/-- An assignment that leaves the due tick, the period and the repeatable flag
of a slot, and does not set `used`. -/
theorem Ahead_upd_flags {k : Nat} {s : State} (i : Nat) (f : timer_t → timer_t)
    (h : Ahead k s)
    (hf : ∀ t, ((f t).used = true → t.used = true) ∧ (f t).repeatable = t.repeatable ∧
      (f t).period = t.period ∧ (f t).next_tick_count = t.next_tick_count) :
    Ahead k (s.upd i f) := by
  obtain ⟨h1, h2, h3, h4⟩ := hf (s.timer i)
  refine Ahead_upd i f h (fun hu hr => ?_)
  rw [h3, h4]
  exact h.due i (h1 hu) (by rw [← h2]; exact hr)

theorem cancel_ahead {k h : Nat} {s s' : State}
    (hc : scheduler_cancel_timer h s = Except.ok s') (hs : Ahead k s) : Ahead k s' := by
  obtain ⟨_, _, rfl⟩ := cancel_eq hc
  refine Ahead_upd_flags h _ hs (fun t => ?_)
  by_cases hp : t.pending = true
  · simp [hp]
  · simp [hp]

/-- `Ahead` after a dispatch: the slot dispatched, if still used and
repeatable, has its due tick after the counter. -/
theorem on_timer_timeout_ahead {cc : Nat → State → Except Fault State} {q : PushOracle}
    {k i : Nat} {s s' : State} (hcc : Aheads cc) (hcalm : Calm cc) (hkeep : Keeps cc)
    (hu : (s.timer i).used = true)
    (hdue : (s.timer i).repeatable = true → (s.timer i).next_tick_count = s.tick_count)
    (hs : Ahead k s) (h : on_timer_timeout cc q i s = Except.ok s') :
    Ahead k s' ∧ ((s'.timer i).used = true → (s'.timer i).repeatable = true →
      s'.tick_count < (s'.timer i).next_tick_count) := by
  have hl := used_lt s i hu
  have hroom := hs.room
  by_cases hirq : (s.timer i).irql = true
  · rw [timeout_irql_eq cc q i s hirq] at h
    split at h
    · cases h
    split at h
    · cases h
    split at h
    · cases h
    split at h
    · cases h
    next s2 h2 =>
    injection h with h; subst h
    have e1 : (s.upd i (fun t => { t with pending := true })).timer i =
        { s.timer i with pending := true } := timer_upd_same _ hl
    have hs1 : Ahead k (s.upd i (fun t => { t with pending := true })) :=
      Ahead_upd_flags i _ hs (fun t => ⟨fun hu => hu, rfl, rfl, rfl⟩)
    have hs2 := hcc _ _ _ _ h2 hs1
    obtain ⟨g1, _⟩ := hcalm _ _ _ h2 i (by rw [e1]; exact hu) (by rw [e1])
    rw [e1] at g1
    have hk2 : s2.tick_count = s.tick_count := congrArg Prod.fst (hkeep _ _ _ h2)
    have hl2 : i < s2.timers.length := used_lt s2 i (by rw [g1]; exact hu)
    have hr2 : (s2.timer i).repeatable = (s.timer i).repeatable := by rw [g1]
    have hn2 : (s2.timer i).next_tick_count = (s.timer i).next_tick_count := by rw [g1]
    have hp2 : (s2.timer i).period = (s.timer i).period := by rw [g1]
    have hu2 : (s2.timer i).used = true := by rw [g1]; exact hu
    have key : (after_dispatch (s2.timer i)).used = true →
        (after_dispatch (s2.timer i)).repeatable = true →
        0 < (after_dispatch (s2.timer i)).period ∧
        (after_dispatch (s2.timer i)).period < 4294967296 ∧
        s2.tick_count < (after_dispatch (s2.timer i)).next_tick_count ∧
        (after_dispatch (s2.timer i)).next_tick_count ≤
          s2.tick_count + (after_dispatch (s2.timer i)).period := by
      unfold after_dispatch
      split
      · intro hc; cases hc
      · split
        · next hr =>
          intro _ _
          have hrs : (s.timer i).repeatable = true := by rw [← hr2]; exact hr
          obtain ⟨a1, a2, _, _, _⟩ := hs.due i hu hrs
          have hd := hdue hrs
          show 0 < (s2.timer i).period ∧ (s2.timer i).period < 4294967296 ∧
            s2.tick_count < wrap64 ((s2.timer i).next_tick_count + (s2.timer i).period) ∧
            wrap64 ((s2.timer i).next_tick_count + (s2.timer i).period) ≤
              s2.tick_count + (s2.timer i).period
          rw [hn2, hp2, hk2, hd]
          unfold wrap64
          omega
        · next hr => intro _ hc; exact absurd hc hr
    refine ⟨Ahead_upd i _ hs2 (fun hu' hr' => ?_), ?_⟩
    · obtain ⟨b1, b2, b3, b4⟩ := key hu' hr'
      exact ⟨b1, b2, by omega, fun _ => b3, b4⟩
    · rw [timer_upd_same _ hl2]
      intro hu' hr'
      exact (key hu' hr').2.2.1
  · have hirq' : (s.timer i).irql = false := by simpa using hirq
    rw [timeout_deferred_eq cc q i s hu hirq'] at h
    injection h with h; subst h
    have hs1 : Ahead k (pushed q i s) := Ahead_congr (s := s) rfl rfl hs
    have ht : (pushed q i s).timer i = s.timer i := rfl
    have hl1 : i < (pushed q i s).timers.length := hl
    have key : (after_push (q i) (s.timer i)).used = true →
        (after_push (q i) (s.timer i)).repeatable = true →
        0 < (after_push (q i) (s.timer i)).period ∧
        (after_push (q i) (s.timer i)).period < 4294967296 ∧
        s.tick_count < (after_push (q i) (s.timer i)).next_tick_count ∧
        (after_push (q i) (s.timer i)).next_tick_count ≤
          s.tick_count + (after_push (q i) (s.timer i)).period := by
      unfold after_push
      split
      · split
        · next hr =>
          intro _ _
          obtain ⟨a1, a2, _, _, _⟩ := hs.due i hu hr
          have hd := hdue hr
          show 0 < (s.timer i).period ∧ (s.timer i).period < 4294967296 ∧
            s.tick_count < wrap64 ((s.timer i).next_tick_count + (s.timer i).period) ∧
            wrap64 ((s.timer i).next_tick_count + (s.timer i).period) ≤
              s.tick_count + (s.timer i).period
          rw [hd]
          unfold wrap64
          omega
        · next hr => intro _ hc; exact absurd hc hr
      · intro _ hr
        have hr' : (s.timer i).repeatable = true := hr
        obtain ⟨a1, a2, _, _, _⟩ := hs.due i hu hr'
        have hd := hdue hr'
        show 0 < (s.timer i).period ∧ (s.timer i).period < 4294967296 ∧
          s.tick_count < wrap64 ((s.timer i).next_tick_count + 1) ∧
          wrap64 ((s.timer i).next_tick_count + 1) ≤ s.tick_count + (s.timer i).period
        rw [hd]
        unfold wrap64
        omega
    refine ⟨Ahead_upd i _ hs1 (fun hu' hr' => ?_), ?_⟩
    · rw [ht] at hu' hr' ⊢
      obtain ⟨b1, b2, b3, b4⟩ := key hu' hr'
      exact ⟨b1, b2, Nat.le_of_lt b3, fun _ => b3, b4⟩
    · rw [timer_upd_same _ hl1, ht]
      intro hu' hr'
      exact (key hu' hr').2.2.1

theorem schedule_ahead {cc : Nat → State → Except Fault State} {q : PushOracle}
    {k : Nat} {a : sched_args} {s s' : State} {i : Nat} (hcc : Aheads cc) (hcalm : Calm cc)
    (hkeep : Keeps cc) (ha : a.period_ms < 4294967296)
    (hs : Ahead k s) (h : schedule_internal cc q a s = Except.ok (i, s')) : Ahead k s' := by
  have hroom := hs.room
  rw [schedule_eq] at h
  split at h
  · cases h
  split at h
  · cases h
  next hrz =>
  split at h
  · cases h
  next i0 hff =>
  obtain ⟨hl, _, _⟩ := find_free_state hff
  split at h
  · next hz =>
    have hrep : a.repeatable = false := by
      cases hr : a.repeatable
      · rfl
      · exact absurd ⟨hr, by omega⟩ hrz
    split at h
    · cases h
    next s3 h3 =>
    injection h with h
    injection h with h1 h2
    subst h1; subst h2
    have hs2 : Ahead k (State.upd { s with primask := 1 } i0
        (fun _ => fresh_timer a s.tick_count)) :=
      Ahead_upd i0 _ (Ahead_congr (s := s) rfl rfl hs)
        (fun _ hr => by
          have hr' : a.repeatable = true := hr
          rw [hrep] at hr'; cases hr')
    have ht : (State.upd { s with primask := 1 } i0
        (fun _ => fresh_timer a s.tick_count)).timer i0 = fresh_timer a s.tick_count := by
      rw [timer_upd, if_pos ⟨rfl, hl⟩]
    exact Ahead_congr (s := s3) rfl rfl
      (on_timer_timeout_ahead hcc hcalm hkeep (by rw [ht]; rfl)
        (fun hr => by
          rw [ht] at hr
          have hr' : a.repeatable = true := hr
          rw [hrep] at hr'; cases hr') hs2 h3).1
  · next hz =>
    injection h with h
    injection h with h1 h2
    subst h1; subst h2
    refine Ahead_upd i0 _ hs (fun _ _ => ?_)
    show 0 < a.period_ms ∧ a.period_ms < 4294967296 ∧
      s.tick_count ≤ wrap64 (s.tick_count + a.period_ms) ∧
      (i0 < k → s.tick_count < wrap64 (s.tick_count + a.period_ms)) ∧
      wrap64 (s.tick_count + a.period_ms) ≤ s.tick_count + a.period_ms
    unfold wrap64
    omega

theorem run_actions_ahead {cc : Nat → State → Except Fault State} {q : PushOracle}
    {k : Nat} (hcc : Aheads cc) (hcalm : Calm cc) (hkeep : Keeps cc) (l : List Action)
    (hl : ∀ a, Action.schedule a ∈ l → a.period_ms < 4294967296) {s s' : State}
    (hs : Ahead k s) (h : run_actions cc q l s = Except.ok s') : Ahead k s' := by
  induction l generalizing s with
  | nil =>
    unfold run_actions at h
    injection h with h; subst h; exact hs
  | cons a rest ih =>
    unfold run_actions at h
    split at h
    · cases h
    next s1 h1 =>
    refine ih (fun b hb => hl b (List.mem_cons_of_mem _ hb)) ?_ h
    cases a with
    | cancel hd => exact cancel_ahead (by simpa only [run_action] using h1) hs
    | schedule a =>
      simp only [run_action] at h1
      split at h1
      · cases h1
      next r hr =>
      injection h1 with h1
      subst h1
      exact schedule_ahead (i := r.1) hcc hcalm hkeep (hl a (List.mem_cons_self _ _)) hs hr

theorem call_callback_ahead {prog : Prog} (hb : Bounded prog) (q : PushOracle) (fuel : Nat) :
    Aheads (call_callback prog q fuel) := by
  induction fuel with
  | zero => intro k j s s' h; simp [call_callback] at h
  | succ n ih =>
    intro k j s s' h hs
    unfold call_callback at h
    simp only at h
    refine run_actions_ahead ih (call_callback_calm prog q n) (call_callback_keeps prog q n) _
      (fun a ha => hb _ _ _ a ha) ?_ h
    exact Ahead_congr (s := s) rfl rfl hs

theorem on_timer_event_ahead {cc : Nat → State → Except Fault State} {k i : Nat}
    {s s' : State} (hcc : Aheads cc) (hs : Ahead k s)
    (h : on_timer_event cc i s = Except.ok s') : Ahead k s' := by
  rw [on_timer_event_eq] at h
  split at h
  · cases h
  split at h
  · cases h
  split at h
  · injection h with h; subst h
    exact Ahead_upd_flags i _ hs (fun t => ⟨fun hc => (by cases hc), rfl, rfl, rfl⟩)
  split at h
  · cases h
  next s2 h2 =>
  injection h with h; subst h
  refine Ahead_upd_flags i _ (hcc _ _ _ _ h2 hs) (fun t => ?_)
  unfold after_event
  split
  · exact ⟨fun hc => (by cases hc), rfl, rfl, rfl⟩
  · exact ⟨fun hc => hc, rfl, rfl, rfl⟩

/-- The visit of slot `i` moves the scan past it: its due tick is then after
the counter. -/
theorem tick_visit_ahead {cc : Nat → State → Except Fault State} {q : PushOracle}
    {i : Nat} {s s' : State} (hcc : Aheads cc) (hcalm : Calm cc) (hkeep : Keeps cc)
    (hs : Ahead i s) (h : tick_visit cc q i s = Except.ok s') : Ahead (i + 1) s' := by
  have hroom := hs.room
  have pass : ∀ {r : State}, Ahead i r →
      ((r.timer i).used = true → (r.timer i).repeatable = true →
        r.tick_count < (r.timer i).next_tick_count) → Ahead (i + 1) r := by
    intro r hr hi
    refine ⟨hr.room, fun j hu hrep => ?_⟩
    obtain ⟨a1, a2, a3, a4, a5⟩ := hr.due j hu hrep
    refine ⟨a1, a2, a3, fun hj => ?_, a5⟩
    by_cases hji : j = i
    · subst hji; exact hi hu hrep
    · exact a4 (by omega)
  unfold tick_visit at h
  split at h
  · next hdue =>
    have hl := used_lt s i hdue.1
    split at h
    · split at h
      · cases h
      next hrep =>
      injection h with h; subst h
      have hrep' : (s.timer i).repeatable = true := by simpa using hrep
      obtain ⟨a1, a2, _, _, _⟩ := hs.due i hdue.1 hrep'
      have key : s.tick_count < wrap64 ((s.timer i).next_tick_count + 1) ∧
          wrap64 ((s.timer i).next_tick_count + 1) ≤ s.tick_count + (s.timer i).period := by
        rw [hdue.2]; unfold wrap64; omega
      refine pass (Ahead_upd i _ hs (fun _ _ => ⟨a1, a2, Nat.le_of_lt key.1, fun _ => key.1, key.2⟩)) ?_
      rw [timer_upd_same _ hl]
      intro _ _
      exact key.1
    · obtain ⟨g1, g2⟩ := on_timer_timeout_ahead hcc hcalm hkeep hdue.1 (fun _ => hdue.2) hs h
      exact pass g1 g2
  · next hnd =>
    injection h with h; subst h
    refine pass hs (fun hu hrep => ?_)
    obtain ⟨_, _, a3, _, _⟩ := hs.due i hu hrep
    have hne : (s.timer i).next_tick_count ≠ s.tick_count := fun hc => hnd ⟨hu, hc⟩
    omega

theorem tick_scan_ahead {cc : Nat → State → Except Fault State} {q : PushOracle}
    (hcc : Aheads cc) (hcalm : Calm cc) (hkeep : Keeps cc) (n : Nat) {i : Nat}
    {s s' : State} (hs : Ahead i s) (h : tick_scan cc q n i s = Except.ok s') :
    Ahead (i + n) s' := by
  induction n generalizing i s with
  | zero =>
    unfold tick_scan at h
    injection h with h; subst h; exact hs
  | succ n ih =>
    unfold tick_scan at h
    split at h
    · cases h
    next s1 h1 =>
    have := ih (tick_visit_ahead hcc hcalm hkeep hs h1) h
    rw [show i + (n + 1) = i + 1 + n by omega]
    exact this

theorem Ahead_zero : Ahead timer_count State.zero := by
  have hz : ∀ i, State.zero.timer i = timer_zero := fun i => by
    unfold State.timer State.zero
    rw [List.getD_eq_getElem?_getD, List.getElem?_replicate]
    split <;> rfl
  exact ⟨by decide, fun i hu => (by rw [hz] at hu; cases hu)⟩

/-- The state at the start of a run of the tick handler: the counter has been
incremented and the scan is at slot 0. -/
theorem Ahead_tick {s : State} (hi : Inv s) (hs : Ahead timer_count s)
    (hroom : s.tick_count + 1 + 4294967296 < 18446744073709551616) :
    Ahead 0 { s with tick_count := wrap64 (s.tick_count + 1) } := by
  have e : wrap64 (s.tick_count + 1) = s.tick_count + 1 := by unfold wrap64; omega
  refine ⟨?_, fun i hu hr => ?_⟩
  · show wrap64 (s.tick_count + 1) + 4294967296 < 18446744073709551616
    rw [e]; exact hroom
  · have hu' : (s.timer i).used = true := hu
    have hr' : (s.timer i).repeatable = true := hr
    obtain ⟨a1, a2, a3, a4, a5⟩ := hs.due i hu' hr'
    have hl := used_lt s i hu'
    rw [hi.len] at hl
    have a6 := a4 hl
    show 0 < (s.timer i).period ∧ (s.timer i).period < 4294967296 ∧
      wrap64 (s.tick_count + 1) ≤ (s.timer i).next_tick_count ∧
      (i < 0 → wrap64 (s.tick_count + 1) < (s.timer i).next_tick_count) ∧
      (s.timer i).next_tick_count ≤ wrap64 (s.tick_count + 1) + (s.timer i).period
    rw [e]
    omega

theorem step_ahead {prog : Prog} (hb : Bounded prog) (fuel : Nat) (q0 : PushOracle) (op : Op)
    {s s' : State} (hi : Inv s) (hs : Ahead timer_count s)
    (hop : ∀ a q, op = Op.schedule a q → a.period_ms < 4294967296)
    (hroom : op.ticking = true → s.tick_count + 1 + 4294967296 < 18446744073709551616)
    (h : step prog fuel q0 op s = Except.ok s') : Ahead timer_count s' := by
  cases op with
  | init b f =>
    simp only [step, scheduler_init] at h
    split at h
    · cases h
    next r hr =>
    split at hr
    · cases hr
    split at hr
    · cases hr
    injection hr with hr
    subst hr
    injection h with h
    subst h
    exact Ahead_congr (s := s) rfl rfl hs
  | schedule a q =>
    simp only [step] at h
    split at h
    · cases h
    next r hr =>
    injection h with h
    subst h
    exact schedule_ahead (i := r.1) (call_callback_ahead hb q fuel)
      (call_callback_calm prog q fuel) (call_callback_keeps prog q fuel) (hop a q rfl) hs hr
  | cancel hd => exact cancel_ahead (by simpa only [step] using h) hs
  | tick q =>
    simp only [step, timer_callback_irql] at h
    have := tick_scan_ahead (call_callback_ahead hb q fuel) (call_callback_calm prog q fuel)
      (call_callback_keeps prog q fuel) _ (Ahead_tick hi hs (hroom rfl)) h
    rw [Nat.zero_add] at this
    exact this
  | drain =>
    simp only [step, event_queue_drain] at h
    split at h
    · injection h with h; subst h; exact hs
    next i rest hq =>
    refine on_timer_event_ahead (call_callback_ahead hb q0 fuel) ?_ h
    exact Ahead_congr (s := s) rfl rfl hs

theorem run_ahead {prog : Prog} (hb : Bounded prog) (fuel : Nat) (q0 : PushOracle)
    (ops : List Op) {s s' : State} (hi : Inv s) (hs : Ahead timer_count s)
    (hops : ∀ a q, Op.schedule a q ∈ ops → a.period_ms < 4294967296)
    (hno : s.tick_count + ticks ops + 4294967296 < 18446744073709551616)
    (h : run prog fuel q0 ops s = Except.ok s') : Ahead timer_count s' := by
  induction ops generalizing s with
  | nil =>
    rw [run_nil] at h
    injection h with h; subst h; exact hs
  | cons op rest ih =>
    obtain ⟨s1, h1, h2⟩ := run_cons h
    obtain ⟨e1, _⟩ := step_regs prog fuel q0 op h1
    rw [ticks_cons] at hno
    refine ih (step_inv prog fuel q0 op hi h1)
      (step_ahead hb fuel q0 op hi hs (fun a q ha => hops a q (by rw [ha]; exact List.mem_cons_self _ _))
        (fun ht => by rw [if_pos ht] at hno; omega) h1)
      (fun a q ha => hops a q (List.mem_cons_of_mem _ ha)) ?_ h2
    rw [e1]
    by_cases ht : op.ticking = true
    · rw [if_pos ht] at hno ⊢
      unfold wrap64; omega
    · rw [if_neg ht] at hno ⊢
      omega

theorem Bounded_quiet : Bounded quiet := fun _ _ _ _ h => by simp [quiet] at h

/-- C28: with callbacks of any kind that pass periods fitting `uint32_t`, and
as long as the tick counter and the due ticks stay below `2^64` (the run has
fewer than `2^64 - 2^32` ticks), after each complete operation every used
repeatable slot has a positive period and a due tick after the counter, at most
one period ahead.  During a run of the tick handler, when the scan reaches slot
`n`, the due tick of every used repeatable slot is the counter or later, and
later for the slots already passed: the equality test meets the due tick of
every repeatable slot. -/
theorem C28_repeatable_due_tick_ahead (prog : Prog) (fuel : Nat) (q0 : PushOracle)
    (ops : List Op) (s : State) (hb : Bounded prog)
    (hops : ∀ a q, Op.schedule a q ∈ ops → a.period_ms < 4294967296)
    (hno : ticks ops + 4294967296 < 18446744073709551616)
    (hr : run prog fuel q0 ops State.zero = Except.ok s) :
    (∀ i, (s.timer i).used = true → (s.timer i).repeatable = true →
      s.tick_count < (s.timer i).next_tick_count ∧
      (s.timer i).next_tick_count ≤ s.tick_count + (s.timer i).period ∧
      0 < (s.timer i).period) ∧
    (∀ q n s1, ticks ops + 1 + 4294967296 < 18446744073709551616 →
      tick_scan (call_callback prog q fuel) q n 0
        { s with tick_count := wrap64 (s.tick_count + 1) } = Except.ok s1 →
      s1.tick_count = s.tick_count + 1 ∧
      ∀ i, (s1.timer i).used = true → (s1.timer i).repeatable = true →
        s1.tick_count ≤ (s1.timer i).next_tick_count ∧
        (i < n → s1.tick_count < (s1.timer i).next_tick_count)) := by
  have hi := run_inv prog fuel q0 ops Inv_zero hr
  have ha : Ahead timer_count s :=
    run_ahead hb fuel q0 ops Inv_zero Ahead_zero hops
      (by show 0 + ticks ops + 4294967296 < 18446744073709551616; omega) hr
  have ht : s.tick_count = ticks ops := by
    rw [run_tick_count prog fuel q0 ops (by decide) hr]
    show wrap64 (0 + ticks ops) = ticks ops
    unfold wrap64; omega
  refine ⟨fun i hu hrep => ?_, fun q n s1 hroom hscan => ?_⟩
  · obtain ⟨a1, _, _, a4, a5⟩ := ha.due i hu hrep
    have hl := used_lt s i hu
    rw [hi.len] at hl
    exact ⟨a4 hl, a5, a1⟩
  · have h0 := Ahead_tick hi ha (by rw [ht]; exact hroom)
    have h1 := tick_scan_ahead (call_callback_ahead hb q fuel) (call_callback_calm prog q fuel)
      (call_callback_keeps prog q fuel) n h0 hscan
    rw [Nat.zero_add] at h1
    refine ⟨?_, fun i hu hrep => ?_⟩
    · have := tick_scan_keeps (call_callback_keeps prog q fuel) n 0 hscan
      have e : s1.tick_count = wrap64 (s.tick_count + 1) := congrArg Prod.fst this
      rw [e]; unfold wrap64; omega
    · obtain ⟨_, _, a3, a4, _⟩ := h1.due i hu hrep
      exact ⟨a3, a4⟩

/-- An instance of C28: a period of 3 ms registered at tick 0 is due at tick 3. -/
theorem C28_repeatable_due_tick_ahead_witness :
    (State.armed (sample_args true 3 true)).tick_count <
      ((State.armed (sample_args true 3 true)).timer 0).next_tick_count :=
  ((C28_repeatable_due_tick_ahead quiet 1 always
    [Op.init true 72000000, Op.schedule (sample_args true 3 true) always]
    (State.armed (sample_args true 3 true)) Bounded_quiet
    (fun a q h => by
      simp at h
      rw [h.1]; decide)
    (by decide) rfl).1 0 rfl rfl).1

/-! ## C29: frame of cancel and schedule -/

/-- C29: a successful cancellation changes one flag of the slot of its handle,
`used` or `canceled`, and nothing else; a successful registration with period
greater than 0 changes only the slot it claims.  Both leave the tick counter,
the initialized flag, the event queue (and the interrupt mask and the record of
events) and every other slot as they were.  The slot a registration writes is
given by its arguments and the tick counter alone: two registrations with the
same arguments at the same counter value write the same slot contents, whatever
the claimed slots held before. -/
theorem C29_frame_of_cancel_and_schedule (cc : Nat → State → Except Fault State)
    (q : PushOracle) :
    (∀ (h : Nat) (s s' : State), scheduler_cancel_timer h s = Except.ok s' →
      s'.tick_count = s.tick_count ∧
      s'.scheduler_initialized = s.scheduler_initialized ∧
      s'.queue = s.queue ∧ s'.primask = s.primask ∧ s'.trace = s.trace ∧
      (∀ j, j ≠ h → s'.timer j = s.timer j) ∧
      (s'.timer h = { s.timer h with used := false } ∨
       s'.timer h = { s.timer h with canceled := true })) ∧
    (∀ (a : sched_args) (s s' : State) (h : Nat), 0 < a.period_ms →
      schedule_internal cc q a s = Except.ok (h, s') →
      s'.tick_count = s.tick_count ∧
      s'.scheduler_initialized = s.scheduler_initialized ∧
      s'.queue = s.queue ∧ s'.primask = s.primask ∧ s'.trace = s.trace ∧
      (∀ j, j ≠ h → s'.timer j = s.timer j) ∧
      s'.timer h =
        { used := true, repeatable := a.repeatable, canceled := false, pending := false,
          irql := a.irql, period := a.period_ms,
          next_tick_count := (s.tick_count + a.period_ms) % 18446744073709551616,
          type := a.type, callback := a.callback, callback_arg := a.callback_arg,
          debug_name := a.debug_name }) ∧
    (∀ (a : sched_args) (s r s' r' : State) (h k : Nat), 0 < a.period_ms →
      s.tick_count = r.tick_count →
      schedule_internal cc q a s = Except.ok (h, s') →
      schedule_internal cc q a r = Except.ok (k, r') →
      s'.timer h = r'.timer k) := by
  refine ⟨fun h s s' hc => ?_, fun a s s' h hP hr => ?_, fun a s r s' r' h k hP ht hs hr => ?_⟩
  · obtain ⟨_, hu, rfl⟩ := cancel_eq hc
    have hl := used_lt s h hu
    refine ⟨rfl, rfl, rfl, rfl, rfl, fun j hj => timer_upd_ne _ hj, ?_⟩
    rw [timer_upd_same _ hl]
    by_cases hp : (s.timer h).pending = true
    · right; simp [hp]
    · left; simp [hp]
  · obtain ⟨hff, _, rfl⟩ := schedule_pos (Nat.pos_iff_ne_zero.1 hP) hr
    obtain ⟨hl, _, _⟩ := find_free_state hff
    refine ⟨rfl, rfl, rfl, rfl, rfl, fun j hj => timer_upd_ne _ hj, ?_⟩
    rw [timer_upd_same _ hl]
    rfl
  · obtain ⟨hff, _, rfl⟩ := schedule_pos (Nat.pos_iff_ne_zero.1 hP) hs
    obtain ⟨hl, _, _⟩ := find_free_state hff
    obtain ⟨hff2, _, rfl⟩ := schedule_pos (Nat.pos_iff_ne_zero.1 hP) hr
    obtain ⟨hl2, _, _⟩ := find_free_state hff2
    rw [timer_upd_same _ hl, timer_upd_same _ hl2, ht]

/-- An instance of C29: a registration that reuses slot 0 of the state in which
the consumer discarded a canceled event, where the slot is left with `pending`
and `canceled` set, writes the same slot as a registration in the empty pool. -/
theorem C29_frame_of_cancel_and_schedule_witness :
    (State.discarded.timer 0).pending = true ∧ (State.discarded.timer 0).canceled = true ∧
    (∃ s', schedule_internal (call_callback quiet always 1) always (sample_args true 4 true)
        State.discarded = Except.ok (0, s') ∧
      s'.timer 0 = fresh_timer (sample_args true 4 true) 1 ∧
      s'.queue = State.discarded.queue ∧ s'.tick_count = State.discarded.tick_count ∧
      s'.timer 0 = ({ State.ready with tick_count := 1 }.upd 0
        (fun _ => fresh_timer (sample_args true 4 true) 1)).timer 0) :=
  ⟨rfl, rfl, _, rfl,
    ((C29_frame_of_cancel_and_schedule (call_callback quiet always 1) always).2.1
      (sample_args true 4 true) State.discarded _ 0 (by decide) rfl).2.2.2.2.2.2,
    ((C29_frame_of_cancel_and_schedule (call_callback quiet always 1) always).2.1
      (sample_args true 4 true) State.discarded _ 0 (by decide) rfl).2.2.1,
    ((C29_frame_of_cancel_and_schedule (call_callback quiet always 1) always).2.1
      (sample_args true 4 true) State.discarded _ 0 (by decide) rfl).1,
    (C29_frame_of_cancel_and_schedule (call_callback quiet always 1) always).2.2
      (sample_args true 4 true) State.discarded { State.ready with tick_count := 1 } _ _ 0 0
      (by decide) rfl rfl rfl⟩

/-! ## C30: a timer that fires twice in one tick -/

/-- Dispatch of an interrupt-context slot whose callback makes no scheduler
call, in closed form. -/
theorem timeout_irql_silent (prog : Prog) (q : PushOracle) (fuel i : Nat) (s : State)
    (hs : ∀ x y, prog (s.timer i).callback x y = [])
    (hu : (s.timer i).used = true) (hc : (s.timer i).canceled = false)
    (hp : (s.timer i).pending = false) (hi : (s.timer i).irql = true) :
    ∃ s', on_timer_timeout (call_callback prog q (fuel + 1)) q i s = Except.ok s' ∧
      s'.trace = s.trace ++
        [Obs.call i s.tick_count (s.timer i).callback (call_arg (s.timer i))] ∧
      s'.timer i = { s.timer i with
        next_tick_count :=
          if (s.timer i).repeatable then
            wrap64 ((s.timer i).next_tick_count + (s.timer i).period)
          else (s.timer i).next_tick_count } ∧
      (∀ j, j ≠ i → s'.timer j = s.timer j) ∧ s'.queue = s.queue ∧ s'.regs = s.regs := by
  have hl := used_lt s i hu
  have hs1 : ∀ x y, prog ((s.upd i (fun t => { t with pending := true })).timer i).callback x y
      = [] := by
    intro x y
    rw [timer_upd_same _ hl]
    exact hs x y
  unfold on_timer_timeout
  rw [if_pos hi, if_neg (not_not.2 hu), if_neg (by simp [hc]), if_neg (by simp [hp]),
    call_silent prog q fuel i _ hs1]
  simp only
  rw [if_neg (by simp [timer_upd, hl, hc])]
  cases hr : (s.timer i).repeatable
  · rw [if_neg (by simp [timer_upd, hl, hr])]
    refine ⟨_, rfl, ?_, ?_, fun j hj => ?_, rfl, rfl⟩
    · simp [timer_upd, hl, call_arg]
    · simp [timer_upd, hl, hp, hr]
    · simp [timer_upd, hj]
  · rw [if_pos (by simp [timer_upd, hl, hr])]
    refine ⟨_, rfl, ?_, ?_, fun j hj => ?_, rfl, rfl⟩
    · simp [timer_upd, hl, call_arg]
    · simp [timer_upd, hl, hp, hr]
    · simp [timer_upd, hj]

end Scheduler
namespace Scheduler

/-- Registration of a one-shot interrupt-context timer with period 0 whose
callback makes no scheduler call: the callback is invoked once inside
`schedule_internal`, and the slot is left used, not pending, with the counter
as its due tick. -/
theorem zero_period_irql (prog : Prog) (q : PushOracle) (fuel : Nat) (a : sched_args)
    (s : State) (j : Nat) (hs : ∀ x y, prog a.callback x y = [])
    (hinit : s.scheduler_initialized = true) (hfree : find_free s.timers 0 = Except.ok j)
    (hp : a.period_ms = 0) (hnr : a.repeatable = false) (hirq : a.irql = true) :
    ∃ s', schedule_internal (call_callback prog q (fuel + 1)) q a s = Except.ok (j, s') ∧
      s'.trace = s.trace ++
        [Obs.call j s.tick_count a.callback (call_arg (fresh_timer a s.tick_count))] ∧
      s'.timer j = fresh_timer a s.tick_count ∧ s'.tick_count = s.tick_count := by
  obtain ⟨hl, _, _⟩ := find_free_state hfree
  have ht : (State.upd { s with primask := 1 } j (fun _ => fresh_timer a s.tick_count)).timer j =
      fresh_timer a s.tick_count := by
    rw [timer_upd, if_pos ⟨rfl, hl⟩]
  unfold schedule_internal
  rw [if_neg (not_not.2 hinit), if_neg (by simp [hnr])]
  simp only
  rw [hfree]
  simp only
  rw [if_pos hp]
  show ∃ s', (match on_timer_timeout (call_callback prog q (fuel + 1)) q j
      (State.upd { s with primask := 1 } j (fun _ => fresh_timer a s.tick_count)) with
    | Except.error e => Except.error e
    | Except.ok s3 => Except.ok (j, ({ s3 with primask := s.primask } : State))) =
      Except.ok (j, s') ∧ _
  obtain ⟨s3, h1, h2, h3, _, _, h6⟩ := timeout_irql_silent prog q fuel j
    (State.upd { s with primask := 1 } j (fun _ => fresh_timer a s.tick_count))
    (by rw [ht]; exact hs) (by rw [ht]; rfl) (by rw [ht]; rfl) (by rw [ht]; rfl)
    (by rw [ht]; exact hirq)
  rw [h1]
  rw [ht] at h2 h3
  refine ⟨_, rfl, h2, ?_, ?_⟩
  · show s3.timer j = _
    rw [h3]
    simp [fresh_timer, hnr]
  · show s3.tick_count = _
    exact congrArg Prod.fst h6

/-- C30: one timer can fire twice in one tick.  In the run from start-up, the
callback of the timer in slot 0 is invoked at tick 1 and registers a one-shot
interrupt-context timer of period 0; it lands in slot 1, its callback is
invoked inside `schedule_internal`, and again when the scan of the same tick
reaches slot 1: the record shows two invocations of slot 1 at tick 1, and the
slot is still used with due tick 1.  In general, such a registration (with a
callback that makes no scheduler call) invokes the callback once and leaves
the slot used, not pending, with due tick equal to the counter; and the loop
body of the tick handler, on any state whose counter and slot are as the
registration left them, invokes the callback once more and leaves the slot
used. -/
theorem C30_fires_twice_in_one_tick :
    (∃ s, run (reentrant true) 2 always
        [Op.init true 72000000, Op.schedule reentrant_args always, Op.tick always]
        State.zero = Except.ok s ∧
      s.trace = [Obs.call 0 1 1 none, Obs.call 1 1 2 none, Obs.call 1 1 2 none] ∧
      invocations 1 s.trace = 2 ∧ s.tick_count = 1 ∧
      (s.timer 1).used = true ∧ (s.timer 1).next_tick_count = 1) ∧
    (∀ (prog : Prog) (q : PushOracle) (fuel : Nat) (a : sched_args) (s : State) (j : Nat),
      (∀ x y, prog a.callback x y = []) → s.scheduler_initialized = true →
      s.tick_count < 18446744073709551616 →
      find_free s.timers 0 = Except.ok j →
      a.period_ms = 0 → a.repeatable = false → a.irql = true →
      ∃ s', schedule_internal (call_callback prog q (fuel + 1)) q a s = Except.ok (j, s') ∧
        invocations j s'.trace = invocations j s.trace + 1 ∧
        (s'.timer j).used = true ∧ (s'.timer j).pending = false ∧
        (s'.timer j).next_tick_count = s'.tick_count ∧
        ∀ r : State, r.timer j = s'.timer j → r.tick_count = s'.tick_count →
          ∃ r', tick_visit (call_callback prog q (fuel + 1)) q j r = Except.ok r' ∧
            invocations j r'.trace = invocations j r.trace + 1 ∧
            (r'.timer j).used = true) := by
  refine ⟨⟨_, rfl, rfl, rfl, rfl, rfl, rfl⟩, ?_⟩
  intro prog q fuel a s j hs hinit hlt hfree hp hnr hirq
  obtain ⟨s', h1, h2, h3, h4⟩ := zero_period_irql prog q fuel a s j hs hinit hfree hp hnr hirq
  have hn : (s'.timer j).next_tick_count = s'.tick_count := by
    rw [h3, h4]
    show wrap64 (s.tick_count + a.period_ms) = _
    rw [hp]; unfold wrap64; omega
  refine ⟨s', h1, ?_, by rw [h3]; rfl, by rw [h3]; rfl, hn, fun r hr1 hr2 => ?_⟩
  · rw [h2, invocations_append]
    simp
  · have hu : (r.timer j).used = true := by rw [hr1, h3]; rfl
    obtain ⟨r', g1, g2, g3, _⟩ := timeout_irql_silent prog q fuel j r
      (by rw [hr1, h3]; exact hs) hu (by rw [hr1, h3]; rfl) (by rw [hr1, h3]; rfl)
      (by rw [hr1, h3]; exact hirq)
    refine ⟨r', ?_, ?_, ?_⟩
    · unfold tick_visit
      rw [if_pos ⟨hu, by rw [hr1, hn, hr2]⟩, if_neg (by rw [hr1, h3]; simp [fresh_timer])]
      exact g1
    · rw [g2, invocations_append]
      simp
    · rw [g3]; exact hu

end Scheduler
